import Mathlib

/-!
# go-jsonera: era tracking of JSON documents

A shallow embedding of `jsonera.go` (package `jsonera`) and the theorems that
settle the properties stated about it.

Conventions of the embedding

* A Go `interface{}` is a `Value`: a decoded JSON value, or the sentinel
  `jsonvisitor.Undefined` that the pair walker passes for a property that does
  not exist. A document is a value in which the sentinel does not occur
  (`Value.isDoc`).
* A Go `map[string]interface{}` (`jsonObj`) is an association list; a key is
  read with `List.lookup` (first match) and written with `jsonObj.set`.
* Numbers carry their Go dynamic type (`GoNum`). A `float64` / `float32` is
  represented by the rational number it denotes; JSON has no NaN and no
  infinities, and `+0` and `-0` (equal under Go's `==`) are both `0`.
* `uint32` arithmetic is `Nat` arithmetic modulo `2 ^ 32`.
* The conversion `uint64(x)` of a `float64` whose truncation is not a `uint64` is
  left to the implementation by the Go specification; the embedding takes the
  implementation's result as the parameter `impl` of every function that
  contains the conversion, and the theorems hold for every `impl`.
* The package `jsonp` works on the characters of a string; `strings.Replacer`
  and `strings.Split` are embedded from their documented behaviour.
* The recursion of `buildSubEra` follows the nesting of the two documents; the
  embedding bounds it by a fuel argument which `buildNewEra` sets to the
  nesting depth of its (wrapped) arguments.
-/

namespace Jsonera

/-! ## Values -/

/-- The Go integer types that `normalizeNumber` converts. -/
inductive IntKind where
  | int | int8 | int16 | int32 | int64
  | uint | uint8 | uint16 | uint32 | uint64
  deriving DecidableEq, Repr

/-- A Go number together with its dynamic type. -/
inductive GoNum where
  | int (k : IntKind) (v : Int)
  | float32 (v : ℚ)
  | float64 (v : ℚ)
  deriving DecidableEq

/-- A Go `interface{}`: a decoded JSON value or the `Undefined` sentinel. -/
inductive Value where
  | undefined
  | null
  | bool (b : Bool)
  | num (n : GoNum)
  | str (s : String)
  | arr (xs : List Value)
  | obj (kvs : List (String × Value))

/-- The type alias `jsonObj = map[string]interface{}`. -/
abbrev jsonObj := List (String × Value)

/-- The sentinel `jsonvisitor.Undefined`: the property does not exist. -/
abbrev Undefined : Value := Value.undefined

instance (v : Value) : Decidable (v = Undefined) :=
  match v with
  | .undefined => isTrue rfl
  | .null => isFalse (fun h => Value.noConfusion h)
  | .bool _ => isFalse (fun h => Value.noConfusion h)
  | .num _ => isFalse (fun h => Value.noConfusion h)
  | .str _ => isFalse (fun h => Value.noConfusion h)
  | .arr _ => isFalse (fun h => Value.noConfusion h)
  | .obj _ => isFalse (fun h => Value.noConfusion h)

/-- Map write `o[k] = v`: replaces the entry of `k`, or adds one. -/
def jsonObj.set : jsonObj → String → Value → jsonObj
  | [], k, v => [(k, v)]
  | (k', v') :: rest, k, v =>
    if k' = k then (k, v) :: rest else (k', v') :: jsonObj.set rest k v

/-- ChangeMode represents the kind of change. -/
inductive ChangeMode where
  | ChangeEqual
  | ChangeNew
  | ChangeUpdate
  | ChangeDelete
  deriving DecidableEq, Repr

export ChangeMode (ChangeEqual ChangeNew ChangeUpdate ChangeDelete)

/-- Change is a changed property. -/
structure Change where
  /-- Path is the complete path of the property. -/
  Path : List String
  /-- Era is the previous era number (a `uint64`). -/
  Era : Nat
  /-- Mode states which kind of change it was. -/
  Mode : ChangeMode
  deriving DecidableEq, Repr

inductive valType where
  | valTypeBasic
  | valTypeObject
  | valTypeArray
  deriving DecidableEq, Repr

export valType (valTypeBasic valTypeObject valTypeArray)

/-- The property name prefix that signals the era number. -/
def eraPrefixProp : String := "."

/-- The property name prefix that signals sub-properties. -/
def eraPrefixObj : String := "_"

def getValType : Value → valType
  | .obj _ => valTypeObject
  | .arr _ => valTypeArray
  | _ => valTypeBasic

/-! ## Numbers -/

/-- Number of low bits a natural number has beyond 53 significant bits. -/
def excessBits : Nat → Nat → Nat
  | 0, _ => 0
  | fuel + 1, n => if n < 2 ^ 53 then 0 else 1 + excessBits fuel (n / 2)

/-- Rounding of a natural number to 53 significant bits, ties to even. -/
def roundNat53 (n : Nat) : Nat :=
  let sh := excessBits 64 n
  if sh = 0 then n
  else
    let q := n / 2 ^ sh
    let r := n % 2 ^ sh
    let half := 2 ^ (sh - 1)
    let q' := if half < r ∨ (r = half ∧ q % 2 = 1) then q + 1 else q
    q' * 2 ^ sh

/-- The conversion `float64(v)` of an integer of at most 64 bits. -/
def float64OfInt (v : Int) : ℚ :=
  if v < 0 then -((roundNat53 v.natAbs : Nat) : ℚ) else ((roundNat53 v.natAbs : Nat) : ℚ)

/-- The conversion `uint64(x)` of a `float64`: the fraction is discarded
(truncation toward zero). When the truncated value is not a `uint64`, Go leaves
the result to the implementation: `impl x` stands for that result, whatever the
implementation makes of it. -/
def uint64OfFloat (impl : ℚ → Nat) (x : ℚ) : Nat :=
  let t := Int.tdiv x.num (x.den : Int)
  if 0 ≤ t ∧ t < 2 ^ 64 then t.toNat else impl x % 2 ^ 64

/-- normalizeNumber normalizes any number to float64. If the supplied value is
not a number, the result is unchanged. -/
def normalizeNumber : Value → Value
  | .num (.int _ v) => .num (.float64 (float64OfInt v))
  | .num (.float32 v) => .num (.float64 v)
  | num => num

/-- Go's `a == b` on two `interface{}` holding basic values: equal dynamic
types and equal values. Arrays and objects are not comparable in Go (the
comparison panics); `cmpBasicJSONVal` is only called on basic values and the
embedding answers `false` there. -/
def goEq : Value → Value → Bool
  | .undefined, .undefined => true
  | .null, .null => true
  | .bool a, .bool b => a == b
  | .num a, .num b => decide (a = b)
  | .str a, .str b => a == b
  | _, _ => false

/-- cmpBasicJSONVal compares basic JSON values: string, number, bool, nil. -/
def cmpBasicJSONVal (a b : Value) : ChangeMode :=
  if goEq (normalizeNumber a) (normalizeNumber b) then ChangeEqual else ChangeUpdate

/-! ## The pair walker -/

/-- The elements of an array as properties named by their decimal index. -/
def arrProps : Nat → List Value → List (String × Value)
  | _, [] => []
  | i, v :: vs => (toString i, v) :: arrProps (i + 1) vs

/-- The properties (name and value) of a value: the entries of an object, the
indexed elements of an array, none for a basic value or `Undefined`. -/
def props : Value → List (String × Value)
  | .obj kvs => kvs
  | .arr xs => arrProps 0 xs
  | _ => []

/-- The value of property `name` of `v`, or `Undefined`. -/
def getProp (v : Value) (name : String) : Value :=
  ((props v).lookup name).getD Undefined

/-- The property names present in `a` or in `b`, each one once. -/
def propNames (a b : Value) : List String :=
  ((props a).map Prod.fst ++ (props b).map Prod.fst).dedup

/-- Modelled from the spec: `jsonvisitor.PairVisitWithPath`, the pair walker of
the external package go-jsonvisitor, whose source is not part of this
repository. It calls the visitor with the path and both values (`Undefined`
where the path is missing in one document); when the visitor answers `true`
it visits, in the same way, every property name present in either value, each
exactly once. The order among sibling properties is unspecified; the model
takes them in the order of `propNames`. `fuel` bounds the depth of the
descent. -/
def PairVisitWithPath {σ : Type} :
    Nat → List String → Value → Value →
    (List String → Value → Value → σ → σ × Bool) → σ → σ
  | 0, _, _, _, _, s => s
  | fuel + 1, path, a, b, visitor, s =>
    let r := visitor path a b s
    if r.2 then
      (propNames a b).foldl
        (fun acc name =>
          PairVisitWithPath fuel (path ++ [name]) (getProp a name) (getProp b name) visitor acc)
        r.1
    else r.1

/-! ## The diff engine -/

/-- The type assertion `v.(float64)`. -/
def asFloat64 : Option Value → Option ℚ
  | some (.num (.float64 x)) => some x
  | _ => none

/-- The type assertion `v.(jsonObj)`; a failed assertion yields the nil map,
which reads like the empty map. -/
def asJsonObj : Option Value → jsonObj
  | some (.obj o) => o
  | _ => []

/-- buildSubEra builds the new era document and finds changes of a part of a
document. The function calls itself recursively if a property is an array or
object. The result is the updated `newEraObj`, the updated `*changes` and the
returned flag `changedSchema`. -/
def buildSubEra (impl : ℚ → Nat) :
    Nat → List String → Value → Value → jsonObj → jsonObj → Nat →
      List Change → jsonObj × List Change × Bool
  | 0, _, _, _, newEraObj, _, _, changes => (newEraObj, changes, false)
  | fuel + 1, path, newVal, oldVal, newEraObj, oldEraObj, newEra, changes =>
    let startPathLen := path.length
    -- walk over all properties of this array or object
    PairVisitWithPath 2 path newVal oldVal
      (fun path newVal oldVal st =>
        let newEraObj := st.1
        let changes := st.2.1
        let changedSchema := st.2.2
        let pathLen := path.length
        if pathLen = startPathLen then
          -- ignore the object/array itself, but visit the children
          (st, true)
        else
          let newType := getValType newVal
          let oldType := getValType oldVal
          let change :=
            if newVal = Undefined then ChangeDelete
            else if oldVal = Undefined then ChangeNew
            else if newType ≠ oldType then ChangeUpdate
            else if newType = valTypeBasic then cmpBasicJSONVal newVal oldVal
            else ChangeEqual
          let changedSchema := changedSchema || change = ChangeNew || change = ChangeDelete
          let name := path.getLastD ""
          let eraName := eraPrefixProp ++ name
          let eraObjName := eraPrefixObj ++ name
          -- visit children
          let oldSubEraObj := asJsonObj (oldEraObj.lookup eraObjName)
          let sub := buildSubEra impl fuel path newVal oldVal [] oldSubEraObj newEra changes
          let newSubEraObj := sub.1
          let changes := sub.2.1
          let subSchemaChanged := sub.2.2
          let newEraObj :=
            if newType ≠ valTypeBasic then newEraObj.set eraObjName (.obj newSubEraObj)
            else newEraObj
          let change :=
            if subSchemaChanged ∧ change = ChangeEqual then ChangeUpdate else change
          let oldEraVal := (asFloat64 (oldEraObj.lookup eraName)).getD (newEra : ℚ)
          let newEraVal := if change ≠ ChangeEqual then (newEra : ℚ) else oldEraVal
          let changes :=
            if change ≠ ChangeEqual then
              changes ++
                [{ Path := path.tail, Era := uint64OfFloat impl oldEraVal, Mode := change }]
            else changes
          let newEraObj :=
            if change ≠ ChangeDelete then newEraObj.set eraName (.num (.float64 newEraVal))
            else newEraObj
          -- don't visit recursively deeper
          ((newEraObj, changes, changedSchema), false))
      (newEraObj, changes, false)

/-- The first classification of a property by `buildSubEra`: presence first,
then the structural kind, then the comparison of basic values. -/
def classify (newVal oldVal : Value) : ChangeMode :=
  if newVal = Undefined then ChangeDelete
  else if oldVal = Undefined then ChangeNew
  else if getValType newVal ≠ getValType oldVal then ChangeUpdate
  else if getValType newVal = valTypeBasic then cmpBasicJSONVal newVal oldVal
  else ChangeEqual

/-- The body of the visitor of `buildSubEra` for one property (a path longer
than the start path), with the recursive call `recurse`; the state is
`newEraObj`, `*changes` and `changedSchema`. `buildSubEra_succ` shows that
`buildSubEra` folds it over the property names. -/
def visitProp (impl : ℚ → Nat)
    (recurse : List String → Value → Value → jsonObj → jsonObj → Nat → List Change →
      jsonObj × List Change × Bool)
    (path : List String) (newVal oldVal : Value) (oldEraObj : jsonObj) (newEra : Nat)
    (st : jsonObj × List Change × Bool) : jsonObj × List Change × Bool :=
  let change := classify newVal oldVal
  let name := path.getLastD ""
  let eraName := eraPrefixProp ++ name
  let eraObjName := eraPrefixObj ++ name
  let sub := recurse path newVal oldVal [] (asJsonObj (oldEraObj.lookup eraObjName)) newEra st.2.1
  let newEraObj :=
    if getValType newVal ≠ valTypeBasic then st.1.set eraObjName (.obj sub.1) else st.1
  let change := if sub.2.2 ∧ change = ChangeEqual then ChangeUpdate else change
  let oldEraVal := (asFloat64 (oldEraObj.lookup eraName)).getD (newEra : ℚ)
  let newEraVal := if change ≠ ChangeEqual then (newEra : ℚ) else oldEraVal
  let changes :=
    if change ≠ ChangeEqual then
      sub.2.1 ++ [{ Path := path.tail, Era := uint64OfFloat impl oldEraVal, Mode := change }]
    else sub.2.1
  let newEraObj :=
    if change ≠ ChangeDelete then newEraObj.set eraName (.num (.float64 newEraVal))
    else newEraObj
  (newEraObj, changes,
    st.2.2 || classify newVal oldVal = ChangeNew || classify newVal oldVal = ChangeDelete)

/-- Whether a property was added to or removed from a container: some property
name of `a` or `b` has no value in the other one. It is the flag that
`buildSubEra` returns (`buildSubEra_flag`). -/
def schemaChanged (a b : Value) : Bool :=
  (propNames a b).any
    (fun name => decide (getProp a name = Undefined) || decide (getProp b name = Undefined))

/-- The mode `buildSubEra` settles on for a property, after the escalation of
`ChangeEqual` to `ChangeUpdate` on a changed schema. -/
def finalMode (newVal oldVal : Value) : ChangeMode :=
  if schemaChanged newVal oldVal ∧ classify newVal oldVal = ChangeEqual then ChangeUpdate
  else classify newVal oldVal

/-- The value at a property path below `v`, or `Undefined`. -/
def getPath : Value → List String → Value
  | v, [] => v
  | v, name :: rest => getPath (getProp v name) rest

/-- The changes `buildSubEra` appends. -/
def subChanges (impl : ℚ → Nat) (fuel : Nat) (path : List String) (a b : Value)
    (oe : jsonObj) (n : Nat) : List Change :=
  (buildSubEra impl fuel path a b [] oe n []).2.1

/-- The era node `buildSubEra` fills, starting from an empty one. -/
def subEra (impl : ℚ → Nat) (fuel : Nat) (path : List String) (a b : Value)
    (oe : jsonObj) (n : Nat) : jsonObj :=
  (buildSubEra impl fuel path a b [] oe n []).1

/-- The previous era number of the property `name`, as `buildSubEra` reads it
from the old era node. -/
def oldEraOf (oe : jsonObj) (name : String) (n : Nat) : ℚ :=
  (asFloat64 (oe.lookup (eraPrefixProp ++ name))).getD (n : ℚ)

/-- The change `buildSubEra` reports for the property at `path`, if any. -/
def changeOf (impl : ℚ → Nat) (path : List String) (newVal oldVal : Value) (oe : jsonObj)
    (n : Nat) : List Change :=
  if finalMode newVal oldVal ≠ ChangeEqual then
    [{ Path := path.tail, Era := uint64OfFloat impl (oldEraOf oe (path.getLastD "") n),
       Mode := finalMode newVal oldVal }]
  else []

/-- Nesting depth of a value: `0` for a basic value. -/
def Value.depth : Value → Nat
  | .arr xs => depthList xs + 1
  | .obj kvs => depthFields kvs + 1
  | _ => 0
where
  depthList : List Value → Nat
    | [] => 0
    | v :: vs => max v.depth (depthList vs)
  depthFields : List (String × Value) → Nat
    | [] => 0
    | (_, v) :: kvs => max v.depth (depthFields kvs)

/-- buildNewEra finds all changes between an old and a new document. It also
creates a new era document. -/
def buildNewEra (impl : ℚ → Nat) (newDoc oldDoc : Value) (oldEraObj : jsonObj)
    (newEra : Nat) : jsonObj × List Change :=
  let changes : List Change := []
  let newEraObj : jsonObj := []
  -- pack the docs into a document
  let newDoc := Value.obj [("", newDoc)]
  let oldDoc := Value.obj [("", oldDoc)]
  let r := buildSubEra impl (max newDoc.depth oldDoc.depth) [] newDoc oldDoc
    newEraObj oldEraObj newEra changes
  (r.1, r.2.1)

/-! ## The era document -/

/-- EraDocument is a complete era representation. -/
structure EraDocument where
  /-- Doc is the current known version of the document. -/
  Doc : Value
  /-- Era holds the era numbers of the properties (an `interface{}`). -/
  Era : Value
  /-- DocEra is the current era number (a `uint32`). -/
  DocEra : Nat

/-- UpdateDoc updates the document and the era information. The result is the
state after the call and all found changes; `none` is the panic of the type
assertion `e.Era.(jsonObj)`. -/
def UpdateDoc (impl : ℚ → Nat) (e : EraDocument) (newDoc : Value) :
    Option (EraDocument × List Change) :=
  match e.Era with
  | .obj eraObj =>
    let r := buildNewEra impl newDoc e.Doc eraObj ((e.DocEra + 1) % 2 ^ 32)
    let newEraTree := r.1
    let changes := r.2
    if changes.length > 0 then
      -- the doc actually changed
      some ({ Doc := newDoc, Era := .obj newEraTree, DocEra := (e.DocEra + 1) % 2 ^ 32 }, changes)
    else
      some (e, changes)
  | _ => none

/-- NewEraDocument creates and initializes a new EraDocument. -/
def NewEraDocument (impl : ℚ → Nat) (doc : Value) : Option EraDocument :=
  let e : EraDocument := { Doc := Undefined, Era := .obj [], DocEra := 0 }
  (UpdateDoc impl e doc).map Prod.fst

/-- A document: a value in which the `Undefined` sentinel does not occur. -/
def Value.isDoc : Value → Bool
  | .undefined => false
  | .arr xs => isDocList xs
  | .obj kvs => isDocFields kvs
  | _ => true
where
  isDocList : List Value → Bool
    | [] => true
    | v :: vs => v.isDoc && isDocList vs
  isDocFields : List (String × Value) → Bool
    | [] => true
    | (_, v) :: kvs => v.isDoc && isDocFields kvs

/-- The era number `buildSubEra` stores for a property that exists in the new
document: the new era when the property changed, else its previous era. -/
def eraValOf (newVal oldVal : Value) (oe : jsonObj) (name : String) (n : Nat) : ℚ :=
  if finalMode newVal oldVal ≠ ChangeEqual then (n : ℚ) else oldEraOf oe name n

/-- The era node reached from `t` by following the child-slots `"_" ++ name`
along `path`: the node that holds the entries of the properties of the value
at `path`. -/
def eraNodeAt : jsonObj → List String → Option jsonObj
  | t, [] => some t
  | t, name :: rest =>
    match t.lookup (eraPrefixObj ++ name) with
    | some (.obj o) => eraNodeAt o rest
    | _ => none

/-- The entry of the property at `path` in the era tree `t`: follow the
child-slots along the path and read the key `pre ++ last segment`. -/
def eraEntry (t : jsonObj) (pre : String) : List String → Option Value
  | [] => none
  | [name] => t.lookup (pre ++ name)
  | name :: rest =>
    match t.lookup (eraPrefixObj ++ name) with
    | some (.obj o) => eraEntry o pre rest
    | _ => none

/-- The era node `node` mirrors the value `v`: its keys are `"." ++ name` for
exactly the properties of `v`, holding a number, and `"_" ++ name` for exactly
the properties of `v` that are objects or arrays, holding a node. -/
def NodeMirrors (node : jsonObj) (v : Value) : Prop :=
  (∀ key, key ∈ node.map Prod.fst ↔
      ∃ name, (key = eraPrefixProp ++ name ∧ getProp v name ≠ Undefined) ∨
        (key = eraPrefixObj ++ name ∧ getValType (getProp v name) ≠ valTypeBasic)) ∧
    (∀ name, getProp v name ≠ Undefined →
      ∃ x, node.lookup (eraPrefixProp ++ name) = some (.num (.float64 x))) ∧
    (∀ name, getValType (getProp v name) ≠ valTypeBasic →
      ∃ o, node.lookup (eraPrefixObj ++ name) = some (.obj o))

/-- Number of nodes of a document: the value itself and, for an array or an
object, the nodes of its elements or entries. -/
def Value.nodeCount : Value → Nat
  | .undefined => 0
  | .arr xs => 1 + nodeCountList xs
  | .obj kvs => 1 + nodeCountFields kvs
  | _ => 1
where
  nodeCountList : List Value → Nat
    | [] => 0
    | v :: vs => v.nodeCount + nodeCountList vs
  nodeCountFields : List (String × Value) → Nat
    | [] => 0
    | (_, v) :: kvs => v.nodeCount + nodeCountFields kvs

/-- The property names of every array and object inside the value are pairwise
distinct, as the keys of a Go map and the indices of a slice are. -/
def Value.distinctNames : Value → Bool
  | .arr xs => decide ((arrProps 0 xs).map Prod.fst).Nodup && distinctList xs
  | .obj kvs => decide (kvs.map Prod.fst).Nodup && distinctFields kvs
  | _ => true
where
  distinctList : List Value → Bool
    | [] => true
    | v :: vs => v.distinctNames && distinctList vs
  distinctFields : List (String × Value) → Bool
    | [] => true
    | (_, v) :: kvs => v.distinctNames && distinctFields kvs

/-- Every number stored anywhere inside the value is a `float64` era number
between `lo` and `hi`. -/
def Value.erasWithin (lo hi : Nat) : Value → Bool
  | .num (.float64 x) => decide ((lo : ℚ) ≤ x ∧ x ≤ (hi : ℚ))
  | .num _ => false
  | .arr xs => withinList xs
  | .obj kvs => withinFields kvs
  | _ => true
where
  withinList : List Value → Bool
    | [] => true
    | v :: vs => v.erasWithin lo hi && withinList vs
  withinFields : List (String × Value) → Bool
    | [] => true
    | (_, v) :: kvs => v.erasWithin lo hi && withinFields kvs

/-- The era documents obtained from `NewEraDocument` followed by a finite
sequence of `UpdateDoc` calls, each made while `DocEra` is below `2^32 - 1`. -/
inductive Reachable (impl : ℚ → Nat) : EraDocument → Prop
  | init (doc : Value) (e : EraDocument) : NewEraDocument impl doc = some e → Reachable impl e
  | step (e e1 : EraDocument) (doc : Value) (ch : List Change) :
      Reachable impl e → e.DocEra + 1 < 2 ^ 32 → UpdateDoc impl e doc = some (e1, ch) →
      Reachable impl e1

/-! ## Package jsonp -/

/-- The error values of package jsonp: `ErrMissingTokenPrefix` indicates that a
`"/"` was missing. -/
inductive ParseError where
  | ErrMissingTokenPrefix
  deriving DecidableEq, Repr

/-- The method `Replace` of a `strings.Replacer` built from the pairs
`(old, new)`: replacements are performed in the order they appear in the
target string, without overlapping matches, and the old strings are compared
in argument order. `skip` counts the characters of the current match that
are still to be dropped. -/
def replacerReplace (pairs : List (List Char × List Char)) : Nat → List Char → List Char
  | _, [] => []
  | skip + 1, _ :: cs => replacerReplace pairs skip cs
  | 0, c :: cs =>
    match pairs.find? (fun p => p.1.isPrefixOf (c :: cs)) with
    | some p => p.2 ++ replacerReplace pairs (p.1.length - 1) cs
    | none => c :: replacerReplace pairs 0 cs

/-- The pairs of `strings.NewReplacer("~1", "/", "~0", "~")`. -/
def decoder : List (List Char × List Char) :=
  [(['~', '1'], ['/']), (['~', '0'], ['~'])]

/-- The pairs of `strings.NewReplacer("~", "~0", "/", "~1")`. -/
def encoder : List (List Char × List Char) :=
  [(['~'], ['~', '0']), (['/'], ['~', '1'])]

/-- The function `strings.Split(s, sep)` for a separator of one character. -/
def stringsSplit (sep : Char) : List Char → List (List Char)
  | [] => [[]]
  | c :: cs =>
    if c = sep then [] :: stringsSplit sep cs
    else
      match stringsSplit sep cs with
      | seg :: rest => (c :: seg) :: rest
      | [] => [[c]]

/-- Parse parses a RFC6901 JSON Pointer into its parts. -/
def Parse (pointer : String) : Except ParseError (List String) :=
  match pointer.data with
  | [] => .ok []
  | c :: rest =>
    if c ≠ '/' then .error ParseError.ErrMissingTokenPrefix
    else .ok ((stringsSplit '/' rest).map (fun p => String.mk (replacerReplace decoder 0 p)))

/-- Format formats a pointer to a RFC6901 JSON Pointer. -/
def Format (pointer : List String) : String :=
  pointer.foldl
    (fun s part => (s.push '/') ++ String.mk (replacerReplace encoder 0 part.data)) ""

/-- Follows the spec's words (the escaping of RFC 6901): every `~` of the
segment becomes `~0` and every `/` becomes `~1`, character by character. -/
def escapeSegmentSpec (seg : String) : String :=
  String.mk (seg.data.flatMap
    (fun c => if c = '~' then ['~', '0'] else if c = '/' then ['~', '1'] else [c]))

/-- Follows the spec's words: the concatenation, in order, of `"/"` followed by
the escaped segment. -/
def FormatSpec (pointer : List String) : String :=
  String.join (pointer.map (fun seg => "/" ++ escapeSegmentSpec seg))

/-! ## Double precision, in the spec's words -/

/-- Follows the spec's words: `q` can be written with a significand of at most
`p` bits, as `m * 2 ^ e / 2 ^ f` with `m < 2 ^ p`, up to its sign. With
`p = 53` these are the double-precision values (the exponent range of
`float64` is far from reached by 64-bit integers and is left out). -/
def HasSignificandSpec (p : Nat) (q : ℚ) : Prop :=
  ∃ m e f : Nat, m < 2 ^ p ∧ |q| = (m : ℚ) * 2 ^ e / 2 ^ f

/-- Follows the spec's words: `d` is the double-precision value of the number
`x`, the double nearest to `x`, and of two nearest doubles the one whose
significand is even, that is, fits 52 bits (IEEE 754, round to nearest, ties
to even). -/
def IsDoubleOfSpec (x d : ℚ) : Prop :=
  HasSignificandSpec 53 d ∧
    ∀ d', HasSignificandSpec 53 d' →
      |d - x| ≤ |d' - x| ∧ (|d - x| = |d' - x| → d' ≠ d → HasSignificandSpec 52 d)

/-- Follows the spec's words: the double-precision value of a Go number. An
integer has the double nearest to it; a floating value has its own value (the
conversion of a `float32` to `float64` is exact). -/
def DoubleValueSpec : GoNum → ℚ → Prop
  | .int _ v, d => IsDoubleOfSpec (v : ℚ) d
  | .float32 x, d => d = x
  | .float64 x, d => d = x

/-- Follows the spec's words: two basic values (null, a bool, a string or a
number) are identical after every number has been normalized to its
double-precision value. -/
def IdenticalAfterNormalizationSpec : Value → Value → Prop
  | .null, .null => True
  | .bool a, .bool b => a = b
  | .str a, .str b => a = b
  | .num a, .num b => ∃ d, DoubleValueSpec a d ∧ DoubleValueSpec b d
  | _, _ => False

/-- The integer types of Go have at most 64 bits: whether the number a value
holds, when it is an integer, lies between `-2 ^ 64` and `2 ^ 64`. -/
def Value.fits64 : Value → Bool
  | .num (.int _ v) => decide (v.natAbs < 2 ^ 64)
  | _ => true

/-! ## Unfolding `buildSubEra` -/

theorem buildSubEra_zero {impl : ℚ → Nat}
    (path : List String) (a b : Value) (ne oe : jsonObj) (n : Nat)
    (ch : List Change) : buildSubEra impl 0 path a b ne oe n ch = (ne, ch, false) := rfl

theorem buildSubEra_succ {impl : ℚ → Nat}
    (f : Nat) (path : List String) (a b : Value) (ne oe : jsonObj)
    (n : Nat) (ch : List Change) :
    buildSubEra impl (f + 1) path a b ne oe n ch =
      (propNames a b).foldl
        (fun st name =>
          visitProp impl (buildSubEra impl f) (path ++ [name]) (getProp a name) (getProp b name) oe n st)
        (ne, ch, false) := by
  simp only [buildSubEra, PairVisitWithPath, if_true, List.length_append, List.length_singleton,
    Nat.succ_ne_self, if_false, visitProp, classify]
  rfl

/-! ## Depth -/

theorem depth_le_depthFields {kvs : List (String × Value)} {k : String} {v : Value}
    (h : (k, v) ∈ kvs) : v.depth ≤ Value.depth.depthFields kvs := by
  induction kvs with
  | nil => cases h
  | cons p rest ih =>
    obtain ⟨k', v'⟩ := p
    simp only [Value.depth.depthFields]
    rcases List.mem_cons.1 h with h | h
    · cases h; exact le_max_left _ _
    · exact le_trans (ih h) (le_max_right _ _)

theorem depth_le_depthList {xs : List Value} {v : Value} (h : v ∈ xs) :
    v.depth ≤ Value.depth.depthList xs := by
  induction xs with
  | nil => cases h
  | cons x rest ih =>
    simp only [Value.depth.depthList]
    rcases List.mem_cons.1 h with h | h
    · cases h; exact le_max_left _ _
    · exact le_trans (ih h) (le_max_right _ _)

theorem mem_of_mem_arrProps {xs : List Value} {i : Nat} {k : String} {v : Value}
    (h : (k, v) ∈ arrProps i xs) : v ∈ xs := by
  induction xs generalizing i with
  | nil => cases h
  | cons x rest ih =>
    simp only [arrProps] at h
    rcases List.mem_cons.1 h with h | h
    · cases h; exact List.mem_cons_self _ _
    · exact List.mem_cons_of_mem _ (ih h)

theorem mem_of_lookup {l : List (String × Value)} {k : String} {v : Value}
    (h : l.lookup k = some v) : (k, v) ∈ l := by
  induction l with
  | nil => cases h
  | cons p rest ih =>
    obtain ⟨k', v'⟩ := p
    rw [List.lookup_cons] at h
    by_cases hk : k = k'
    · subst hk
      simp at h
      subst h
      exact List.mem_cons_self _ _
    · have : (k == k') = false := by simpa using hk
      rw [this] at h
      exact List.mem_cons_of_mem _ (ih h)

theorem lookup_eq_none_iff {l : List (String × Value)} {k : String} :
    l.lookup k = none ↔ k ∉ l.map Prod.fst := by
  induction l with
  | nil => simp
  | cons p rest ih =>
    obtain ⟨k', v'⟩ := p
    rw [List.lookup_cons]
    by_cases hk : k = k'
    · subst hk; simp
    · have : (k == k') = false := by simpa using hk
      rw [this]
      simp [ih, hk]

/-- A property of a value is at most as deep as the value allows. -/
theorem depth_of_mem_props {v c : Value} {k : String} {f : Nat} (h : (k, c) ∈ props v)
    (hd : v.depth ≤ f + 1) : c.depth ≤ f := by
  cases v with
  | obj kvs =>
    simp only [props] at h
    simp only [Value.depth] at hd
    have := depth_le_depthFields h
    omega
  | arr xs =>
    simp only [props] at h
    simp only [Value.depth] at hd
    have := depth_le_depthList (mem_of_mem_arrProps h)
    omega
  | undefined => cases h
  | null => cases h
  | bool _ => cases h
  | num _ => cases h
  | str _ => cases h

theorem props_of_depth_zero {v : Value} (h : v.depth = 0) : props v = [] := by
  cases v <;> simp [props, Value.depth] at h ⊢

theorem depth_getProp {v : Value} {f : Nat} (name : String) (hd : v.depth ≤ f + 1) :
    (getProp v name).depth ≤ f := by
  unfold getProp
  cases h : (props v).lookup name with
  | none => simp [Value.depth]
  | some c => exact depth_of_mem_props (mem_of_lookup h) hd

theorem getProp_ne_undefined_mem {v : Value} {name : String} (h : getProp v name ≠ Undefined) :
    name ∈ (props v).map Prod.fst := by
  by_contra hn
  apply h
  unfold getProp
  rw [lookup_eq_none_iff.2 hn]
  rfl

theorem mem_propNames {a b : Value} {name : String} :
    name ∈ propNames a b ↔ name ∈ (props a).map Prod.fst ∨ name ∈ (props b).map Prod.fst := by
  simp [propNames, List.mem_dedup]

theorem propNames_of_depth_zero {a b : Value} (ha : a.depth = 0) (hb : b.depth = 0) :
    propNames a b = [] := by
  simp [propNames, props_of_depth_zero ha, props_of_depth_zero hb]

/-! ## The classification -/

theorem cmpBasicJSONVal_cases (a b : Value) :
    cmpBasicJSONVal a b = ChangeEqual ∨ cmpBasicJSONVal a b = ChangeUpdate := by
  unfold cmpBasicJSONVal
  split
  · exact Or.inl rfl
  · exact Or.inr rfl

theorem classify_eq_delete {x y : Value} : classify x y = ChangeDelete ↔ x = Undefined := by
  unfold classify
  by_cases hx : x = Undefined
  · simp [hx]
  · simp only [hx, if_false, iff_false]
    split
    · simp
    · split
      · simp
      · split
        · rcases cmpBasicJSONVal_cases x y with h | h <;> simp [h]
        · simp

theorem classify_eq_new {x y : Value} :
    classify x y = ChangeNew ↔ x ≠ Undefined ∧ y = Undefined := by
  unfold classify
  by_cases hx : x = Undefined
  · simp [hx]
  · simp only [hx, if_false]
    by_cases hy : y = Undefined
    · simp [hy, hx]
    · simp only [hy, if_false]
      split
      · simp
      · split
        · rcases cmpBasicJSONVal_cases x y with h | h <;> simp [h]
        · simp

theorem finalMode_eq_delete {x y : Value} : finalMode x y = ChangeDelete ↔ x = Undefined := by
  unfold finalMode
  split
  · rename_i h
    constructor
    · intro h'; cases h'
    · intro hx
      have := (classify_eq_delete (y := y)).2 hx
      rw [this] at h
      exact absurd h.2 (by decide)
  · exact classify_eq_delete

theorem finalMode_eq_new {x y : Value} :
    finalMode x y = ChangeNew ↔ x ≠ Undefined ∧ y = Undefined := by
  unfold finalMode
  split
  · rename_i h
    constructor
    · intro h'; cases h'
    · intro hx
      have := classify_eq_new.2 hx
      rw [this] at h
      exact absurd h.2 (by decide)
  · exact classify_eq_new

/-! ## The returned flag and the appended changes -/

theorem visitProp_flag {impl : ℚ → Nat}
    (r : List String → Value → Value → jsonObj → jsonObj → Nat → List Change →
      jsonObj × List Change × Bool)
    (p : List String) (x y : Value) (oe : jsonObj) (n : Nat) (st : jsonObj × List Change × Bool) :
    (visitProp impl r p x y oe n st).2.2 =
      (st.2.2 || (decide (x = Undefined) || decide (y = Undefined))) := by
  simp only [visitProp]
  by_cases hx : x = Undefined
  · have h : classify x y = ChangeDelete := classify_eq_delete.2 hx
    simp only [h]
    simp [hx]
  · by_cases hy : y = Undefined
    · have h : classify x y = ChangeNew := classify_eq_new.2 ⟨hx, hy⟩
      simp only [h]
      simp [hy]
    · have h1 : classify x y ≠ ChangeNew := fun h => hy (classify_eq_new.1 h).2
      have h2 : classify x y ≠ ChangeDelete := fun h => hx (classify_eq_delete.1 h)
      simp [h1, h2, hx, hy]

theorem foldl_visitProp_flag {impl : ℚ → Nat}
    (f : Nat) (path : List String) (a b : Value) (oe : jsonObj) (n : Nat)
    (l : List String) (st : jsonObj × List Change × Bool) :
    (l.foldl
        (fun st name =>
          visitProp impl (buildSubEra impl f) (path ++ [name]) (getProp a name) (getProp b name) oe n st)
        st).2.2 =
      (st.2.2 || l.any
        (fun name => decide (getProp a name = Undefined) || decide (getProp b name = Undefined))) := by
  induction l generalizing st with
  | nil => simp
  | cons name rest ih =>
    rw [List.foldl_cons, ih, visitProp_flag, List.any_cons, Bool.or_assoc]

/-- With fuel left, the flag `buildSubEra` returns is `schemaChanged`. -/
theorem buildSubEra_flag_succ {impl : ℚ → Nat}
    (f : Nat) (path : List String) (a b : Value) (ne oe : jsonObj)
    (n : Nat) (ch : List Change) :
    (buildSubEra impl (f + 1) path a b ne oe n ch).2.2 = schemaChanged a b := by
  rw [buildSubEra_succ, foldl_visitProp_flag]
  simp [schemaChanged]

/-- With fuel for the depth of both values, the flag is `schemaChanged`. -/
theorem buildSubEra_flag {impl : ℚ → Nat}
    (f : Nat) (path : List String) (a b : Value) (ne oe : jsonObj)
    (n : Nat) (ch : List Change) (ha : a.depth ≤ f) (hb : b.depth ≤ f) :
    (buildSubEra impl f path a b ne oe n ch).2.2 = schemaChanged a b := by
  cases f with
  | zero =>
    have ha0 : a.depth = 0 := by omega
    have hb0 : b.depth = 0 := by omega
    simp [buildSubEra_zero, schemaChanged, propNames_of_depth_zero ha0 hb0]
  | succ f => exact buildSubEra_flag_succ f path a b ne oe n ch

/-- The flag does not depend on the era node and the change list passed in. -/
theorem buildSubEra_flag_indep {impl : ℚ → Nat}
    (f : Nat) (path : List String) (a b : Value) (ne oe : jsonObj)
    (n : Nat) (ch : List Change) :
    (buildSubEra impl f path a b ne oe n ch).2.2 = (buildSubEra impl f path a b [] oe n []).2.2 := by
  cases f with
  | zero => rfl
  | succ f => rw [buildSubEra_flag_succ, buildSubEra_flag_succ]

theorem foldl_visitProp_changes {impl : ℚ → Nat}
    (f : Nat) (path : List String) (a b : Value) (oe : jsonObj)
    (n : Nat)
    (ih : ∀ (path : List String) (a b : Value) (ne oe : jsonObj) (n : Nat) (ch : List Change),
      (buildSubEra impl f path a b ne oe n ch).2.1 = ch ++ subChanges impl f path a b oe n)
    (l : List String) (st : jsonObj × List Change × Bool) :
    (l.foldl
        (fun st name =>
          visitProp impl (buildSubEra impl f) (path ++ [name]) (getProp a name) (getProp b name) oe n st)
        st).2.1 =
      st.2.1 ++ l.flatMap (fun name =>
        (visitProp impl (buildSubEra impl f) (path ++ [name]) (getProp a name) (getProp b name) oe n
          ([], [], false)).2.1) := by
  induction l generalizing st with
  | nil => simp
  | cons name rest ihl =>
    rw [List.foldl_cons, ihl, List.flatMap_cons, ← List.append_assoc]
    congr 1
    simp only [visitProp]
    rw [ih _ _ _ _ _ _ st.2.1, ih _ _ _ _ _ _ [],
      buildSubEra_flag_indep f _ _ _ _ _ _ st.2.1]
    split <;> (try split) <;> simp

/-- The changes are appended to the list passed in, and what is appended does
not depend on that list or on the era node passed in. -/
theorem buildSubEra_changes {impl : ℚ → Nat} (f : Nat) :
    ∀ (path : List String) (a b : Value) (ne oe : jsonObj) (n : Nat) (ch : List Change),
      (buildSubEra impl f path a b ne oe n ch).2.1 = ch ++ subChanges impl f path a b oe n := by
  induction f with
  | zero => intro path a b ne oe n ch; simp [buildSubEra_zero, subChanges]
  | succ f ih =>
    intro path a b ne oe n ch
    unfold subChanges
    rw [buildSubEra_succ, buildSubEra_succ, foldl_visitProp_changes f path a b oe n ih,
      foldl_visitProp_changes f path a b oe n ih]
    simp

theorem visitProp_changes_eq {impl : ℚ → Nat}
    (f : Nat) (path : List String) (name : String) (x y : Value)
    (oe : jsonObj) (n : Nat) (hx : x.depth ≤ f) (hy : y.depth ≤ f) :
    (visitProp impl (buildSubEra impl f) (path ++ [name]) x y oe n ([], [], false)).2.1 =
      subChanges impl f (path ++ [name]) x y (asJsonObj (oe.lookup (eraPrefixObj ++ name))) n ++
        changeOf impl (path ++ [name]) x y oe n := by
  simp only [visitProp, changeOf, finalMode, oldEraOf, subChanges, List.getLastD_concat]
  rw [buildSubEra_flag f _ x y _ _ _ _ hx hy]
  split <;> (try split) <;> simp

/-- The changes of a container are, property by property, the changes below
the property followed by the change of the property itself. -/
theorem subChanges_succ {impl : ℚ → Nat}
    (f : Nat) (path : List String) (a b : Value) (oe : jsonObj) (n : Nat)
    (ha : a.depth ≤ f + 1) (hb : b.depth ≤ f + 1) :
    subChanges impl (f + 1) path a b oe n =
      (propNames a b).flatMap (fun name =>
        subChanges impl f (path ++ [name]) (getProp a name) (getProp b name)
            (asJsonObj (oe.lookup (eraPrefixObj ++ name))) n ++
          changeOf impl (path ++ [name]) (getProp a name) (getProp b name) oe n) := by
  unfold subChanges
  rw [buildSubEra_succ, foldl_visitProp_changes f path a b oe n (buildSubEra_changes f)]
  simp only [List.nil_append]
  congr 1
  funext name
  exact visitProp_changes_eq f path name _ _ oe n (depth_getProp name ha) (depth_getProp name hb)

theorem subChanges_of_depth_zero {impl : ℚ → Nat}
    (f : Nat) (path : List String) (a b : Value) (oe : jsonObj)
    (n : Nat) (ha : a.depth = 0) (hb : b.depth = 0) : subChanges impl f path a b oe n = [] := by
  cases f with
  | zero => rfl
  | succ f =>
    rw [subChanges_succ f path a b oe n (by omega) (by omega), propNames_of_depth_zero ha hb]
    rfl

theorem getPath_undefined (q : List String) : getPath Undefined q = Undefined := by
  induction q with
  | nil => rfl
  | cons name rest ih =>
    simp only [getPath]
    exact ih

theorem mem_changeOf {impl : ℚ → Nat}
    {c : Change} {path : List String} {x y : Value} {oe : jsonObj} {n : Nat}
    (h : c ∈ changeOf impl path x y oe n) :
    c.Path = path.tail ∧ c.Mode = finalMode x y ∧ finalMode x y ≠ ChangeEqual ∧
      c.Era = uint64OfFloat impl (oldEraOf oe (path.getLastD "") n) := by
  unfold changeOf at h
  split at h
  · rename_i hm
    simp only [List.mem_singleton] at h
    subst h
    exact ⟨rfl, rfl, hm, rfl⟩
  · cases h

/-- Every reported change belongs to a visited property below the two values:
its mode is the final mode of the two values at that path. -/
theorem subChanges_sound {impl : ℚ → Nat} (f : Nat) :
    ∀ (path : List String) (a b : Value) (oe : jsonObj) (n : Nat) (c : Change),
      a.depth ≤ f → b.depth ≤ f → c ∈ subChanges impl f path a b oe n →
      ∃ name rest, name ∈ propNames a b ∧ c.Path = (path ++ name :: rest).tail ∧
        c.Mode = finalMode (getPath a (name :: rest)) (getPath b (name :: rest)) ∧
        c.Mode ≠ ChangeEqual := by
  induction f with
  | zero =>
    intro path a b oe n c _ _ h
    cases h
  | succ f ih =>
    intro path a b oe n c ha hb h
    rw [subChanges_succ f path a b oe n ha hb, List.mem_flatMap] at h
    obtain ⟨name, hname, hc⟩ := h
    rcases List.mem_append.1 hc with hc | hc
    · obtain ⟨name', rest, _, hp, hm, hne⟩ :=
        ih _ _ _ _ n c (depth_getProp name ha) (depth_getProp name hb) hc
      refine ⟨name, name' :: rest, hname, ?_, ?_, hne⟩
      · rw [hp]; simp
      · simpa [getPath] using hm
    · obtain ⟨hp, hm, hne, _⟩ := mem_changeOf hc
      refine ⟨name, [], hname, hp, ?_, ?_⟩
      · simpa [getPath] using hm
      · rw [hm]; exact hne

/-- Every property that exists in one of the two values and whose final mode is
not `ChangeEqual` is reported, with that mode. -/
theorem subChanges_complete {impl : ℚ → Nat} (q : List String) :
    ∀ (f : Nat) (path : List String) (a b : Value) (oe : jsonObj) (n : Nat),
      a.depth ≤ f → b.depth ≤ f → q ≠ [] →
      (getPath a q ≠ Undefined ∨ getPath b q ≠ Undefined) →
      finalMode (getPath a q) (getPath b q) ≠ ChangeEqual →
      ∃ c ∈ subChanges impl f path a b oe n, c.Path = (path ++ q).tail ∧
        c.Mode = finalMode (getPath a q) (getPath b q) := by
  induction q with
  | nil => intro f path a b oe n _ _ h; exact absurd rfl h
  | cons name rest ih =>
    intro f path a b oe n ha hb _ hex hne
    have hname : name ∈ propNames a b := by
      rw [mem_propNames]
      by_contra hn
      push_neg at hn
      have h1 : getProp a name = Undefined := by
        by_contra h; exact hn.1 (getProp_ne_undefined_mem h)
      have h2 : getProp b name = Undefined := by
        by_contra h; exact hn.2 (getProp_ne_undefined_mem h)
      simp only [getPath, h1, h2, getPath_undefined] at hex
      rcases hex with h | h <;> exact h rfl
    cases f with
    | zero =>
      have ha0 : a.depth = 0 := by omega
      have hb0 : b.depth = 0 := by omega
      rw [propNames_of_depth_zero ha0 hb0] at hname
      cases hname
    | succ f =>
      rw [subChanges_succ f path a b oe n ha hb]
      by_cases hr : rest = []
      · subst hr
        simp only [getPath] at hne ⊢
        refine ⟨⟨(path ++ [name]).tail, uint64OfFloat impl (oldEraOf oe ((path ++ [name]).getLastD "") n),
          finalMode (getProp a name) (getProp b name)⟩, ?_, rfl, rfl⟩
        rw [List.mem_flatMap]
        refine ⟨name, hname, List.mem_append_right _ ?_⟩
        simp [changeOf, hne]
      · obtain ⟨c, hc, hp, hm⟩ :=
          ih f (path ++ [name]) (getProp a name) (getProp b name)
            (asJsonObj (oe.lookup (eraPrefixObj ++ name))) n
            (depth_getProp name ha) (depth_getProp name hb) hr
            (by simpa [getPath] using hex) (by simpa [getPath] using hne)
        refine ⟨c, ?_, ?_, ?_⟩
        · rw [List.mem_flatMap]
          exact ⟨name, hname, List.mem_append_left _ hc⟩
        · rw [hp]; simp
        · simpa [getPath] using hm

/-! ## The top level -/

theorem propNames_wrap (x y : Value) :
    propNames (Value.obj [("", x)]) (Value.obj [("", y)]) = [""] := by
  simp [propNames, props]

theorem getProp_wrap (x : Value) : getProp (Value.obj [("", x)]) "" = x := by
  simp [getProp, props, List.lookup]

theorem depth_wrap (x : Value) : (Value.obj [("", x)]).depth = x.depth + 1 := by
  simp [Value.depth, Value.depth.depthFields]

/-- The changes of `buildNewEra`: those below the root, then the root's. -/
theorem buildNewEra_changes {impl : ℚ → Nat} (new old : Value) (oe : jsonObj) (n : Nat) :
    (buildNewEra impl new old oe n).2 =
      subChanges impl (max new.depth old.depth) [""] new old (asJsonObj (oe.lookup "_")) n ++
        changeOf impl [""] new old oe n := by
  have hmax : max (Value.obj [("", new)]).depth (Value.obj [("", old)]).depth =
      max new.depth old.depth + 1 := by
    rw [depth_wrap, depth_wrap]; omega
  show subChanges impl (max (Value.obj [("", new)]).depth (Value.obj [("", old)]).depth) []
      (Value.obj [("", new)]) (Value.obj [("", old)]) oe n = _
  rw [hmax, subChanges_succ _ _ _ _ _ _ (by rw [depth_wrap]; omega) (by rw [depth_wrap]; omega),
    propNames_wrap]
  simp only [List.flatMap_cons, List.flatMap_nil, List.append_nil, getProp_wrap, List.nil_append]
  rfl

/-- Every change of `buildNewEra` carries the final mode of the two values at
its path, which is not `ChangeEqual`. -/
theorem buildNewEra_sound {impl : ℚ → Nat} {new old : Value} {oe : jsonObj} {n : Nat} {c : Change}
    (h : c ∈ (buildNewEra impl new old oe n).2) :
    c.Mode = finalMode (getPath new c.Path) (getPath old c.Path) ∧ c.Mode ≠ ChangeEqual := by
  rw [buildNewEra_changes] at h
  rcases List.mem_append.1 h with h | h
  · obtain ⟨name, rest, _, hp, hm, hne⟩ :=
      subChanges_sound _ _ _ _ _ n c (le_max_left _ _) (le_max_right _ _) h
    have hp' : c.Path = name :: rest := by simpa using hp
    rw [hp']
    exact ⟨hm, hne⟩
  · obtain ⟨hp, hm, hne, _⟩ := mem_changeOf h
    have hp' : c.Path = [] := by simpa using hp
    rw [hp']
    exact ⟨hm, by rw [hm]; exact hne⟩

/-- Every property whose final mode is not `ChangeEqual` has a change in the
list of `buildNewEra`. -/
theorem buildNewEra_complete {impl : ℚ → Nat}
    (new old : Value) (oe : jsonObj) (n : Nat) (p : List String)
    (hex : getPath new p ≠ Undefined ∨ getPath old p ≠ Undefined)
    (hne : finalMode (getPath new p) (getPath old p) ≠ ChangeEqual) :
    ∃ c ∈ (buildNewEra impl new old oe n).2, c.Path = p ∧
      c.Mode = finalMode (getPath new p) (getPath old p) := by
  rw [buildNewEra_changes]
  by_cases hp : p = []
  · subst hp
    simp only [getPath] at hne ⊢
    refine ⟨⟨[], uint64OfFloat impl (oldEraOf oe "" n), finalMode new old⟩, ?_, rfl, rfl⟩
    apply List.mem_append_right
    simp [changeOf, hne]
  · obtain ⟨c, hc, hpath, hm⟩ :=
      subChanges_complete p _ [""] new old (asJsonObj (oe.lookup "_")) n
        (le_max_left _ _) (le_max_right _ _) hp hex hne
    exact ⟨c, List.mem_append_left _ hc, by simpa using hpath, hm⟩

/-! ## A document against itself -/

theorem isDoc_of_mem_fields {kvs : List (String × Value)} {k : String} {c : Value}
    (h : Value.isDoc.isDocFields kvs = true) (hm : (k, c) ∈ kvs) : c.isDoc = true := by
  induction kvs with
  | nil => cases hm
  | cons p rest ih =>
    obtain ⟨k', v'⟩ := p
    simp only [Value.isDoc.isDocFields, Bool.and_eq_true] at h
    rcases List.mem_cons.1 hm with hm | hm
    · cases hm; exact h.1
    · exact ih h.2 hm

theorem isDoc_of_mem_list {xs : List Value} {c : Value}
    (h : Value.isDoc.isDocList xs = true) (hm : c ∈ xs) : c.isDoc = true := by
  induction xs with
  | nil => cases hm
  | cons x rest ih =>
    simp only [Value.isDoc.isDocList, Bool.and_eq_true] at h
    rcases List.mem_cons.1 hm with hm | hm
    · cases hm; exact h.1
    · exact ih h.2 hm

theorem isDoc_of_mem_props {v c : Value} {k : String} (h : v.isDoc = true)
    (hm : (k, c) ∈ props v) : c.isDoc = true := by
  cases v with
  | obj kvs => exact isDoc_of_mem_fields (by simpa [Value.isDoc] using h) hm
  | arr xs => exact isDoc_of_mem_list (by simpa [Value.isDoc] using h) (mem_of_mem_arrProps hm)
  | undefined => cases hm
  | null => cases hm
  | bool _ => cases hm
  | num _ => cases hm
  | str _ => cases hm

theorem isDoc_ne_undefined {v : Value} (h : v.isDoc = true) : v ≠ Undefined := by
  intro hv
  subst hv
  simp [Value.isDoc] at h

theorem getProp_of_mem_names {v : Value} {name : String}
    (h : name ∈ (props v).map Prod.fst) : (name, getProp v name) ∈ props v := by
  unfold getProp
  cases hl : (props v).lookup name with
  | none => exact absurd h (lookup_eq_none_iff.1 hl)
  | some c => exact mem_of_lookup hl

theorem goEq_normalize_self {v : Value} (h : getValType v = valTypeBasic) :
    goEq (normalizeNumber v) (normalizeNumber v) = true := by
  cases v with
  | num g => cases g <;> simp [normalizeNumber, goEq]
  | obj _ => simp [getValType] at h
  | arr _ => simp [getValType] at h
  | undefined => simp [normalizeNumber, goEq]
  | null => simp [normalizeNumber, goEq]
  | bool _ => simp [normalizeNumber, goEq]
  | str _ => simp [normalizeNumber, goEq]

theorem classify_self {v : Value} (h : v ≠ Undefined) : classify v v = ChangeEqual := by
  unfold classify
  simp only [h, if_false, ne_eq, not_true_eq_false]
  split
  · rename_i hb
    simp [cmpBasicJSONVal, goEq_normalize_self hb]
  · rfl

theorem schemaChanged_self {v : Value} (h : v.isDoc = true) : schemaChanged v v = false := by
  unfold schemaChanged
  rw [List.any_eq_false]
  intro name hname
  have hmem : name ∈ (props v).map Prod.fst := by
    rcases mem_propNames.1 hname with h' | h' <;> exact h'
  have := isDoc_ne_undefined (isDoc_of_mem_props h (getProp_of_mem_names hmem))
  simp [this]

theorem finalMode_self {v : Value} (h : v.isDoc = true) : finalMode v v = ChangeEqual := by
  simp [finalMode, schemaChanged_self h, classify_self (isDoc_ne_undefined h)]

/-- Diffing a document with itself appends no change. -/
theorem subChanges_self {impl : ℚ → Nat} (f : Nat) :
    ∀ (path : List String) (a : Value) (oe : jsonObj) (n : Nat),
      a.isDoc = true → a.depth ≤ f → subChanges impl f path a a oe n = [] := by
  induction f with
  | zero => intro path a oe n _ _; rfl
  | succ f ih =>
    intro path a oe n hdoc hd
    rw [subChanges_succ f path a a oe n hd hd, List.flatMap_eq_nil_iff]
    intro name hname
    have hmem : name ∈ (props a).map Prod.fst := by
      rcases mem_propNames.1 hname with h' | h' <;> exact h'
    have hc : (getProp a name).isDoc = true := isDoc_of_mem_props hdoc (getProp_of_mem_names hmem)
    rw [ih _ _ _ _ hc (depth_getProp name hd)]
    simp [changeOf, finalMode_self hc]

/-- `buildNewEra` finds no change between a document and itself. -/
theorem buildNewEra_self {impl : ℚ → Nat}
    (doc : Value) (oe : jsonObj) (n : Nat) (h : doc.isDoc = true) :
    (buildNewEra impl doc doc oe n).2 = [] := by
  rw [buildNewEra_changes, subChanges_self _ _ _ _ _ h (by simp)]
  simp [changeOf, finalMode_self h]

/-- The first diff of a document, against `Undefined`, reports the root. -/
theorem buildNewEra_undefined_ne_nil {impl : ℚ → Nat} (doc : Value) (oe : jsonObj) (n : Nat)
    (h : doc ≠ Undefined) : (buildNewEra impl doc Undefined oe n).2 ≠ [] := by
  rw [buildNewEra_changes]
  have hm : finalMode doc Undefined = ChangeNew := finalMode_eq_new.2 ⟨h, rfl⟩
  simp [changeOf, hm]

/-! ## Modes -/

theorem goEq_eq {a b : Value} (h : goEq a b = true) : a = b := by
  cases a <;> cases b <;> simp [goEq] at h ⊢ <;> exact h

theorem classify_eq_equal {x y : Value} (h : classify x y = ChangeEqual) :
    x ≠ Undefined ∧ y ≠ Undefined ∧ getValType x = getValType y ∧
      (getValType x = valTypeBasic → normalizeNumber x = normalizeNumber y) := by
  unfold classify at h
  by_cases hx : x = Undefined
  · simp [hx] at h
  · by_cases hy : y = Undefined
    · simp [hx, hy] at h
    · by_cases ht : getValType x = getValType y
      · refine ⟨hx, hy, ht, fun hb => ?_⟩
        simp only [hx, hy, ht, if_false, ne_eq, not_true_eq_false] at h
        rw [← ht] at h
        simp only [hb, if_true, cmpBasicJSONVal] at h
        by_cases hg : goEq (normalizeNumber x) (normalizeNumber y) = true
        · exact goEq_eq hg
        · simp [hg] at h
      · simp [hx, hy, ht] at h

theorem finalMode_eq_equal {x y : Value} (h : finalMode x y = ChangeEqual) :
    classify x y = ChangeEqual := by
  unfold finalMode at h
  split at h
  · cases h
  · exact h

theorem finalMode_eq_update_of_classify {x y : Value} (h : classify x y = ChangeUpdate) :
    finalMode x y = ChangeUpdate := by
  simp [finalMode, h]

theorem classify_kind_mismatch {x y : Value} (hx : x ≠ Undefined) (hy : y ≠ Undefined)
    (ht : getValType x ≠ getValType y) : classify x y = ChangeUpdate := by
  simp [classify, hx, hy, ht]

theorem classify_container {x y : Value} (ht : getValType x = getValType y)
    (hc : getValType x ≠ valTypeBasic) : classify x y = ChangeEqual := by
  have hx : x ≠ Undefined := by
    intro h; subst h; exact hc rfl
  have hy : y ≠ Undefined := by
    intro h; subst h; rw [ht] at hc; exact hc rfl
  unfold classify
  rw [if_neg hx, if_neg hy, if_neg (not_not.2 ht), if_neg hc]

/-- Among the modes of reported changes, `ChangeUpdate` is presence in both. -/
theorem finalMode_eq_update {x y : Value} (hne : finalMode x y ≠ ChangeEqual) :
    finalMode x y = ChangeUpdate ↔ x ≠ Undefined ∧ y ≠ Undefined := by
  constructor
  · intro h
    constructor
    · intro hx
      rw [finalMode_eq_delete.2 hx] at h
      cases h
    · intro hy
      by_cases hx : x = Undefined
      · rw [finalMode_eq_delete.2 hx] at h
        cases h
      · rw [finalMode_eq_new.2 ⟨hx, hy⟩] at h
        cases h
  · rintro ⟨hx, hy⟩
    have h1 : finalMode x y ≠ ChangeDelete := fun h => hx (finalMode_eq_delete.1 h)
    have h2 : finalMode x y ≠ ChangeNew := fun h => hy (finalMode_eq_new.1 h).2
    cases hm : finalMode x y with
    | ChangeEqual => exact absurd hm hne
    | ChangeNew => exact absurd hm h2
    | ChangeUpdate => rfl
    | ChangeDelete => exact absurd hm h1

theorem getPath_append (v : Value) (p q : List String) :
    getPath v (p ++ q) = getPath (getPath v p) q := by
  induction p generalizing v with
  | nil => rfl
  | cons name rest ih => simp only [List.cons_append, getPath]; exact ih _

theorem schemaChanged_of_one_sided {x y : Value} {name : String}
    (h : (getProp x name = Undefined ∧ getProp y name ≠ Undefined) ∨
      (getProp x name ≠ Undefined ∧ getProp y name = Undefined)) :
    schemaChanged x y = true := by
  unfold schemaChanged
  rw [List.any_eq_true]
  refine ⟨name, ?_, ?_⟩
  · rw [mem_propNames]
    rcases h with ⟨_, h⟩ | ⟨h, _⟩
    · exact Or.inr (getProp_ne_undefined_mem h)
    · exact Or.inl (getProp_ne_undefined_mem h)
  · rcases h with ⟨h, _⟩ | ⟨_, h⟩ <;> simp [h]

/-! ## The era document -/

theorem UpdateDoc_eq {impl : ℚ → Nat} (e : EraDocument) (newDoc : Value) (eraObj : jsonObj)
    (hE : e.Era = Value.obj eraObj) :
    UpdateDoc impl e newDoc =
      if (buildNewEra impl newDoc e.Doc eraObj ((e.DocEra + 1) % 2 ^ 32)).2 ≠ [] then
        some ({ Doc := newDoc
                Era := Value.obj (buildNewEra impl newDoc e.Doc eraObj ((e.DocEra + 1) % 2 ^ 32)).1
                DocEra := (e.DocEra + 1) % 2 ^ 32 },
          (buildNewEra impl newDoc e.Doc eraObj ((e.DocEra + 1) % 2 ^ 32)).2)
      else some (e, []) := by
  unfold UpdateDoc
  rw [hE]
  simp only []
  cases hc : (buildNewEra impl newDoc e.Doc eraObj ((e.DocEra + 1) % 2 ^ 32)).2 with
  | nil => simp
  | cons c rest => simp

theorem UpdateDoc_some_era {impl : ℚ → Nat} {e e1 : EraDocument} {newDoc : Value} {ch : List Change}
    (h : UpdateDoc impl e newDoc = some (e1, ch)) : ∃ eraObj, e.Era = Value.obj eraObj := by
  unfold UpdateDoc at h
  cases hE : e.Era with
  | obj eraObj => exact ⟨eraObj, rfl⟩
  | undefined => rw [hE] at h; cases h
  | null => rw [hE] at h; cases h
  | bool _ => rw [hE] at h; cases h
  | num _ => rw [hE] at h; cases h
  | str _ => rw [hE] at h; cases h
  | arr _ => rw [hE] at h; cases h

/-! ## The era node -/

theorem lookup_set (o : jsonObj) (k : String) (v : Value) (k' : String) :
    (jsonObj.set o k v).lookup k' = if k' = k then some v else o.lookup k' := by
  induction o with
  | nil =>
    simp only [jsonObj.set, List.lookup_cons, List.lookup_nil]
    by_cases h : k' = k
    · simp [h]
    · have : (k' == k) = false := by simpa using h
      simp [this, h]
  | cons p rest ih =>
    obtain ⟨k0, v0⟩ := p
    simp only [jsonObj.set]
    by_cases h0 : k0 = k
    · subst h0
      simp only [if_true, List.lookup_cons]
      by_cases h : k' = k0
      · simp [h]
      · have : (k' == k0) = false := by simpa using h
        simp [this, h]
    · simp only [h0, if_false, List.lookup_cons]
      by_cases h : k' = k0
      · subst h
        simp [h0]
      · have : (k' == k0) = false := by simpa using h
        simp only [this]
        exact ih

theorem prefix_inj {p a b : String} (h : p ++ a = p ++ b) : a = b := by
  have h' := congrArg String.data h
  rw [String.data_append, String.data_append] at h'
  exact String.ext (List.append_cancel_left h')

theorem prop_ne_obj (a b : String) : eraPrefixProp ++ a ≠ eraPrefixObj ++ b := by
  intro h
  have h' := congrArg String.data h
  rw [String.data_append, String.data_append] at h'
  simp [eraPrefixProp, eraPrefixObj] at h'

theorem visitProp_era_congr {impl : ℚ → Nat} (f : Nat)
    (ih : ∀ (path : List String) (a b : Value) (ne oe : jsonObj) (n : Nat) (ch : List Change),
      (buildSubEra impl f path a b ne oe n ch).1 = (buildSubEra impl f path a b ne oe n []).1)
    (p : List String) (x y : Value) (oe : jsonObj) (n : Nat)
    (st st' : jsonObj × List Change × Bool) (h : st.1 = st'.1) :
    (visitProp impl (buildSubEra impl f) p x y oe n st).1 = (visitProp impl (buildSubEra impl f) p x y oe n st').1 := by
  simp only [visitProp]
  rw [ih _ _ _ _ _ _ st.2.1, ih _ _ _ _ _ _ st'.2.1,
    buildSubEra_flag_indep f _ _ _ _ _ _ st.2.1, buildSubEra_flag_indep f _ _ _ _ _ _ st'.2.1, h]

theorem foldl_visitProp_era_congr {impl : ℚ → Nat} (f : Nat)
    (ih : ∀ (path : List String) (a b : Value) (ne oe : jsonObj) (n : Nat) (ch : List Change),
      (buildSubEra impl f path a b ne oe n ch).1 = (buildSubEra impl f path a b ne oe n []).1)
    (path : List String) (a b : Value) (oe : jsonObj) (n : Nat) (l : List String)
    (st st' : jsonObj × List Change × Bool) (h : st.1 = st'.1) :
    (l.foldl
        (fun st name =>
          visitProp impl (buildSubEra impl f) (path ++ [name]) (getProp a name) (getProp b name) oe n st)
        st).1 =
      (l.foldl
        (fun st name =>
          visitProp impl (buildSubEra impl f) (path ++ [name]) (getProp a name) (getProp b name) oe n st)
        st').1 := by
  induction l generalizing st st' with
  | nil => exact h
  | cons name rest ihl =>
    rw [List.foldl_cons, List.foldl_cons]
    exact ihl _ _ (visitProp_era_congr f ih _ _ _ oe n st st' h)

/-- The era node that is filled does not depend on the change list passed in. -/
theorem buildSubEra_era_indep {impl : ℚ → Nat} (f : Nat) :
    ∀ (path : List String) (a b : Value) (ne oe : jsonObj) (n : Nat) (ch : List Change),
      (buildSubEra impl f path a b ne oe n ch).1 = (buildSubEra impl f path a b ne oe n []).1 := by
  induction f with
  | zero => intro path a b ne oe n ch; rfl
  | succ f ih =>
    intro path a b ne oe n ch
    rw [buildSubEra_succ, buildSubEra_succ]
    exact foldl_visitProp_era_congr f ih path a b oe n _ _ _ rfl

/-- What the visit of one property writes into the era node. -/
theorem visitProp_era {impl : ℚ → Nat} (f : Nat) (path : List String) (name : String) (x y : Value)
    (oe : jsonObj) (n : Nat) (st : jsonObj × List Change × Bool)
    (hx : x.depth ≤ f) (hy : y.depth ≤ f) :
    (visitProp impl (buildSubEra impl f) (path ++ [name]) x y oe n st).1 =
      if x ≠ Undefined then
        jsonObj.set
          (if getValType x ≠ valTypeBasic then
            jsonObj.set st.1 (eraPrefixObj ++ name)
              (.obj (subEra impl f (path ++ [name]) x y (asJsonObj (oe.lookup (eraPrefixObj ++ name))) n))
          else st.1)
          (eraPrefixProp ++ name) (.num (.float64 (eraValOf x y oe name n)))
      else
        (if getValType x ≠ valTypeBasic then
          jsonObj.set st.1 (eraPrefixObj ++ name)
            (.obj (subEra impl f (path ++ [name]) x y (asJsonObj (oe.lookup (eraPrefixObj ++ name))) n))
        else st.1) := by
  have hfm : (if (buildSubEra impl f (path ++ [name]) x y []
        (asJsonObj (oe.lookup (eraPrefixObj ++ name))) n st.2.1).2.2 = true ∧
        classify x y = ChangeEqual then ChangeUpdate else classify x y) = finalMode x y := by
    rw [buildSubEra_flag f _ x y _ _ _ _ hx hy]
    rfl
  simp only [visitProp, List.getLastD_concat]
  rw [hfm, buildSubEra_era_indep f _ _ _ _ _ _ st.2.1]
  by_cases hxu : x = Undefined
  · have hd : finalMode x y = ChangeDelete := finalMode_eq_delete.2 hxu
    rw [hd]
    simp [hxu, subEra]
  · have hd : finalMode x y ≠ ChangeDelete := fun h => hxu (finalMode_eq_delete.1 h)
    simp only [hd, hxu, ne_eq, not_false_eq_true, if_true]
    rfl

theorem prefix_inj_iff {p a b : String} : p ++ a = p ++ b ↔ a = b :=
  ⟨prefix_inj, fun h => by rw [h]⟩

theorem obj_ne_prop (a b : String) : eraPrefixObj ++ a ≠ eraPrefixProp ++ b :=
  fun h => prop_ne_obj b a h.symm

/-- Reading a key after the visit of one property. -/
theorem visitProp_lookup {impl : ℚ → Nat}
    (f : Nat) (path : List String) (name : String) (x y : Value)
    (oe : jsonObj) (n : Nat) (st : jsonObj × List Change × Bool)
    (hx : x.depth ≤ f) (hy : y.depth ≤ f) (key : String) :
    ((visitProp impl (buildSubEra impl f) (path ++ [name]) x y oe n st).1).lookup key =
      if key = eraPrefixProp ++ name ∧ x ≠ Undefined then
        some (.num (.float64 (eraValOf x y oe name n)))
      else if key = eraPrefixObj ++ name ∧ getValType x ≠ valTypeBasic then
        some (.obj (subEra impl f (path ++ [name]) x y (asJsonObj (oe.lookup (eraPrefixObj ++ name))) n))
      else st.1.lookup key := by
  rw [visitProp_era f path name x y oe n st hx hy]
  by_cases hxu : x = Undefined
  · subst hxu
    have hb : getValType Undefined = valTypeBasic := rfl
    simp [hb]
  · by_cases hk : key = eraPrefixProp ++ name
    · subst hk
      simp [hxu, lookup_set]
    · by_cases hb : getValType x = valTypeBasic
      · simp [hxu, hk, hb, lookup_set]
      · simp [hxu, hk, hb, lookup_set]

theorem foldl_lookup_prop {impl : ℚ → Nat}
    (f : Nat) (path : List String) (a b : Value) (oe : jsonObj) (n : Nat)
    (ha : a.depth ≤ f + 1) (hb : b.depth ≤ f + 1) (nm : String) (l : List String)
    (st : jsonObj × List Change × Bool) :
    ((l.foldl
        (fun st name =>
          visitProp impl (buildSubEra impl f) (path ++ [name]) (getProp a name) (getProp b name) oe n st)
        st).1).lookup (eraPrefixProp ++ nm) =
      if nm ∈ l ∧ getProp a nm ≠ Undefined then
        some (.num (.float64 (eraValOf (getProp a nm) (getProp b nm) oe nm n)))
      else st.1.lookup (eraPrefixProp ++ nm) := by
  induction l generalizing st with
  | nil => simp
  | cons name rest ih =>
    rw [List.foldl_cons, ih,
      visitProp_lookup f path name _ _ oe n st (depth_getProp name ha) (depth_getProp name hb)]
    by_cases h1 : nm ∈ rest
    · by_cases h3 : getProp a nm = Undefined
      · by_cases h2 : nm = name
        · subst h2; simp [h3, prop_ne_obj]
        · simp [h3, h2, prefix_inj_iff, prop_ne_obj]
      · simp [h1, h3]
    · by_cases h2 : nm = name
      · subst h2
        by_cases h3 : getProp a nm = Undefined
        · simp [h1, h3, prop_ne_obj]
        · simp [h1, h3]
      · simp [h1, h2, prefix_inj_iff, prop_ne_obj]

theorem foldl_lookup_obj {impl : ℚ → Nat}
    (f : Nat) (path : List String) (a b : Value) (oe : jsonObj) (n : Nat)
    (ha : a.depth ≤ f + 1) (hb : b.depth ≤ f + 1) (nm : String) (l : List String)
    (st : jsonObj × List Change × Bool) :
    ((l.foldl
        (fun st name =>
          visitProp impl (buildSubEra impl f) (path ++ [name]) (getProp a name) (getProp b name) oe n st)
        st).1).lookup (eraPrefixObj ++ nm) =
      if nm ∈ l ∧ getValType (getProp a nm) ≠ valTypeBasic then
        some (.obj (subEra impl f (path ++ [nm]) (getProp a nm) (getProp b nm)
          (asJsonObj (oe.lookup (eraPrefixObj ++ nm))) n))
      else st.1.lookup (eraPrefixObj ++ nm) := by
  induction l generalizing st with
  | nil => simp
  | cons name rest ih =>
    rw [List.foldl_cons, ih,
      visitProp_lookup f path name _ _ oe n st (depth_getProp name ha) (depth_getProp name hb)]
    by_cases h1 : nm ∈ rest
    · by_cases h3 : getValType (getProp a nm) = valTypeBasic
      · by_cases h2 : nm = name
        · subst h2; simp [h3, obj_ne_prop]
        · simp [h3, h2, prefix_inj_iff, obj_ne_prop]
      · simp [h1, h3]
    · by_cases h2 : nm = name
      · subst h2
        by_cases h3 : getValType (getProp a nm) = valTypeBasic
        · simp [h1, h3, obj_ne_prop]
        · simp [h1, h3, obj_ne_prop]
      · simp [h1, h2, prefix_inj_iff, obj_ne_prop]

theorem foldl_lookup_other {impl : ℚ → Nat}
    (f : Nat) (path : List String) (a b : Value) (oe : jsonObj) (n : Nat)
    (ha : a.depth ≤ f + 1) (hb : b.depth ≤ f + 1) (key : String) (l : List String)
    (st : jsonObj × List Change × Bool)
    (hkey : ∀ nm ∈ l, key ≠ eraPrefixProp ++ nm ∧ key ≠ eraPrefixObj ++ nm) :
    ((l.foldl
        (fun st name =>
          visitProp impl (buildSubEra impl f) (path ++ [name]) (getProp a name) (getProp b name) oe n st)
        st).1).lookup key = st.1.lookup key := by
  induction l generalizing st with
  | nil => simp
  | cons name rest ih =>
    rw [List.foldl_cons, ih _ (fun nm h => hkey nm (List.mem_cons_of_mem _ h)),
      visitProp_lookup f path name _ _ oe n st (depth_getProp name ha) (depth_getProp name hb)]
    have := hkey name (List.mem_cons_self _ _)
    simp [this.1, this.2]

theorem getProp_of_depth_zero {v : Value} (h : v.depth = 0) (name : String) :
    getProp v name = Undefined := by
  simp [getProp, props_of_depth_zero h]

theorem getProp_of_basic {v : Value} (h : getValType v = valTypeBasic) (name : String) :
    getProp v name = Undefined := by
  cases v <;> simp [getValType] at h <;> simp [getProp, props]

theorem getPath_of_basic {v : Value} (h : getValType v = valTypeBasic) (q : List String) :
    getValType (getPath v q) = valTypeBasic := by
  cases q with
  | nil => exact h
  | cons name rest =>
    simp only [getPath]
    rw [getProp_of_basic h, getPath_undefined]
    rfl

theorem getValType_ne_basic_ne_undefined {v : Value} (h : getValType v ≠ valTypeBasic) :
    v ≠ Undefined := by
  intro hv; subst hv; exact h rfl

theorem subEra_lookup_prop {impl : ℚ → Nat}
    (f : Nat) (path : List String) (a b : Value) (oe : jsonObj) (n : Nat)
    (ha : a.depth ≤ f) (hb : b.depth ≤ f) (nm : String) :
    (subEra impl f path a b oe n).lookup (eraPrefixProp ++ nm) =
      if getProp a nm ≠ Undefined then
        some (.num (.float64 (eraValOf (getProp a nm) (getProp b nm) oe nm n)))
      else none := by
  cases f with
  | zero =>
    have h0 : getProp a nm = Undefined := getProp_of_depth_zero (by omega) nm
    simp [subEra, buildSubEra_zero, h0]
  | succ f =>
    unfold subEra
    rw [buildSubEra_succ, foldl_lookup_prop f path a b oe n ha hb]
    by_cases h : getProp a nm = Undefined
    · simp [h]
    · have hm : nm ∈ propNames a b := mem_propNames.2 (Or.inl (getProp_ne_undefined_mem h))
      simp [h, hm]

theorem subEra_lookup_obj {impl : ℚ → Nat}
    (f : Nat) (path : List String) (a b : Value) (oe : jsonObj) (n : Nat)
    (ha : a.depth ≤ f) (hb : b.depth ≤ f) (nm : String) :
    (subEra impl f path a b oe n).lookup (eraPrefixObj ++ nm) =
      if getValType (getProp a nm) ≠ valTypeBasic then
        some (.obj (subEra impl (f - 1) (path ++ [nm]) (getProp a nm) (getProp b nm)
          (asJsonObj (oe.lookup (eraPrefixObj ++ nm))) n))
      else none := by
  cases f with
  | zero =>
    have h0 : getProp a nm = Undefined := getProp_of_depth_zero (by omega) nm
    have hb0 : getValType Undefined = valTypeBasic := rfl
    simp [subEra, buildSubEra_zero, h0, hb0]
  | succ f =>
    unfold subEra
    rw [buildSubEra_succ, foldl_lookup_obj f path a b oe n ha hb]
    by_cases h : getValType (getProp a nm) = valTypeBasic
    · simp [h]
    · have hm : nm ∈ propNames a b :=
        mem_propNames.2 (Or.inl (getProp_ne_undefined_mem (getValType_ne_basic_ne_undefined h)))
      simp [h, hm, subEra]

theorem subEra_lookup_other {impl : ℚ → Nat}
    (f : Nat) (path : List String) (a b : Value) (oe : jsonObj) (n : Nat)
    (ha : a.depth ≤ f) (hb : b.depth ≤ f) (key : String)
    (hkey : ∀ nm, key ≠ eraPrefixProp ++ nm ∧ key ≠ eraPrefixObj ++ nm) :
    (subEra impl f path a b oe n).lookup key = none := by
  cases f with
  | zero => simp [subEra, buildSubEra_zero]
  | succ f =>
    unfold subEra
    rw [buildSubEra_succ, foldl_lookup_other f path a b oe n ha hb key _ _ (fun nm _ => hkey nm)]
    rfl

theorem mem_keys_iff {l : jsonObj} {key : String} :
    key ∈ l.map Prod.fst ↔ l.lookup key ≠ none := by
  rw [ne_eq, lookup_eq_none_iff, not_not]

/-- The era node built for a value mirrors that value. -/
theorem subEra_mirrors {impl : ℚ → Nat}
    (f : Nat) (path : List String) (a b : Value) (oe : jsonObj) (n : Nat)
    (ha : a.depth ≤ f) (hb : b.depth ≤ f) : NodeMirrors (subEra impl f path a b oe n) a := by
  refine ⟨fun key => ?_, fun name hname => ?_, fun name hname => ?_⟩
  · rw [mem_keys_iff]
    constructor
    · intro hne
      by_contra hno
      push_neg at hno
      apply hne
      by_cases h1 : ∃ nm, key = eraPrefixProp ++ nm
      · obtain ⟨nm, rfl⟩ := h1
        rw [subEra_lookup_prop f path a b oe n ha hb]
        have := (hno nm).1 rfl
        simp [this]
      · by_cases h2 : ∃ nm, key = eraPrefixObj ++ nm
        · obtain ⟨nm, rfl⟩ := h2
          rw [subEra_lookup_obj f path a b oe n ha hb]
          have := (hno nm).2 rfl
          simp [this]
        · push_neg at h1 h2
          exact subEra_lookup_other f path a b oe n ha hb key (fun nm => ⟨h1 nm, h2 nm⟩)
    · rintro ⟨name, ⟨rfl, h⟩ | ⟨rfl, h⟩⟩
      · rw [subEra_lookup_prop f path a b oe n ha hb]
        simp [h]
      · rw [subEra_lookup_obj f path a b oe n ha hb]
        simp [h]
  · rw [subEra_lookup_prop f path a b oe n ha hb, if_pos hname]
    exact ⟨_, rfl⟩
  · rw [subEra_lookup_obj f path a b oe n ha hb, if_pos hname]
    exact ⟨_, rfl⟩

/-- Every node of the era tree built for a value sits at the place of an object
or array of that value and mirrors it. -/
theorem eraNodeAt_subEra {impl : ℚ → Nat} (q : List String) :
    ∀ (f : Nat) (path : List String) (a b : Value) (oe : jsonObj) (n : Nat) (node : jsonObj),
      a.depth ≤ f → b.depth ≤ f → eraNodeAt (subEra impl f path a b oe n) q = some node →
      NodeMirrors node (getPath a q) ∧ (q ≠ [] → getValType (getPath a q) ≠ valTypeBasic) := by
  induction q with
  | nil =>
    intro f path a b oe n node ha hb h
    simp only [eraNodeAt, Option.some.injEq] at h
    subst h
    exact ⟨subEra_mirrors f path a b oe n ha hb, fun h => absurd rfl h⟩
  | cons name rest ih =>
    intro f path a b oe n node ha hb h
    simp only [eraNodeAt] at h
    rw [subEra_lookup_obj f path a b oe n ha hb] at h
    by_cases hc : getValType (getProp a name) = valTypeBasic
    · simp [hc] at h
    · simp only [ne_eq, hc, not_false_eq_true, if_true] at h
      cases f with
      | zero =>
        exact absurd (by rw [getProp_of_depth_zero (by omega) name]; rfl) hc
      | succ f =>
        obtain ⟨hm, hk⟩ := ih f _ _ _ _ n node (depth_getProp name ha) (depth_getProp name hb) h
        refine ⟨hm, fun _ => ?_⟩
        by_cases hr : rest = []
        · subst hr; exact hc
        · exact hk hr

/-- An object or array of the value has its node in the era tree. -/
theorem eraNodeAt_subEra_isSome {impl : ℚ → Nat} (q : List String) :
    ∀ (f : Nat) (path : List String) (a b : Value) (oe : jsonObj) (n : Nat),
      a.depth ≤ f → b.depth ≤ f → (q ≠ [] → getValType (getPath a q) ≠ valTypeBasic) →
      ∃ node, eraNodeAt (subEra impl f path a b oe n) q = some node := by
  induction q with
  | nil => intro f path a b oe n _ _ _; exact ⟨_, rfl⟩
  | cons name rest ih =>
    intro f path a b oe n ha hb hq
    have hq' := hq (by simp)
    simp only [getPath] at hq'
    have hc : getValType (getProp a name) ≠ valTypeBasic := fun h =>
      hq' (getPath_of_basic h rest)
    cases f with
    | zero => exact absurd (by rw [getProp_of_depth_zero (by omega) name]; rfl) hc
    | succ f =>
      obtain ⟨node, hn⟩ := ih f (path ++ [name]) (getProp a name) (getProp b name)
        (asJsonObj (oe.lookup (eraPrefixObj ++ name))) n
        (depth_getProp name ha) (depth_getProp name hb) (fun _ => hq')
      refine ⟨node, ?_⟩
      simp only [eraNodeAt]
      rw [subEra_lookup_obj (f + 1) path a b oe n ha hb]
      simp only [ne_eq, hc, not_false_eq_true, if_true]
      exact hn

theorem buildNewEra_era {impl : ℚ → Nat} (new old : Value) (oe : jsonObj) (n : Nat) :
    (buildNewEra impl new old oe n).1 =
      subEra impl (max (Value.obj [("", new)]).depth (Value.obj [("", old)]).depth) []
        (Value.obj [("", new)]) (Value.obj [("", old)]) oe n := rfl

theorem eraNodeAt_buildNewEra {impl : ℚ → Nat}
    {new old : Value} {oe : jsonObj} {n : Nat} {q : List String}
    {node : jsonObj} (h : eraNodeAt (buildNewEra impl new old oe n).1 q = some node) :
    NodeMirrors node (getPath (Value.obj [("", new)]) q) := by
  rw [buildNewEra_era] at h
  exact (eraNodeAt_subEra q _ _ _ _ _ n node (le_max_left _ _) (le_max_right _ _) h).1

theorem eraEntry_concat (pre : String) (q : List String) :
    ∀ (t : jsonObj) (name : String),
      eraEntry t pre (q ++ [name]) =
        match eraNodeAt t q with
        | some node => node.lookup (pre ++ name)
        | none => none := by
  induction q with
  | nil => intro t name; rfl
  | cons nm rest ih =>
    intro t name
    have hcons : ∃ x xs, rest ++ [name] = x :: xs := by
      cases rest with
      | nil => exact ⟨name, [], rfl⟩
      | cons x xs => exact ⟨x, xs ++ [name], rfl⟩
    obtain ⟨x, xs, hx⟩ := hcons
    rw [List.cons_append, hx]
    simp only [eraEntry, eraNodeAt]
    rw [← hx]
    cases hl : t.lookup (eraPrefixObj ++ nm) with
    | none => rfl
    | some v =>
      cases v with
      | obj o => exact ih o name
      | undefined => rfl
      | null => rfl
      | bool _ => rfl
      | num _ => rfl
      | str _ => rfl
      | arr _ => rfl

theorem getProp_wrap_ne (x : Value) {name : String} (h : name ≠ "") :
    getProp (Value.obj [("", x)]) name = Undefined := by
  have : (name == "") = false := by simpa using h
  simp [getProp, props, List.lookup, this]

theorem getPath_wrap (x : Value) (p : List String) :
    getPath (Value.obj [("", x)]) ("" :: p) = getPath x p := by
  simp only [getPath, getProp_wrap]

/-! ## Fuel -/

theorem visitProp_congr {impl : ℚ → Nat}
    (r r' : List String → Value → Value → jsonObj → jsonObj → Nat → List Change →
      jsonObj × List Change × Bool)
    (p : List String) (x y : Value) (oe : jsonObj) (n : Nat) (st : jsonObj × List Change × Bool)
    (h : ∀ (o : jsonObj) (ch : List Change), r p x y [] o n ch = r' p x y [] o n ch) :
    visitProp impl r p x y oe n st = visitProp impl r' p x y oe n st := by
  simp only [visitProp, h]

theorem foldl_visitProp_congr {impl : ℚ → Nat}
    (r r' : List String → Value → Value → jsonObj → jsonObj → Nat → List Change →
      jsonObj × List Change × Bool)
    (path : List String) (a b : Value) (oe : jsonObj) (n : Nat) (l : List String)
    (h : ∀ name (o : jsonObj) (ch : List Change),
      r (path ++ [name]) (getProp a name) (getProp b name) [] o n ch =
        r' (path ++ [name]) (getProp a name) (getProp b name) [] o n ch)
    (st : jsonObj × List Change × Bool) :
    l.foldl
        (fun st name => visitProp impl r (path ++ [name]) (getProp a name) (getProp b name) oe n st)
        st =
      l.foldl
        (fun st name => visitProp impl r' (path ++ [name]) (getProp a name) (getProp b name) oe n st)
        st := by
  induction l generalizing st with
  | nil => rfl
  | cons name rest ih =>
    rw [List.foldl_cons, List.foldl_cons, ih,
      visitProp_congr r r' _ _ _ oe n st (h name)]

/-- Fuel beyond the nesting depth of the two values changes nothing: the
recursion of `buildSubEra` has ended by then. -/
theorem buildSubEra_fuel_succ {impl : ℚ → Nat} (f : Nat) :
    ∀ (path : List String) (a b : Value) (ne oe : jsonObj) (n : Nat) (ch : List Change),
      a.depth ≤ f → b.depth ≤ f →
      buildSubEra impl (f + 1) path a b ne oe n ch = buildSubEra impl f path a b ne oe n ch := by
  induction f with
  | zero =>
    intro path a b ne oe n ch ha hb
    rw [buildSubEra_succ, propNames_of_depth_zero (by omega) (by omega)]
    rfl
  | succ f ih =>
    intro path a b ne oe n ch ha hb
    rw [buildSubEra_succ (f + 1), buildSubEra_succ f]
    exact foldl_visitProp_congr _ _ path a b oe n _
      (fun name o ch' => ih _ _ _ _ o n ch' (depth_getProp name ha) (depth_getProp name hb)) _

/-- With any fuel that covers the nesting depth of the two values,
`buildSubEra` gives the result it gives with exactly that depth as fuel. -/
theorem buildSubEra_fuel {impl : ℚ → Nat}
    (k f : Nat) (path : List String) (a b : Value) (ne oe : jsonObj)
    (n : Nat) (ch : List Change) (ha : a.depth ≤ f) (hb : b.depth ≤ f) :
    buildSubEra impl (f + k) path a b ne oe n ch = buildSubEra impl f path a b ne oe n ch := by
  induction k with
  | zero => rfl
  | succ k ih =>
    rw [← Nat.add_assoc, buildSubEra_fuel_succ (f + k) path a b ne oe n ch (by omega) (by omega)]
    exact ih

/-! ## Claims C1 to C5 and C7 -/

/-- C1: idempotence of `UpdateDoc`. Whenever a call `UpdateDoc(doc)` with a
document `doc` returned, in any state, a second call with the same `doc`
returns the empty change list and leaves the state (`Doc`, `Era`, `DocEra`) as
it was; in particular `UpdateDoc(doc)` directly after `NewEraDocument(doc)`
returns no changes and keeps `DocEra = 1`. -/
theorem C1_UpdateDoc_idempotent (impl : ℚ → Nat)
    (e e1 : EraDocument) (doc : Value) (ch1 : List Change)
    (hdoc : doc.isDoc = true) (h : UpdateDoc impl e doc = some (e1, ch1)) :
    UpdateDoc impl e1 doc = some (e1, []) ∧
      ∃ e0, NewEraDocument impl doc = some e0 ∧ e0.DocEra = 1 ∧ UpdateDoc impl e0 doc = some (e0, []) := by
  constructor
  · obtain ⟨eraObj, hE⟩ := UpdateDoc_some_era h
    rw [UpdateDoc_eq e doc eraObj hE] at h
    split at h
    · simp only [Option.some.injEq, Prod.mk.injEq] at h
      obtain ⟨h1, _⟩ := h
      subst h1
      rw [UpdateDoc_eq _ doc _ rfl]
      simp [buildNewEra_self doc _ _ hdoc]
    · rename_i hnil
      simp only [Option.some.injEq, Prod.mk.injEq] at h
      obtain ⟨h1, _⟩ := h
      subst h1
      rw [UpdateDoc_eq e doc eraObj hE, if_neg hnil]
  · have hne := @buildNewEra_undefined_ne_nil impl doc [] ((0 + 1) % 2 ^ 32)
      (isDoc_ne_undefined hdoc)
    refine ⟨{ Doc := doc
              Era := Value.obj (buildNewEra impl doc Undefined [] ((0 + 1) % 2 ^ 32)).1
              DocEra := (0 + 1) % 2 ^ 32 }, ?_, ?_, ?_⟩
    · unfold NewEraDocument
      simp only []
      rw [UpdateDoc_eq _ doc [] rfl, if_pos hne]
      rfl
    · rfl
    · rw [UpdateDoc_eq _ doc _ rfl]
      simp [buildNewEra_self doc _ _ hdoc]

theorem C1_UpdateDoc_idempotent_witness :
    UpdateDoc (fun _ => 0)
        { Doc := Value.obj [("a", .num (.float64 1))]
          Era := .obj [("_", .obj [(".a", .num (.float64 ((1 : Nat) : ℚ)))]),
            (".", .num (.float64 ((1 : Nat) : ℚ)))]
          DocEra := 1 }
        (Value.obj [("a", .num (.float64 1))]) =
      some ({ Doc := Value.obj [("a", .num (.float64 1))]
              Era := .obj [("_", .obj [(".a", .num (.float64 ((1 : Nat) : ℚ)))]),
                (".", .num (.float64 ((1 : Nat) : ℚ)))]
              DocEra := 1 }, []) ∧
    ∃ e0, NewEraDocument (fun _ => 0) (Value.obj [("a", .num (.float64 1))]) = some e0 ∧ e0.DocEra = 1 ∧
      UpdateDoc (fun _ => 0) e0 (Value.obj [("a", .num (.float64 1))]) = some (e0, []) :=
  C1_UpdateDoc_idempotent (fun _ => 0)
    { Doc := Undefined, Era := .obj [], DocEra := 0 }
    { Doc := Value.obj [("a", .num (.float64 1))]
      Era := .obj [("_", .obj [(".a", .num (.float64 ((1 : Nat) : ℚ)))]),
        (".", .num (.float64 ((1 : Nat) : ℚ)))]
      DocEra := 1 }
    (Value.obj [("a", .num (.float64 1))])
    [{ Path := ["a"], Era := 1, Mode := ChangeNew }, { Path := [], Era := 1, Mode := ChangeNew }]
    (by decide) (by rfl)

/-- C2: `buildNewEra` reports every difference. For every property path that
exists in the new or in the old document, if the property is missing from one
of them, or its structural kind differs, or it is a basic value in both and
the two values differ (as JSON values, that is after `normalizeNumber`), the
returned list has a change with exactly that path. Consequently, when the list
is empty the two documents agree at every path: same presence, same kind,
equal basic values. -/
theorem C2_reports_every_difference (impl : ℚ → Nat) (new old : Value) (oe : jsonObj) (n : Nat) :
    (∀ p : List String,
        (getPath new p ≠ Undefined ∨ getPath old p ≠ Undefined) →
        (getPath new p = Undefined ∨ getPath old p = Undefined ∨
          getValType (getPath new p) ≠ getValType (getPath old p) ∨
          (getValType (getPath new p) = valTypeBasic ∧
            getValType (getPath old p) = valTypeBasic ∧
            normalizeNumber (getPath new p) ≠ normalizeNumber (getPath old p))) →
        ∃ c ∈ (buildNewEra impl new old oe n).2, c.Path = p) ∧
      ((buildNewEra impl new old oe n).2 = [] →
        ∀ p : List String,
          (getPath new p = Undefined ↔ getPath old p = Undefined) ∧
          getValType (getPath new p) = getValType (getPath old p) ∧
          (getValType (getPath new p) = valTypeBasic →
            normalizeNumber (getPath new p) = normalizeNumber (getPath old p))) := by
  have key : ∀ p : List String,
      (getPath new p ≠ Undefined ∨ getPath old p ≠ Undefined) →
      finalMode (getPath new p) (getPath old p) ≠ ChangeEqual →
      ∃ c ∈ (buildNewEra impl new old oe n).2, c.Path = p := by
    intro p hex hne
    obtain ⟨c, hc, hp, _⟩ := buildNewEra_complete new old oe n p hex hne
    exact ⟨c, hc, hp⟩
  constructor
  · intro p hex hdiff
    apply key p hex
    intro heq
    obtain ⟨hx, hy, ht, hb⟩ := classify_eq_equal (finalMode_eq_equal heq)
    rcases hdiff with h | h | h | ⟨h1, _, h3⟩
    · exact hx h
    · exact hy h
    · exact h ht
    · exact h3 (hb h1)
  · intro hnil p
    by_cases hex : getPath new p ≠ Undefined ∨ getPath old p ≠ Undefined
    · have heq : finalMode (getPath new p) (getPath old p) = ChangeEqual := by
        by_contra hne
        obtain ⟨c, hc, _⟩ := key p hex hne
        rw [hnil] at hc
        cases hc
      obtain ⟨hx, hy, ht, hb⟩ := classify_eq_equal (finalMode_eq_equal heq)
      exact ⟨⟨fun h => absurd h hx, fun h => absurd h hy⟩, ht, hb⟩
    · push_neg at hex
      rw [hex.1, hex.2]
      simp

theorem C2_reports_every_difference_witness :
    ∃ c ∈ (buildNewEra (fun _ => 0) (Value.obj []) (Value.obj [("a", .arr [.num (.float64 0)])]) [] 1).2,
      c.Path = ["a", "0"] :=
  (C2_reports_every_difference (fun _ => 0) (Value.obj []) (Value.obj [("a", .arr [.num (.float64 0)])])
    [] 1).1 ["a", "0"] (Or.inr (by decide)) (Or.inl (by rfl))

/-- C3: the mode of every change returned by `buildNewEra` is decided by
presence first: `ChangeDelete` exactly when the property at `Path` is absent
from the new document, `ChangeNew` exactly when it is present in the new and
absent from the old document, `ChangeUpdate` exactly when it is present in
both; no returned change has mode `ChangeEqual`. A property present in both
documents with different structural kinds is reported with `ChangeUpdate`. -/
theorem C3_mode_by_presence (impl : ℚ → Nat) (new old : Value) (oe : jsonObj) (n : Nat) :
    (∀ c ∈ (buildNewEra impl new old oe n).2,
        (c.Mode = ChangeDelete ↔ getPath new c.Path = Undefined) ∧
        (c.Mode = ChangeNew ↔
          getPath new c.Path ≠ Undefined ∧ getPath old c.Path = Undefined) ∧
        (c.Mode = ChangeUpdate ↔
          getPath new c.Path ≠ Undefined ∧ getPath old c.Path ≠ Undefined) ∧
        c.Mode ≠ ChangeEqual) ∧
      (∀ p : List String, getPath new p ≠ Undefined → getPath old p ≠ Undefined →
        getValType (getPath new p) ≠ getValType (getPath old p) →
        ∃ c ∈ (buildNewEra impl new old oe n).2, c.Path = p ∧ c.Mode = ChangeUpdate) := by
  constructor
  · intro c hc
    obtain ⟨hm, hne⟩ := buildNewEra_sound hc
    rw [hm] at hne ⊢
    exact ⟨finalMode_eq_delete, finalMode_eq_new, finalMode_eq_update hne, hne⟩
  · intro p hx hy ht
    have hu := finalMode_eq_update_of_classify (classify_kind_mismatch hx hy ht)
    obtain ⟨c, hc, hp, hm⟩ :=
      buildNewEra_complete new old oe n p (Or.inl hx) (by rw [hu]; decide)
    exact ⟨c, hc, hp, by rw [hm, hu]⟩

theorem C3_mode_by_presence_witness :
    ∃ c ∈ (buildNewEra (fun _ => 0) (Value.obj [("a", .obj [])]) (Value.obj [("a", .arr [])]) [] 1).2,
      c.Path = ["a"] ∧ c.Mode = ChangeUpdate :=
  (C3_mode_by_presence (fun _ => 0) (Value.obj [("a", .obj [])]) (Value.obj [("a", .arr [])]) [] 1).2
    ["a"] (by decide) (by decide) (by decide)

/-- C4 (counterexample): at `DocEra = 2^32 - 1` an update that finds a change
wraps the `uint32` counter to `0`, which is smaller than before. -/
theorem C4_counterexample :
    (UpdateDoc (fun _ => 0) { Doc := Undefined, Era := .obj [], DocEra := 4294967295 } Value.null).map
      (fun r => (r.1.DocEra, r.2.length)) = some (0, 1) := by
  rfl

/-- C4 (amended): as long as the counter is below `2^32 - 1`, `DocEra` after
`UpdateDoc` is never smaller than before, it is `DocEra + 1` whenever the call
returns at least one change, and it is unchanged when the call returns none. -/
theorem C4_DocEra_monotone (impl : ℚ → Nat) (e e1 : EraDocument) (doc : Value) (ch : List Change)
    (hlt : e.DocEra + 1 < 2 ^ 32) (h : UpdateDoc impl e doc = some (e1, ch)) :
    e.DocEra ≤ e1.DocEra ∧ (ch ≠ [] → e1.DocEra = e.DocEra + 1) ∧
      (ch = [] → e1.DocEra = e.DocEra) := by
  obtain ⟨eraObj, hE⟩ := UpdateDoc_some_era h
  rw [UpdateDoc_eq e doc eraObj hE, Nat.mod_eq_of_lt hlt] at h
  split at h
  · rename_i hne
    simp only [Option.some.injEq, Prod.mk.injEq] at h
    obtain ⟨h1, h2⟩ := h
    subst h1
    subst h2
    exact ⟨Nat.le_succ _, fun _ => rfl, fun hnil => absurd hnil hne⟩
  · simp only [Option.some.injEq, Prod.mk.injEq] at h
    obtain ⟨h1, h2⟩ := h
    subst h1
    subst h2
    exact ⟨le_refl _, fun hne => absurd rfl hne, fun _ => rfl⟩

theorem C4_DocEra_monotone_witness :
    (1 : Nat) ≤ 2 ∧
      (([{ Path := [], Era := 2, Mode := ChangeUpdate }] : List Change) ≠ [] → (2 : Nat) = 1 + 1) ∧
      (([{ Path := [], Era := 2, Mode := ChangeUpdate }] : List Change) = [] → (2 : Nat) = 1) :=
  C4_DocEra_monotone (fun _ => 0)
    { Doc := Value.null, Era := .obj [], DocEra := 1 }
    { Doc := Value.bool true, Era := .obj [(".", .num (.float64 ((2 : Nat) : ℚ)))], DocEra := 2 }
    (Value.bool true) [{ Path := [], Era := 2, Mode := ChangeUpdate }] (by decide) (by rfl)

/-- C5: `UpdateDoc` commits atomically and only on change. With
`(tree, changes) = buildNewEra(newDoc, Doc, Era, DocEra + 1)`, `UpdateDoc`
returns exactly `changes`; if `changes` is non-empty then afterwards
`Doc = newDoc`, `Era = tree` and `DocEra` is incremented (a `uint32`); if it
is empty the state is left untouched. -/
theorem C5_UpdateDoc_commit (impl : ℚ → Nat) (e : EraDocument) (newDoc : Value) (eraObj : jsonObj)
    (hE : e.Era = Value.obj eraObj) :
    ((buildNewEra impl newDoc e.Doc eraObj ((e.DocEra + 1) % 2 ^ 32)).2 ≠ [] →
        UpdateDoc impl e newDoc =
          some ({ Doc := newDoc
                  Era := Value.obj (buildNewEra impl newDoc e.Doc eraObj ((e.DocEra + 1) % 2 ^ 32)).1
                  DocEra := (e.DocEra + 1) % 2 ^ 32 },
            (buildNewEra impl newDoc e.Doc eraObj ((e.DocEra + 1) % 2 ^ 32)).2)) ∧
      ((buildNewEra impl newDoc e.Doc eraObj ((e.DocEra + 1) % 2 ^ 32)).2 = [] →
        UpdateDoc impl e newDoc = some (e, [])) := by
  rw [UpdateDoc_eq e newDoc eraObj hE]
  constructor
  · intro hne; rw [if_pos hne]
  · intro hnil; rw [if_neg (not_not.2 hnil)]

theorem C5_UpdateDoc_commit_witness :
    UpdateDoc (fun _ => 0) { Doc := Value.null, Era := .obj [], DocEra := 1 } (Value.bool true) =
      some ({ Doc := Value.bool true
              Era := Value.obj (buildNewEra (fun _ => 0) (Value.bool true) Value.null [] ((1 + 1) % 2 ^ 32)).1
              DocEra := (1 + 1) % 2 ^ 32 },
        (buildNewEra (fun _ => 0) (Value.bool true) Value.null [] ((1 + 1) % 2 ^ 32)).2) :=
  (C5_UpdateDoc_commit (fun _ => 0) { Doc := Value.null, Era := .obj [], DocEra := 1 } (Value.bool true) []
    rfl).1 (by decide)

/-- C7: schema-change propagation. For every property that is present in both
documents as a container of the same kind, if an immediate child name has a
value in only one of the two containers, `buildNewEra` reports the container
itself with mode `ChangeUpdate`, in addition to the child: `ChangeDelete` when
the child is missing from the new container, `ChangeNew` when it is missing
from the old one. -/
theorem C7_schema_change_propagation (impl : ℚ → Nat) (new old : Value) (oe : jsonObj) (n : Nat)
    (p : List String) (name : String)
    (hkind : getValType (getPath new p) = getValType (getPath old p))
    (hcont : getValType (getPath new p) ≠ valTypeBasic)
    (hone : (getProp (getPath new p) name = Undefined ∧
        getProp (getPath old p) name ≠ Undefined) ∨
      (getProp (getPath new p) name ≠ Undefined ∧
        getProp (getPath old p) name = Undefined)) :
    (∃ c ∈ (buildNewEra impl new old oe n).2, c.Path = p ∧ c.Mode = ChangeUpdate) ∧
      (∃ c ∈ (buildNewEra impl new old oe n).2, c.Path = p ++ [name] ∧
        (getProp (getPath new p) name = Undefined → c.Mode = ChangeDelete) ∧
        (getProp (getPath old p) name = Undefined → c.Mode = ChangeNew)) := by
  have hx : getPath new p ≠ Undefined := by
    intro h; rw [h] at hcont; exact hcont rfl
  constructor
  · have hu : finalMode (getPath new p) (getPath old p) = ChangeUpdate := by
      simp [finalMode, schemaChanged_of_one_sided hone, classify_container hkind hcont]
    obtain ⟨c, hc, hp, hm⟩ :=
      buildNewEra_complete new old oe n p (Or.inl hx) (by rw [hu]; decide)
    exact ⟨c, hc, hp, by rw [hm, hu]⟩
  · have hnew : getPath new (p ++ [name]) = getProp (getPath new p) name := by
      rw [getPath_append]; rfl
    have hold : getPath old (p ++ [name]) = getProp (getPath old p) name := by
      rw [getPath_append]; rfl
    have hne : finalMode (getPath new (p ++ [name])) (getPath old (p ++ [name])) ≠
        ChangeEqual := by
      rw [hnew, hold]
      rcases hone with ⟨h1, _⟩ | ⟨h1, h2⟩
      · rw [finalMode_eq_delete.2 h1]; decide
      · rw [finalMode_eq_new.2 ⟨h1, h2⟩]; decide
    obtain ⟨c, hc, hp, hm⟩ := buildNewEra_complete new old oe n (p ++ [name])
      (by rw [hnew, hold]; rcases hone with ⟨_, h⟩ | ⟨h, _⟩
          · exact Or.inr h
          · exact Or.inl h) hne
    refine ⟨c, hc, hp, ?_, ?_⟩
    · intro h1
      rw [hm, hnew, hold]
      exact finalMode_eq_delete.2 h1
    · intro h2
      rw [hm, hnew, hold]
      rcases hone with ⟨_, h⟩ | ⟨h, _⟩
      · exact absurd h2 h
      · exact finalMode_eq_new.2 ⟨h, h2⟩

theorem C7_schema_change_propagation_witness :
    (∃ c ∈ (buildNewEra (fun _ => 0) (Value.obj [("a", .arr [])])
        (Value.obj [("a", .arr [.num (.float64 0)])]) [] 1).2,
        c.Path = ["a"] ∧ c.Mode = ChangeUpdate) ∧
      (∃ c ∈ (buildNewEra (fun _ => 0) (Value.obj [("a", .arr [])])
        (Value.obj [("a", .arr [.num (.float64 0)])]) [] 1).2,
        c.Path = ["a"] ++ ["0"] ∧
        (getProp (getPath (Value.obj [("a", .arr [])]) ["a"]) "0" = Undefined →
          c.Mode = ChangeDelete) ∧
        (getProp (getPath (Value.obj [("a", .arr [.num (.float64 0)])]) ["a"]) "0" = Undefined →
          c.Mode = ChangeNew)) :=
  C7_schema_change_propagation (fun _ => 0) (Value.obj [("a", .arr [])])
    (Value.obj [("a", .arr [.num (.float64 0)])]) [] 1 ["a"] "0" (by decide) (by decide)
    (Or.inl ⟨by decide, by decide⟩)

/-! ## Claims C8 to C10 -/

/-- C8: the era tree returned by `buildNewEra` mirrors the shape of the new
document, whatever the old document and the old era tree are. With the root
as the property named `""` (the wrapper `{"": newDoc}`), the tree has a node at
a place exactly when the new document has an object or array there, and every
node has a numeric entry `"." ++ name` for exactly the properties `name` that
exist at that place in the new document, a nested node `"_" ++ name` for
exactly those whose new value is an object or array, and no other key. -/
theorem C8_era_tree_mirrors_new_document (impl : ℚ → Nat) (new old : Value) (oe : jsonObj) (n : Nat)
    (q : List String) :
    ((∃ node, eraNodeAt (buildNewEra impl new old oe n).1 q = some node) ↔
        getValType (getPath (Value.obj [("", new)]) q) ≠ valTypeBasic) ∧
      ∀ node, eraNodeAt (buildNewEra impl new old oe n).1 q = some node →
        NodeMirrors node (getPath (Value.obj [("", new)]) q) := by
  refine ⟨⟨?_, ?_⟩, fun node h => eraNodeAt_buildNewEra h⟩
  · rintro ⟨node, h⟩
    rw [buildNewEra_era] at h
    by_cases hq : q = []
    · subst hq
      simp [getPath, getValType]
    · exact (eraNodeAt_subEra q _ _ _ _ _ n node (le_max_left _ _) (le_max_right _ _) h).2 hq
  · intro h
    rw [buildNewEra_era]
    exact eraNodeAt_subEra_isSome q _ _ _ _ _ n (le_max_left _ _) (le_max_right _ _) (fun _ => h)

theorem C8_era_tree_mirrors_new_document_witness :
    NodeMirrors [("_a", Value.obj []), (".a", Value.num (.float64 ((1 : Nat) : ℚ)))]
      (getPath (Value.obj [("", Value.obj [("a", .arr [])])]) [""]) :=
  (C8_era_tree_mirrors_new_document (fun _ => 0) (Value.obj [("a", .arr [])])
    (Value.obj [("a", .arr [.num (.float64 0)])])
    [(".", .num (.float64 2)), ("_", .obj [(".a", .num (.float64 2)),
      ("_a", .obj [(".0", .num (.float64 2))])])] 1 [""]).2 _ rfl

/-- C9 (counterexample): for the root object `{"a": 1}` the key `".a"` is not a
top-level key of the returned tree, while the wrapper's entry `"."` of the
root is. -/
theorem C9_counterexample :
    (buildNewEra (fun _ => 0) (Value.obj [("a", .num (.float64 1))]) (Value.obj [("a", .num (.float64 0))])
        [] 1).1.lookup ".a" = none ∧
      (buildNewEra (fun _ => 0) (Value.obj [("a", .num (.float64 1))]) (Value.obj [("a", .num (.float64 0))])
        [] 1).1.lookup "." = some (.num (.float64 ((1 : Nat) : ℚ))) :=
  ⟨rfl, rfl⟩

/-- C9 (amended): the era tree that `buildNewEra` returns is the node that
`buildSubEra` fills for the wrapper `{"": newDoc}`. Its top level holds the
entries of the root only: the keys are among `"."` (the root's era number,
present when the new document exists) and `"_"` (the root's child-slot); the
era entry `"." ++ name` of every property of the root is a key of the node
under `"_"`, and is not a top-level key unless `name` is empty. -/
theorem C9_root_entries_below_wrapper (impl : ℚ → Nat) (new old : Value) (oe : jsonObj) (n : Nat) :
    (∀ key ∈ (buildNewEra impl new old oe n).1.map Prod.fst, key = "." ∨ key = "_") ∧
      (new ≠ Undefined →
        ∃ x, (buildNewEra impl new old oe n).1.lookup "." = some (.num (.float64 x))) ∧
      (∀ name, getProp new name ≠ Undefined →
        (∃ o x, (buildNewEra impl new old oe n).1.lookup "_" = some (.obj o) ∧
          o.lookup ("." ++ name) = some (.num (.float64 x))) ∧
        (name ≠ "" → (buildNewEra impl new old oe n).1.lookup ("." ++ name) = none)) := by
  have hroot : eraNodeAt (buildNewEra impl new old oe n).1 [] = some (buildNewEra impl new old oe n).1 :=
    rfl
  obtain ⟨hkeys, hnum, hobj⟩ := eraNodeAt_buildNewEra hroot
  simp only [getPath] at hkeys hnum hobj
  refine ⟨fun key hkey => ?_, fun hnew => ?_, fun name hname => ⟨?_, fun hne => ?_⟩⟩
  · obtain ⟨name, ⟨rfl, h⟩ | ⟨rfl, h⟩⟩ := (hkeys key).1 hkey
    · left
      by_cases hn : name = ""
      · subst hn; rfl
      · exact absurd (getProp_wrap_ne new hn) h
    · right
      by_cases hn : name = ""
      · subst hn; rfl
      · exact absurd (by rw [getProp_wrap_ne new hn]; rfl) h
  · exact hnum "" (by rw [getProp_wrap]; exact hnew)
  · have hc : getValType new ≠ valTypeBasic := fun h => hname (getProp_of_basic h name)
    obtain ⟨o, ho⟩ := hobj "" (by rw [getProp_wrap]; exact hc)
    have hnode : eraNodeAt (buildNewEra impl new old oe n).1 [""] = some o := by
      simp only [eraNodeAt]
      rw [ho]
    obtain ⟨_, hnum', _⟩ := eraNodeAt_buildNewEra hnode
    rw [getPath_wrap] at hnum'
    obtain ⟨x, hx⟩ := hnum' name hname
    exact ⟨o, x, ho, hx⟩
  · rw [lookup_eq_none_iff]
    intro hmem
    obtain ⟨name', ⟨heq, h⟩ | ⟨heq, h⟩⟩ := (hkeys _).1 hmem
    · have : name = name' := prefix_inj heq
      subst this
      exact h (getProp_wrap_ne new hne)
    · exact prop_ne_obj _ _ heq

theorem C9_root_entries_below_wrapper_witness :
    (∃ o x, (buildNewEra (fun _ => 0) (Value.obj [("a", .num (.float64 1))])
        (Value.obj [("a", .num (.float64 0))]) [] 1).1.lookup "_" = some (.obj o) ∧
        o.lookup ("." ++ "a") = some (.num (.float64 x))) ∧
      ("a" ≠ "" → (buildNewEra (fun _ => 0) (Value.obj [("a", .num (.float64 1))])
        (Value.obj [("a", .num (.float64 0))]) [] 1).1.lookup ("." ++ "a") = none) :=
  (C9_root_entries_below_wrapper (fun _ => 0) (Value.obj [("a", .num (.float64 1))])
    (Value.obj [("a", .num (.float64 0))]) [] 1).2.2 "a" (by decide)

/-- C10: deletion clears era bookkeeping. For every change with mode
`ChangeDelete` that `buildNewEra` returns, the returned era tree has no numeric
entry (`"." ++ name`) and no child-slot (`"_" ++ name`) for that property at
the place of its path, whatever the old era tree holds. -/
theorem C10_deletion_clears_era (impl : ℚ → Nat)
    (new old : Value) (oe : jsonObj) (n : Nat) (c : Change)
    (hc : c ∈ (buildNewEra impl new old oe n).2) (hd : c.Mode = ChangeDelete) :
    eraEntry (buildNewEra impl new old oe n).1 eraPrefixProp ("" :: c.Path) = none ∧
      eraEntry (buildNewEra impl new old oe n).1 eraPrefixObj ("" :: c.Path) = none := by
  have hu : getPath (Value.obj [("", new)]) ("" :: c.Path) = Undefined := by
    rw [getPath_wrap]
    have hm := (buildNewEra_sound hc).1
    rw [hd] at hm
    exact finalMode_eq_delete.1 hm.symm
  rcases List.eq_nil_or_concat ("" :: c.Path) with h | ⟨q, name, h⟩
  · cases h
  · have h' : "" :: c.Path = q ++ [name] := by simpa using h
    rw [h'] at hu ⊢
    rw [getPath_append] at hu
    simp only [getPath] at hu
    rw [eraEntry_concat, eraEntry_concat]
    cases hq : eraNodeAt (buildNewEra impl new old oe n).1 q with
    | none => exact ⟨rfl, rfl⟩
    | some node =>
      obtain ⟨hkeys, _, _⟩ := eraNodeAt_buildNewEra hq
      simp only []
      constructor
      · rw [lookup_eq_none_iff]
        intro hmem
        obtain ⟨name', ⟨heq, hx⟩ | ⟨heq, _⟩⟩ := (hkeys _).1 hmem
        · have : name = name' := prefix_inj heq
          subst this
          exact hx hu
        · exact prop_ne_obj _ _ heq
      · rw [lookup_eq_none_iff]
        intro hmem
        obtain ⟨name', ⟨heq, _⟩ | ⟨heq, hx⟩⟩ := (hkeys _).1 hmem
        · exact obj_ne_prop _ _ heq
        · have : name = name' := prefix_inj heq
          subst this
          rw [hu] at hx
          exact hx rfl

theorem C10_deletion_clears_era_witness :
    eraEntry (buildNewEra (fun _ => 0) (Value.obj [("a", .arr [])])
        (Value.obj [("a", .arr [.num (.float64 0)])])
        [(".", .num (.float64 2)), ("_", .obj [(".a", .num (.float64 2)),
          ("_a", .obj [(".0", .num (.float64 2))])])] 1).1 eraPrefixProp
        ("" :: ["a", "0"]) = none ∧
      eraEntry (buildNewEra (fun _ => 0) (Value.obj [("a", .arr [])])
        (Value.obj [("a", .arr [.num (.float64 0)])])
        [(".", .num (.float64 2)), ("_", .obj [(".a", .num (.float64 2)),
          ("_a", .obj [(".0", .num (.float64 2))])])] 1).1 eraPrefixObj
        ("" :: ["a", "0"]) = none :=
  C10_deletion_clears_era (fun _ => 0) (Value.obj [("a", .arr [])])
    (Value.obj [("a", .arr [.num (.float64 0)])])
    [(".", .num (.float64 2)), ("_", .obj [(".a", .num (.float64 2)),
      ("_a", .obj [(".0", .num (.float64 2))])])] 1
    { Path := ["a", "0"], Era := 2, Mode := ChangeDelete } (by decide) rfl

/-! ## The first diff of a document -/

theorem nodeCountList_eq (xs : List Value) (i : Nat) :
    Value.nodeCount.nodeCountList xs = ((arrProps i xs).map (fun kc => kc.2.nodeCount)).sum := by
  induction xs generalizing i with
  | nil => rfl
  | cons x rest ih =>
    simp only [Value.nodeCount.nodeCountList, arrProps, List.map_cons, List.sum_cons]
    rw [ih (i + 1)]

theorem nodeCountFields_eq (kvs : List (String × Value)) :
    Value.nodeCount.nodeCountFields kvs = (kvs.map (fun kc => kc.2.nodeCount)).sum := by
  induction kvs with
  | nil => rfl
  | cons p rest ih =>
    obtain ⟨k, v⟩ := p
    simp only [Value.nodeCount.nodeCountFields, List.map_cons, List.sum_cons]
    rw [ih]

theorem nodeCount_eq_sum {v : Value} (h : v ≠ Undefined) :
    v.nodeCount = 1 + ((props v).map (fun kc => kc.2.nodeCount)).sum := by
  cases v with
  | undefined => exact absurd rfl h
  | arr xs => simp only [Value.nodeCount, props]; rw [nodeCountList_eq xs 0]
  | obj kvs => simp only [Value.nodeCount, props]; rw [nodeCountFields_eq kvs]
  | null => rfl
  | bool _ => rfl
  | num _ => rfl
  | str _ => rfl

theorem distinct_of_mem_fields {kvs : List (String × Value)} {k : String} {c : Value}
    (h : Value.distinctNames.distinctFields kvs = true) (hm : (k, c) ∈ kvs) :
    c.distinctNames = true := by
  induction kvs with
  | nil => cases hm
  | cons p rest ih =>
    obtain ⟨k', v'⟩ := p
    simp only [Value.distinctNames.distinctFields, Bool.and_eq_true] at h
    rcases List.mem_cons.1 hm with hm | hm
    · cases hm; exact h.1
    · exact ih h.2 hm

theorem distinct_of_mem_list {xs : List Value} {c : Value}
    (h : Value.distinctNames.distinctList xs = true) (hm : c ∈ xs) : c.distinctNames = true := by
  induction xs with
  | nil => cases hm
  | cons x rest ih =>
    simp only [Value.distinctNames.distinctList, Bool.and_eq_true] at h
    rcases List.mem_cons.1 hm with hm | hm
    · cases hm; exact h.1
    · exact ih h.2 hm

theorem distinct_props {v : Value} (h : v.distinctNames = true) :
    ((props v).map Prod.fst).Nodup ∧ ∀ k c, (k, c) ∈ props v → c.distinctNames = true := by
  cases v with
  | arr xs =>
    simp only [Value.distinctNames, Bool.and_eq_true, decide_eq_true_eq] at h
    exact ⟨h.1, fun k c hm => distinct_of_mem_list h.2 (mem_of_mem_arrProps hm)⟩
  | obj kvs =>
    simp only [Value.distinctNames, Bool.and_eq_true, decide_eq_true_eq] at h
    exact ⟨h.1, fun k c hm => distinct_of_mem_fields h.2 hm⟩
  | undefined => exact ⟨List.nodup_nil, fun k c hm => by cases hm⟩
  | null => exact ⟨List.nodup_nil, fun k c hm => by cases hm⟩
  | bool _ => exact ⟨List.nodup_nil, fun k c hm => by cases hm⟩
  | num _ => exact ⟨List.nodup_nil, fun k c hm => by cases hm⟩
  | str _ => exact ⟨List.nodup_nil, fun k c hm => by cases hm⟩

theorem lookup_of_mem_nodup {l : List (String × Value)} {k : String} {c : Value}
    (hnd : (l.map Prod.fst).Nodup) (hm : (k, c) ∈ l) : l.lookup k = some c := by
  induction l with
  | nil => cases hm
  | cons p rest ih =>
    obtain ⟨k', v'⟩ := p
    simp only [List.map_cons, List.nodup_cons] at hnd
    rw [List.lookup_cons]
    rcases List.mem_cons.1 hm with h1 | h1
    · cases h1; simp
    · have hne : k ≠ k' := by
        intro h; subst h
        exact hnd.1 (List.mem_map.2 ⟨(k, c), h1, rfl⟩)
      have : (k == k') = false := by simpa using hne
      rw [this]
      exact ih hnd.2 h1

theorem getProp_undefined (name : String) : getProp Undefined name = Undefined := rfl

theorem propNames_undefined {a : Value} (hnd : ((props a).map Prod.fst).Nodup) :
    propNames a Undefined = (props a).map Prod.fst := by
  simp only [propNames, props, List.map_nil, List.append_nil]
  exact hnd.dedup

/-- The first diff of a document reports one change for each node below it. -/
theorem subChanges_undefined_length {impl : ℚ → Nat} (f : Nat) :
    ∀ (path : List String) (a : Value) (oe : jsonObj) (n : Nat),
      a.isDoc = true → a.distinctNames = true → a.depth ≤ f →
      (subChanges impl f path a Undefined oe n).length + 1 = a.nodeCount := by
  induction f with
  | zero =>
    intro path a oe n hdoc _ hd
    rw [nodeCount_eq_sum (isDoc_ne_undefined hdoc), props_of_depth_zero (by omega)]
    rfl
  | succ f ih =>
    intro path a oe n hdoc hdist hd
    obtain ⟨hnd, hch⟩ := distinct_props hdist
    rw [nodeCount_eq_sum (isDoc_ne_undefined hdoc),
      subChanges_succ f path a Undefined oe n hd (by simp [Value.depth]),
      propNames_undefined hnd, List.flatMap_map, List.length_flatMap, Nat.add_comm]
    congr 1
    apply congrArg
    apply List.map_congr_left
    intro kc hkc
    obtain ⟨k, c⟩ := kc
    have hg : getProp a k = c := by
      unfold getProp
      rw [lookup_of_mem_nodup hnd hkc]
      rfl
    have hcdoc : c.isDoc = true := isDoc_of_mem_props hdoc hkc
    have hnew : finalMode c Undefined = ChangeNew :=
      finalMode_eq_new.2 ⟨isDoc_ne_undefined hcdoc, rfl⟩
    have hlen := ih (path ++ [k]) c (asJsonObj (oe.lookup (eraPrefixObj ++ k))) n hcdoc
      (hch k c hkc) (depth_of_mem_props hkc hd)
    simp only [Function.comp, hg, getProp_undefined, List.length_append]
    rw [← hlen]
    simp [changeOf, hnew]

/-- The changes of a container have pairwise different paths. -/
theorem subChanges_paths_nodup {impl : ℚ → Nat} (f : Nat) :
    ∀ (path : List String) (a b : Value) (oe : jsonObj) (n : Nat),
      path ≠ [] → a.depth ≤ f → b.depth ≤ f →
      ((subChanges impl f path a b oe n).map Change.Path).Nodup := by
  induction f with
  | zero => intro path a b oe n _ _ _; exact List.nodup_nil
  | succ f ih =>
    intro path a b oe n hp ha hb
    have hchunk : ∀ name p,
        p ∈ (subChanges impl f (path ++ [name]) (getProp a name) (getProp b name)
            (asJsonObj (oe.lookup (eraPrefixObj ++ name))) n ++
          changeOf impl (path ++ [name]) (getProp a name) (getProp b name) oe n).map Change.Path →
        ∃ r, p = path.tail ++ name :: r := by
      intro name p hmem
      obtain ⟨c, hc, rfl⟩ := List.mem_map.1 hmem
      rcases List.mem_append.1 hc with hc | hc
      · obtain ⟨name', rest, _, hpath, _⟩ := subChanges_sound f _ _ _ _ n c
          (depth_getProp name ha) (depth_getProp name hb) hc
        refine ⟨name' :: rest, ?_⟩
        rw [hpath, List.append_assoc, List.tail_append_of_ne_nil hp]
        rfl
      · refine ⟨[], ?_⟩
        rw [(mem_changeOf hc).1, List.tail_append_of_ne_nil hp]
    rw [subChanges_succ f path a b oe n ha hb, List.map_flatMap, List.nodup_flatMap]
    constructor
    · intro name _
      rw [List.map_append, List.nodup_append]
      refine ⟨ih _ _ _ _ n (by simp) (depth_getProp name ha) (depth_getProp name hb), ?_, ?_⟩
      · unfold changeOf
        split <;> simp
      · rw [List.disjoint_left]
        intro p hp1 hp2
        obtain ⟨c, hc, rfl⟩ := List.mem_map.1 hp1
        obtain ⟨c', hc', heq⟩ := List.mem_map.1 hp2
        obtain ⟨name', rest, _, hpath, _⟩ := subChanges_sound f _ _ _ _ n c
          (depth_getProp name ha) (depth_getProp name hb) hc
        have h2 := (mem_changeOf hc').1
        have e := congrArg List.length (hpath.symm.trans (heq.symm.trans h2))
        simp only [List.length_tail, List.length_append, List.length_cons,
          List.length_singleton, List.length_nil] at e
        omega
    · have hnd : (propNames a b).Nodup := List.nodup_dedup _
      refine List.Pairwise.imp ?_ hnd
      intro n1 n2 hne
      show List.Disjoint _ _
      rw [List.disjoint_left]
      intro p hp1 hp2
      obtain ⟨r1, h1⟩ := hchunk n1 p hp1
      obtain ⟨r2, h2⟩ := hchunk n2 p hp2
      rw [h1] at h2
      have := List.append_cancel_left h2
      simp only [List.cons.injEq] at this
      exact hne this.1

theorem buildNewEra_paths_nodup {impl : ℚ → Nat} (new old : Value) (oe : jsonObj) (n : Nat) :
    ((buildNewEra impl new old oe n).2.map Change.Path).Nodup := by
  rw [buildNewEra_changes, List.map_append, List.nodup_append]
  refine ⟨subChanges_paths_nodup _ _ _ _ _ n (by simp) (le_max_left _ _) (le_max_right _ _),
    ?_, ?_⟩
  · unfold changeOf
    split <;> simp
  · rw [List.disjoint_left]
    intro p hp1 hp2
    obtain ⟨c, hc, rfl⟩ := List.mem_map.1 hp1
    obtain ⟨c', hc', heq⟩ := List.mem_map.1 hp2
    obtain ⟨name', rest, _, hpath, _⟩ := subChanges_sound _ _ _ _ _ n c
      (le_max_left _ _) (le_max_right _ _) hc
    have h2 := (mem_changeOf hc').1
    have e := congrArg List.length (hpath.symm.trans (heq.symm.trans h2))
    simp only [List.length_tail, List.length_append, List.length_cons,
      List.length_singleton, List.length_nil] at e
    omega

/-- The first diff of a document reports only new properties. -/
theorem subChanges_undefined_new {impl : ℚ → Nat} (f : Nat) :
    ∀ (path : List String) (a : Value) (oe : jsonObj) (n : Nat) (c : Change),
      a.isDoc = true → a.depth ≤ f → c ∈ subChanges impl f path a Undefined oe n →
      c.Mode = ChangeNew := by
  induction f with
  | zero => intro path a oe n c _ _ h; cases h
  | succ f ih =>
    intro path a oe n c hdoc hd h
    rw [subChanges_succ f path a Undefined oe n hd (by simp [Value.depth]), List.mem_flatMap] at h
    obtain ⟨name, hname, hc⟩ := h
    have hmem : name ∈ (props a).map Prod.fst := by
      rcases mem_propNames.1 hname with h' | h'
      · exact h'
      · simp [props] at h'
    have hcdoc : (getProp a name).isDoc = true :=
      isDoc_of_mem_props hdoc (getProp_of_mem_names hmem)
    rw [getProp_undefined] at hc
    rcases List.mem_append.1 hc with hc | hc
    · exact ih _ _ _ n c hcdoc (depth_getProp name hd) hc
    · rw [(mem_changeOf hc).2.1]
      exact finalMode_eq_new.2 ⟨isDoc_ne_undefined hcdoc, rfl⟩

/-! ## Claim C6 -/

/-- C6: initialization. For every document `doc`, `NewEraDocument(doc)` yields
an `EraDocument` with `Doc = doc` and `DocEra = 1`, and the diff it performs,
`buildNewEra(doc, Undefined, {}, 1)`, returns exactly one change for each
property of `doc`, the root and every nested property: as many changes as
`doc` has nodes, with pairwise different paths, one at the path of every
property, each at the path of a property and each with mode `ChangeNew`. -/
theorem C6_initialization (impl : ℚ → Nat) (doc : Value) (hdoc : doc.isDoc = true)
    (hdist : doc.distinctNames = true) :
    (∃ e, NewEraDocument impl doc = some e ∧ e.Doc = doc ∧ e.DocEra = 1) ∧
      (buildNewEra impl doc Undefined [] 1).2.length = doc.nodeCount ∧
      (∀ c ∈ (buildNewEra impl doc Undefined [] 1).2,
        c.Mode = ChangeNew ∧ getPath doc c.Path ≠ Undefined) ∧
      (∀ p, getPath doc p ≠ Undefined → ∃ c ∈ (buildNewEra impl doc Undefined [] 1).2, c.Path = p) ∧
      ((buildNewEra impl doc Undefined [] 1).2.map Change.Path).Nodup := by
  have hne := isDoc_ne_undefined hdoc
  have hroot : finalMode doc Undefined = ChangeNew := finalMode_eq_new.2 ⟨hne, rfl⟩
  have hnew : ∀ c ∈ (buildNewEra impl doc Undefined [] 1).2, c.Mode = ChangeNew := by
    intro c hc
    rw [buildNewEra_changes] at hc
    rcases List.mem_append.1 hc with hc | hc
    · exact subChanges_undefined_new _ _ _ _ _ c hdoc (le_max_left _ _) hc
    · rw [(mem_changeOf hc).2.1]
      exact hroot
  refine ⟨?_, ?_, ?_, ?_, buildNewEra_paths_nodup doc Undefined [] 1⟩
  · refine ⟨{ Doc := doc, Era := Value.obj (buildNewEra impl doc Undefined [] 1).1, DocEra := 1 },
      ?_, rfl, rfl⟩
    unfold NewEraDocument
    simp only []
    rw [UpdateDoc_eq _ doc [] rfl,
      if_pos (buildNewEra_undefined_ne_nil doc [] ((0 + 1) % 2 ^ 32) hne)]
    rfl
  · rw [buildNewEra_changes, List.length_append,
      ← @subChanges_undefined_length impl (max doc.depth Undefined.depth) [""] doc
        (asJsonObj (List.lookup "_" ([] : jsonObj))) 1 hdoc hdist (le_max_left _ _)]
    simp [changeOf, hroot]
  · intro c hc
    refine ⟨hnew c hc, ?_⟩
    have hm := (buildNewEra_sound hc).1
    rw [hnew c hc] at hm
    exact (finalMode_eq_new.1 hm.symm).1
  · intro p hp
    have hfm : finalMode (getPath doc p) (getPath Undefined p) = ChangeNew :=
      finalMode_eq_new.2 ⟨hp, getPath_undefined p⟩
    obtain ⟨c, hc, hpath, _⟩ := buildNewEra_complete doc Undefined [] 1 p (Or.inl hp)
      (by rw [hfm]; decide)
    exact ⟨c, hc, hpath⟩

theorem C6_initialization_witness :
    (∃ e, NewEraDocument (fun _ => 0) (Value.obj [("a", .num (.float64 1))]) = some e ∧
        e.Doc = Value.obj [("a", .num (.float64 1))] ∧ e.DocEra = 1) ∧
      (buildNewEra (fun _ => 0) (Value.obj [("a", .num (.float64 1))]) Undefined [] 1).2.length =
        (Value.obj [("a", .num (.float64 1))]).nodeCount ∧
      (∀ c ∈ (buildNewEra (fun _ => 0) (Value.obj [("a", .num (.float64 1))]) Undefined [] 1).2,
        c.Mode = ChangeNew ∧
          getPath (Value.obj [("a", .num (.float64 1))]) c.Path ≠ Undefined) ∧
      (∀ p, getPath (Value.obj [("a", .num (.float64 1))]) p ≠ Undefined →
        ∃ c ∈ (buildNewEra (fun _ => 0) (Value.obj [("a", .num (.float64 1))]) Undefined [] 1).2,
          c.Path = p) ∧
      ((buildNewEra (fun _ => 0) (Value.obj [("a", .num (.float64 1))]) Undefined [] 1).2.map
        Change.Path).Nodup :=
  C6_initialization (fun _ => 0) (Value.obj [("a", .num (.float64 1))]) (by decide) (by decide)

/-! ## Era numbers of the changes and of the new tree -/

theorem eraEntry_nil (pre : String) (q : List String) : eraEntry [] pre q = none := by
  cases q with
  | nil => rfl
  | cons name rest =>
    cases rest with
    | nil => rfl
    | cons x xs => rfl

theorem eraEntry_asJsonObj (v : Option Value) (pre : String) (q : List String) :
    eraEntry (asJsonObj v) pre q =
      match v with
      | some (.obj o) => eraEntry o pre q
      | _ => none := by
  cases v with
  | none => exact eraEntry_nil pre q
  | some w => cases w <;> first | rfl | exact eraEntry_nil pre q

theorem eraEntry_cons_of_ne_nil (t : jsonObj) (pre name : String) {q : List String}
    (hq : q ≠ []) :
    eraEntry t pre (name :: q) = eraEntry (asJsonObj (t.lookup (eraPrefixObj ++ name))) pre q := by
  rw [eraEntry_asJsonObj]
  cases q with
  | nil => exact absurd rfl hq
  | cons x xs => rfl

/-- A natural number below `2 ^ 64` converts to itself. -/
theorem uint64OfFloat_natCast {impl : ℚ → Nat} (k : Nat) (hk : k < 2 ^ 64) :
    uint64OfFloat impl (k : ℚ) = k := by
  unfold uint64OfFloat
  rw [Rat.num_natCast, Rat.den_natCast]
  simp only [Nat.cast_one, Int.tdiv_one]
  rw [if_pos ⟨Int.natCast_nonneg k, by exact_mod_cast hk⟩, Int.toNat_natCast]

/-- The truncation toward zero of a rational above `-1` is its floor, or `0`. -/
theorem tdiv_num_den (x : ℚ) (h1 : -1 < x) : Int.tdiv x.num (x.den : Int) = (⌊x⌋₊ : Int) := by
  by_cases h0 : 0 ≤ x
  · have hn : 0 ≤ x.num := Rat.num_nonneg.2 h0
    rw [Int.tdiv_eq_ediv hn (Int.natCast_nonneg _), ← Rat.floor_def, Int.natCast_floor_eq_floor h0]
  · have hx : x < 0 := not_le.1 h0
    have hn : x.num < 0 := Rat.num_neg.2 hx
    have hd : (0 : ℚ) < (x.den : ℚ) := by exact_mod_cast x.den_pos
    have hlt : -(x.den : Int) < x.num := by
      have e : (x.num : ℚ) = x * x.den := (Rat.mul_den_eq_num x).symm
      have h3 : -(x.den : ℚ) < (x.num : ℚ) := by
        rw [e]
        nlinarith
      exact_mod_cast h3
    rw [Nat.floor_of_nonpos (le_of_lt hx)]
    have habs : x.num.natAbs < x.den := by omega
    rw [show x.num = -((x.num.natAbs : Nat) : Int) by omega, Int.neg_tdiv]
    have hz : Int.tdiv ((x.num.natAbs : Nat) : Int) (x.den : Int) = 0 := by
      rw [Int.tdiv_eq_ediv (Int.natCast_nonneg _) (Int.natCast_nonneg _)]
      exact Int.ediv_eq_zero_of_lt (Int.natCast_nonneg _) (by exact_mod_cast habs)
    rw [hz]
    rfl

/-- Within the range of `uint64` the conversion discards the fraction. -/
theorem uint64OfFloat_floor {impl : ℚ → Nat} (x : ℚ) (h1 : -1 < x) (h2 : x < 2 ^ 64) :
    uint64OfFloat impl x = ⌊x⌋₊ := by
  unfold uint64OfFloat
  simp only [tdiv_num_den x h1]
  have hlt : ⌊x⌋₊ < 2 ^ 64 := by
    by_cases h0 : 0 ≤ x
    · have h3 : ((⌊x⌋₊ : Nat) : ℚ) < ((2 ^ 64 : Nat) : ℚ) :=
        lt_of_le_of_lt (Nat.floor_le h0) (by exact_mod_cast h2)
      exact_mod_cast h3
    · rw [Nat.floor_of_nonpos (le_of_lt (not_le.1 h0))]
      exact Nat.two_pow_pos 64
  rw [if_pos ⟨Int.natCast_nonneg _, by exact_mod_cast hlt⟩, Int.toNat_natCast]

/-- Outside of the range of `uint64` the result is the implementation's. -/
theorem uint64OfFloat_outside {impl : ℚ → Nat} (x : ℚ) (h : x ≤ -1 ∨ 2 ^ 64 ≤ x) :
    uint64OfFloat impl x = impl x % 2 ^ 64 := by
  unfold uint64OfFloat
  have hd : (0 : ℚ) < (x.den : ℚ) := by exact_mod_cast x.den_pos
  have e : (x.num : ℚ) = x * x.den := (Rat.mul_den_eq_num x).symm
  have hno : ¬ (0 ≤ Int.tdiv x.num (x.den : Int) ∧ Int.tdiv x.num (x.den : Int) < 2 ^ 64) := by
    rcases h with h | h
    · intro hc
      have hn : x.num < 0 := Rat.num_neg.2 (by linarith)
      have hle : x.num ≤ -(x.den : Int) := by
        have h3 : (x.num : ℚ) ≤ -(x.den : ℚ) := by
          rw [e]
          nlinarith
        exact_mod_cast h3
      have hge : x.den ≤ x.num.natAbs := by omega
      have h4 : Int.tdiv x.num (x.den : Int) =
          -(Int.tdiv ((x.num.natAbs : Nat) : Int) (x.den : Int)) := by
        conv_lhs => rw [show x.num = -((x.num.natAbs : Nat) : Int) by omega, Int.neg_tdiv]
      have h5 : 1 ≤ Int.tdiv ((x.num.natAbs : Nat) : Int) (x.den : Int) := by
        rw [Int.tdiv_eq_ediv (Int.natCast_nonneg _) (Int.natCast_nonneg _)]
        exact (Int.le_ediv_iff_mul_le (by exact_mod_cast x.den_pos)).2 (by
          rw [one_mul]
          exact_mod_cast hge)
      rw [h4] at hc
      omega
    · intro hc
      have h0 : 0 ≤ x := le_trans (by norm_num) h
      have h6 := tdiv_num_den x (by linarith)
      rw [h6] at hc
      have h7 : ((2 ^ 64 : Nat) : ℚ) ≤ x := by exact_mod_cast h
      have h8 : 2 ^ 64 ≤ ⌊x⌋₊ := Nat.le_floor h7
      have h9 := hc.2
      have h10 : ((⌊x⌋₊ : Nat) : Int) < ((2 ^ 64 : Nat) : Int) := by exact_mod_cast h9
      have h11 : ⌊x⌋₊ < 2 ^ 64 := by exact_mod_cast h10
      omega
  simp only [if_neg hno]

/-- The era of every change below a container is read from the old era node at
the relative path of the change. -/
theorem subChanges_era {impl : ℚ → Nat} (f : Nat) :
    ∀ (path : List String) (a b : Value) (oe : jsonObj) (n : Nat) (c : Change),
      path ≠ [] → a.depth ≤ f → b.depth ≤ f → c ∈ subChanges impl f path a b oe n →
      ∃ q, q ≠ [] ∧ c.Path = path.tail ++ q ∧
        c.Era = uint64OfFloat impl ((asFloat64 (eraEntry oe eraPrefixProp q)).getD (n : ℚ)) := by
  induction f with
  | zero => intro path a b oe n c _ _ _ h; cases h
  | succ f ih =>
    intro path a b oe n c hp ha hb h
    rw [subChanges_succ f path a b oe n ha hb, List.mem_flatMap] at h
    obtain ⟨name, _, hc⟩ := h
    rcases List.mem_append.1 hc with hc | hc
    · obtain ⟨q, hq, hpath, hera⟩ := ih _ _ _ _ n c (by simp)
        (depth_getProp name ha) (depth_getProp name hb) hc
      refine ⟨name :: q, by simp, ?_, ?_⟩
      · rw [hpath, List.tail_append_of_ne_nil hp, List.append_assoc]
        rfl
      · rw [hera, eraEntry_cons_of_ne_nil oe eraPrefixProp name hq]
    · obtain ⟨hpath, _, _, hera⟩ := mem_changeOf hc
      refine ⟨[name], by simp, ?_, ?_⟩
      · rw [hpath, List.tail_append_of_ne_nil hp]
      · rw [hera, List.getLastD_concat]
        rfl

/-- The era of every change of `buildNewEra` is read from the old era tree at
the path of the change (below the wrapper property `""`), converted to
`uint64`; the new era counter stands in for a missing entry. -/
theorem buildNewEra_change_era {impl : ℚ → Nat}
    {new old : Value} {oe : jsonObj} {n : Nat} {c : Change}
    (h : c ∈ (buildNewEra impl new old oe n).2) :
    c.Era = uint64OfFloat impl
      ((asFloat64 (eraEntry oe eraPrefixProp ("" :: c.Path))).getD (n : ℚ)) := by
  rw [buildNewEra_changes] at h
  rcases List.mem_append.1 h with h | h
  · obtain ⟨q, hq, hpath, hera⟩ := subChanges_era _ [""] new old _ n c (by simp)
      (le_max_left _ _) (le_max_right _ _) h
    have hp : c.Path = q := by simpa using hpath
    rw [hera, hp, eraEntry_cons_of_ne_nil oe eraPrefixProp "" hq]
    rfl
  · obtain ⟨hpath, _, _, hera⟩ := mem_changeOf h
    have hp : c.Path = [] := by simpa using hpath
    rw [hera, hp]
    rfl

theorem getPath_cons_of_basic {v : Value} (h : getValType v = valTypeBasic) (name : String)
    (rest : List String) : getPath v (name :: rest) = Undefined := by
  simp only [getPath]
  rw [getProp_of_basic h, getPath_undefined]

/-- The era number stored for a property of the new value: the new era when the
property changed, else its previous era. -/
theorem eraEntry_subEra {impl : ℚ → Nat} (q : List String) :
    ∀ (f : Nat) (path : List String) (a b : Value) (oe : jsonObj) (n : Nat),
      a.depth ≤ f → b.depth ≤ f → q ≠ [] → getPath a q ≠ Undefined →
      eraEntry (subEra impl f path a b oe n) eraPrefixProp q =
        some (.num (.float64
          (if finalMode (getPath a q) (getPath b q) ≠ ChangeEqual then (n : ℚ)
           else (asFloat64 (eraEntry oe eraPrefixProp q)).getD (n : ℚ)))) := by
  induction q with
  | nil => intro f path a b oe n _ _ h; exact absurd rfl h
  | cons name rest ih =>
    intro f path a b oe n ha hb _ hex
    by_cases hr : rest = []
    · subst hr
      simp only [getPath] at hex ⊢
      show (subEra impl f path a b oe n).lookup (eraPrefixProp ++ name) = _
      rw [subEra_lookup_prop f path a b oe n ha hb, if_pos hex]
      rfl
    · have hc : getValType (getProp a name) ≠ valTypeBasic := by
        intro hb'
        apply hex
        simp only [getPath]
        obtain ⟨x, xs, hx⟩ : ∃ x xs, rest = x :: xs := by
          cases rest with
          | nil => exact absurd rfl hr
          | cons x xs => exact ⟨x, xs, rfl⟩
        rw [hx]
        exact getPath_cons_of_basic hb' x xs
      rw [eraEntry_cons_of_ne_nil _ eraPrefixProp name hr,
        eraEntry_cons_of_ne_nil oe eraPrefixProp name hr,
        subEra_lookup_obj f path a b oe n ha hb, if_pos hc]
      cases f with
      | zero => exact absurd (by rw [getProp_of_depth_zero (by omega) name]; rfl) hc
      | succ f =>
        exact ih f _ _ _ _ n (depth_getProp name ha) (depth_getProp name hb) hr
          (by simpa [getPath] using hex)

/-- The era number `buildNewEra` stores for a property of the new document. -/
theorem eraEntry_buildNewEra {impl : ℚ → Nat}
    (new old : Value) (oe : jsonObj) (n : Nat) (p : List String)
    (hex : getPath new p ≠ Undefined) :
    eraEntry (buildNewEra impl new old oe n).1 eraPrefixProp ("" :: p) =
      some (.num (.float64
        (if finalMode (getPath new p) (getPath old p) ≠ ChangeEqual then (n : ℚ)
         else (asFloat64 (eraEntry oe eraPrefixProp ("" :: p))).getD (n : ℚ)))) := by
  rw [buildNewEra_era, eraEntry_subEra ("" :: p) _ [] _ _ oe n (le_max_left _ _)
    (le_max_right _ _) (by simp) (by rw [getPath_wrap]; exact hex), getPath_wrap, getPath_wrap]

/-- A property has a change in the list exactly when its final mode is not
`ChangeEqual`. -/
theorem exists_change_iff {impl : ℚ → Nat}
    (new old : Value) (oe : jsonObj) (n : Nat) (p : List String)
    (hex : getPath new p ≠ Undefined ∨ getPath old p ≠ Undefined) :
    (∃ c ∈ (buildNewEra impl new old oe n).2, c.Path = p) ↔
      finalMode (getPath new p) (getPath old p) ≠ ChangeEqual := by
  constructor
  · rintro ⟨c, hc, rfl⟩
    obtain ⟨hm, hne⟩ := buildNewEra_sound hc
    rw [← hm]
    exact hne
  · intro hne
    obtain ⟨c, hc, hp, _⟩ := buildNewEra_complete new old oe n p hex hne
    exact ⟨c, hc, hp⟩

/-- The paths and modes of the changes do not depend on the old era node. -/
theorem subChanges_path_mode_indep {impl : ℚ → Nat} (f : Nat) :
    ∀ (path : List String) (a b : Value) (oe oe' : jsonObj) (n : Nat),
      a.depth ≤ f → b.depth ≤ f →
      (subChanges impl f path a b oe n).map (fun c => (c.Path, c.Mode)) =
        (subChanges impl f path a b oe' n).map (fun c => (c.Path, c.Mode)) := by
  induction f with
  | zero => intro path a b oe oe' n _ _; rfl
  | succ f ih =>
    intro path a b oe oe' n ha hb
    rw [subChanges_succ f path a b oe n ha hb, subChanges_succ f path a b oe' n ha hb,
      List.map_flatMap, List.map_flatMap]
    congr 1
    funext name
    rw [List.map_append, List.map_append,
      ih _ _ _ (asJsonObj (oe.lookup (eraPrefixObj ++ name)))
        (asJsonObj (oe'.lookup (eraPrefixObj ++ name))) n
        (depth_getProp name ha) (depth_getProp name hb)]
    congr 1
    unfold changeOf
    split <;> rfl

theorem buildNewEra_path_mode_indep {impl : ℚ → Nat}
    (new old : Value) (oe oe' : jsonObj) (n : Nat) :
    (buildNewEra impl new old oe n).2.map (fun c => (c.Path, c.Mode)) =
      (buildNewEra impl new old oe' n).2.map (fun c => (c.Path, c.Mode)) := by
  rw [buildNewEra_changes, buildNewEra_changes, List.map_append, List.map_append,
    subChanges_path_mode_indep _ [""] new old _ (asJsonObj (oe'.lookup "_")) n
      (le_max_left _ _) (le_max_right _ _)]
  congr 1
  unfold changeOf
  split <;> rfl

/-! ## Claims C11 to C13 -/

/-- C11 (counterexample): the `Era` field is not always the stored entry. With
the entry `2.75` for the property `a` in the old era tree, the change of `a`
carries the era `2`: the conversion `uint64(oldEraVal)` discards the fraction. -/
theorem C11_counterexample :
    eraEntry [(".", .num (.float64 ((2 : Nat) : ℚ))),
        ("_", .obj [(".a", .num (.float64 (Rat.divInt 11 4)))])] eraPrefixProp ["", "a"] =
      some (.num (.float64 (Rat.divInt 11 4))) ∧
    (buildNewEra (fun _ => 0) (Value.obj [("a", .num (.float64 1))])
        (Value.obj [("a", .num (.float64 0))])
        [(".", .num (.float64 ((2 : Nat) : ℚ))),
          ("_", .obj [(".a", .num (.float64 (Rat.divInt 11 4)))])] 3).2 =
      [{ Path := ["a"], Era := 2, Mode := ChangeUpdate }] ∧
    ((2 : Nat) : ℚ) ≠ Rat.divInt 11 4 := by
  refine ⟨rfl, by decide, by decide⟩

/-- C11 (amended): the `Era` field of every change returned by `buildNewEra` is
`uint64(entry)` of the `float64` entry stored for the property in the old era
tree (found by following the `"_" ++ segment` child-slots along the path and
reading `"." ++ last segment`): for an entry above `-1` and below `2 ^ 64` the
entry with the fraction discarded, hence the entry itself when it is a whole
number from `0` to `2 ^ 64 - 1`; for an entry outside of that range whatever
the implementation makes of the conversion; and the new era counter when the
old era tree has no such `float64` entry. -/
theorem C11_change_era_is_previous_era (impl : ℚ → Nat) (new old : Value) (oe : jsonObj)
    (n : Nat) (c : Change) (hc : c ∈ (buildNewEra impl new old oe n).2) :
    (∀ x, eraEntry oe eraPrefixProp ("" :: c.Path) = some (.num (.float64 x)) →
        -1 < x → x < 2 ^ 64 → c.Era = ⌊x⌋₊) ∧
      (∀ k : Nat, k < 2 ^ 64 →
        eraEntry oe eraPrefixProp ("" :: c.Path) = some (.num (.float64 (k : ℚ))) →
        c.Era = k) ∧
      (∀ x, eraEntry oe eraPrefixProp ("" :: c.Path) = some (.num (.float64 x)) →
        x ≤ -1 ∨ 2 ^ 64 ≤ x → c.Era = impl x % 2 ^ 64) ∧
      (asFloat64 (eraEntry oe eraPrefixProp ("" :: c.Path)) = none → n < 2 ^ 32 →
        c.Era = n) := by
  have h := buildNewEra_change_era hc
  refine ⟨fun x hx h1 h2 => ?_, fun k hk hx => ?_, fun x hx ho => ?_, fun hnone hn => ?_⟩
  · rw [h, hx]
    exact uint64OfFloat_floor x h1 h2
  · rw [h, hx]
    exact uint64OfFloat_natCast k hk
  · rw [h, hx]
    exact uint64OfFloat_outside x ho
  · rw [h, hnone]
    exact uint64OfFloat_natCast n (by omega)

theorem C11_change_era_is_previous_era_witness :
    ({ Path := ["a", "0"], Era := 2, Mode := ChangeDelete } : Change).Era = 2 :=
  (C11_change_era_is_previous_era (fun _ => 0) (Value.obj [("a", .arr [])])
    (Value.obj [("a", .arr [.num (.float64 0)])])
    [(".", .num (.float64 2)), ("_", .obj [(".a", .num (.float64 2)),
      ("_a", .obj [(".0", .num (.float64 ((2 : Nat) : ℚ)))])])] 1
    { Path := ["a", "0"], Era := 2, Mode := ChangeDelete } (by decide)).2.1 2 (by decide) rfl

/-- C12: era numbers in the new tree. For every property of the new document,
its numeric entry in the era tree returned by `buildNewEra` is the new era
counter if a change for that property is in the returned list, and otherwise
the property's entry in the old era tree carried forward unchanged, or the new
era counter when the old tree has no numeric entry for it. -/
theorem C12_new_tree_era_numbers (impl : ℚ → Nat)
    (new old : Value) (oe : jsonObj) (n : Nat) (p : List String)
    (hex : getPath new p ≠ Undefined) :
    ((∃ c ∈ (buildNewEra impl new old oe n).2, c.Path = p) →
        eraEntry (buildNewEra impl new old oe n).1 eraPrefixProp ("" :: p) =
          some (.num (.float64 (n : ℚ)))) ∧
      ((¬ ∃ c ∈ (buildNewEra impl new old oe n).2, c.Path = p) →
        (∀ x, eraEntry oe eraPrefixProp ("" :: p) = some (.num (.float64 x)) →
          eraEntry (buildNewEra impl new old oe n).1 eraPrefixProp ("" :: p) =
            some (.num (.float64 x))) ∧
        (asFloat64 (eraEntry oe eraPrefixProp ("" :: p)) = none →
          eraEntry (buildNewEra impl new old oe n).1 eraPrefixProp ("" :: p) =
            some (.num (.float64 (n : ℚ))))) := by
  have h := @eraEntry_buildNewEra impl new old oe n p hex
  have hiff := @exists_change_iff impl new old oe n p (Or.inl hex)
  constructor
  · intro hch
    rw [h, if_pos (hiff.1 hch)]
  · intro hno
    have heq : ¬ finalMode (getPath new p) (getPath old p) ≠ ChangeEqual :=
      fun hne => hno (hiff.2 hne)
    rw [h, if_neg heq]
    constructor
    · intro x hx
      rw [hx]; rfl
    · intro hnone
      rw [hnone]; rfl

theorem C12_new_tree_era_numbers_witness :
    ((∃ c ∈ (buildNewEra (fun _ => 0) (Value.obj [("a", .arr [])])
          (Value.obj [("a", .arr [.num (.float64 0)])])
          [(".", .num (.float64 2)), ("_", .obj [(".a", .num (.float64 2)),
            ("_a", .obj [(".0", .num (.float64 2))])])] 1).2, c.Path = []) →
        eraEntry (buildNewEra (fun _ => 0) (Value.obj [("a", .arr [])])
          (Value.obj [("a", .arr [.num (.float64 0)])])
          [(".", .num (.float64 2)), ("_", .obj [(".a", .num (.float64 2)),
            ("_a", .obj [(".0", .num (.float64 2))])])] 1).1 eraPrefixProp ("" :: []) =
          some (.num (.float64 ((1 : Nat) : ℚ)))) ∧
      ((¬ ∃ c ∈ (buildNewEra (fun _ => 0) (Value.obj [("a", .arr [])])
          (Value.obj [("a", .arr [.num (.float64 0)])])
          [(".", .num (.float64 2)), ("_", .obj [(".a", .num (.float64 2)),
            ("_a", .obj [(".0", .num (.float64 2))])])] 1).2, c.Path = []) →
        (∀ x, eraEntry [(".", .num (.float64 2)), ("_", .obj [(".a", .num (.float64 2)),
            ("_a", .obj [(".0", .num (.float64 2))])])] eraPrefixProp ("" :: []) =
              some (.num (.float64 x)) →
          eraEntry (buildNewEra (fun _ => 0) (Value.obj [("a", .arr [])])
            (Value.obj [("a", .arr [.num (.float64 0)])])
            [(".", .num (.float64 2)), ("_", .obj [(".a", .num (.float64 2)),
              ("_a", .obj [(".0", .num (.float64 2))])])] 1).1 eraPrefixProp ("" :: []) =
            some (.num (.float64 x))) ∧
        (asFloat64 (eraEntry [(".", .num (.float64 2)), ("_", .obj [(".a", .num (.float64 2)),
            ("_a", .obj [(".0", .num (.float64 2))])])] eraPrefixProp ("" :: [])) = none →
          eraEntry (buildNewEra (fun _ => 0) (Value.obj [("a", .arr [])])
            (Value.obj [("a", .arr [.num (.float64 0)])])
            [(".", .num (.float64 2)), ("_", .obj [(".a", .num (.float64 2)),
              ("_a", .obj [(".0", .num (.float64 2))])])] 1).1 eraPrefixProp ("" :: []) =
            some (.num (.float64 ((1 : Nat) : ℚ))))) :=
  C12_new_tree_era_numbers (fun _ => 0) (Value.obj [("a", .arr [])])
    (Value.obj [("a", .arr [.num (.float64 0)])])
    [(".", .num (.float64 2)), ("_", .obj [(".a", .num (.float64 2)),
      ("_a", .obj [(".0", .num (.float64 2))])])] 1 [] (by decide)

/-- C13 (counterexample): with an `Era` that is not a `jsonObj` (here `nil`) the
type assertion `e.Era.(jsonObj)` panics and `UpdateDoc` returns nothing. -/
theorem C13_counterexample :
    UpdateDoc (fun _ => 0) { Doc := Value.null, Era := Value.null, DocEra := 0 } Value.null = none :=
  rfl

/-- C13 (amended): for every new document and every state whose `Era` holds a
`jsonObj`, whatever that era tree looks like, `UpdateDoc` returns a state and
a change list; the recursion has ended within the fuel `buildNewEra` passes
(more fuel gives the same result); the paths and modes of the changes are the
same for every era tree, and a change whose entry in the era tree is missing
or not a number carries the default era, the new era counter. -/
theorem C13_UpdateDoc_total (impl : ℚ → Nat) (e : EraDocument) (newDoc : Value) (eraObj : jsonObj)
    (hE : e.Era = Value.obj eraObj) :
    (∃ e1 ch, UpdateDoc impl e newDoc = some (e1, ch)) ∧
      (∀ (k : Nat) (n : Nat),
        buildSubEra impl (max (Value.obj [("", newDoc)]).depth (Value.obj [("", e.Doc)]).depth + k) []
            (Value.obj [("", newDoc)]) (Value.obj [("", e.Doc)]) [] eraObj n [] =
          buildSubEra impl (max (Value.obj [("", newDoc)]).depth (Value.obj [("", e.Doc)]).depth) []
            (Value.obj [("", newDoc)]) (Value.obj [("", e.Doc)]) [] eraObj n []) ∧
      (∀ (eraObj' : jsonObj) (n : Nat),
        (buildNewEra impl newDoc e.Doc eraObj n).2.map (fun c => (c.Path, c.Mode)) =
          (buildNewEra impl newDoc e.Doc eraObj' n).2.map (fun c => (c.Path, c.Mode))) ∧
      (∀ (n : Nat) (c : Change), c ∈ (buildNewEra impl newDoc e.Doc eraObj n).2 →
        asFloat64 (eraEntry eraObj eraPrefixProp ("" :: c.Path)) = none → n < 2 ^ 32 →
        c.Era = n) := by
  refine ⟨?_, fun k n => ?_, fun eraObj' n => ?_, fun n c hc hnone hn => ?_⟩
  · rw [UpdateDoc_eq e newDoc eraObj hE]
    split
    · exact ⟨_, _, rfl⟩
    · exact ⟨_, _, rfl⟩
  · exact buildSubEra_fuel k _ [] _ _ [] eraObj n [] (le_max_left _ _) (le_max_right _ _)
  · exact buildNewEra_path_mode_indep newDoc e.Doc eraObj eraObj' n
  · rw [buildNewEra_change_era hc, hnone]
    show uint64OfFloat impl (n : ℚ) = n
    exact uint64OfFloat_natCast n (by omega)

theorem C13_UpdateDoc_total_witness :
    ∃ e1 ch, UpdateDoc (fun _ => 0)
      { Doc := Value.obj [("a", .num (.float64 0))]
        Era := Value.obj [(".", .obj []), ("_", .num (.float64 3)), (".a", .str "x")]
        DocEra := 4 }
      (Value.obj [("a", .num (.float64 1))]) = some (e1, ch) :=
  (C13_UpdateDoc_total (fun _ => 0)
    { Doc := Value.obj [("a", .num (.float64 0))]
      Era := Value.obj [(".", .obj []), ("_", .num (.float64 3)), (".a", .str "x")]
      DocEra := 4 }
    (Value.obj [("a", .num (.float64 1))])
    [(".", .obj []), ("_", .num (.float64 3)), (".a", .str "x")] rfl).1

/-! ## Unreported containers and the order of the changes -/

theorem schemaChanged_eq_false {x y : Value}
    (h : ∀ name ∈ propNames x y, getProp x name ≠ Undefined ∧ getProp y name ≠ Undefined) :
    schemaChanged x y = false := by
  unfold schemaChanged
  rw [List.any_eq_false]
  intro name hname
  obtain ⟨h1, h2⟩ := h name hname
  simp [h1, h2]

theorem finalMode_container_same_names {x y : Value} (hkind : getValType x = getValType y)
    (hcont : getValType x ≠ valTypeBasic)
    (h : ∀ name ∈ propNames x y, getProp x name ≠ Undefined ∧ getProp y name ≠ Undefined) :
    finalMode x y = ChangeEqual := by
  simp [finalMode, schemaChanged_eq_false h, classify_container hkind hcont]

theorem isDoc_getProp {v : Value} {name : String} (h : v.isDoc = true)
    (hm : name ∈ (props v).map Prod.fst) : (getProp v name).isDoc = true :=
  isDoc_of_mem_props h (getProp_of_mem_names hm)

theorem isDoc_getPath (q : List String) :
    ∀ {v : Value}, v.isDoc = true → getPath v q ≠ Undefined → (getPath v q).isDoc = true := by
  induction q with
  | nil => intro v h _; exact h
  | cons name rest ih =>
    intro v h hne
    simp only [getPath] at hne ⊢
    have hp : getProp v name ≠ Undefined := by
      intro hu
      rw [hu, getPath_undefined] at hne
      exact hne rfl
    exact ih (isDoc_getProp h (getProp_ne_undefined_mem hp)) hne

theorem classify_of_normalize_eq {x y : Value} (hx : x ≠ Undefined) (hy : y ≠ Undefined)
    (ht : getValType x = getValType y)
    (hb : getValType x = valTypeBasic → normalizeNumber x = normalizeNumber y) :
    classify x y = ChangeEqual := by
  by_cases hbasic : getValType x = valTypeBasic
  · unfold classify
    rw [if_neg hx, if_neg hy, if_neg (not_not.2 ht), if_pos hbasic]
    unfold cmpBasicJSONVal
    rw [← hb hbasic, goEq_normalize_self hbasic]
    rfl
  · exact classify_container ht hbasic

theorem classify_basic_differ {x y : Value} (hx : x ≠ Undefined) (hy : y ≠ Undefined)
    (hbx : getValType x = valTypeBasic) (hby : getValType y = valTypeBasic)
    (hd : normalizeNumber x ≠ normalizeNumber y) : classify x y = ChangeUpdate := by
  unfold classify
  rw [if_neg hx, if_neg hy, if_neg (not_not.2 (hbx.trans hby.symm)), if_pos hbx]
  unfold cmpBasicJSONVal
  have : goEq (normalizeNumber x) (normalizeNumber y) = false := by
    cases hg : goEq (normalizeNumber x) (normalizeNumber y) with
    | false => rfl
    | true => exact absurd (goEq_eq hg) hd
  rw [this]
  rfl

theorem length_le_one_of_nodup_const {α : Type} {l : List α} {a : α} (hnd : l.Nodup)
    (h : ∀ x ∈ l, x = a) : l.length ≤ 1 := by
  cases l with
  | nil => simp
  | cons x rest =>
    cases rest with
    | nil => simp
    | cons y rest' =>
      have hx := h x (by simp)
      have hy := h y (by simp)
      rw [List.nodup_cons] at hnd
      exact absurd (by rw [hx, hy]; simp) hnd.1

/-- Every change below a container at `path` has a path that continues
`path` with the name of the visited property. -/
theorem chunk_path {impl : ℚ → Nat}
    (f : Nat) (path : List String) (a b : Value) (oe : jsonObj) (n : Nat)
    (hp : path ≠ []) (ha : a.depth ≤ f + 1) (hb : b.depth ≤ f + 1) (name : String) (c : Change)
    (hc : c ∈ subChanges impl f (path ++ [name]) (getProp a name) (getProp b name)
        (asJsonObj (oe.lookup (eraPrefixObj ++ name))) n ++
      changeOf impl (path ++ [name]) (getProp a name) (getProp b name) oe n) :
    (∃ r, r ≠ [] ∧ c.Path = path.tail ++ name :: r ∧
        c ∈ subChanges impl f (path ++ [name]) (getProp a name) (getProp b name)
          (asJsonObj (oe.lookup (eraPrefixObj ++ name))) n) ∨
      (c.Path = path.tail ++ [name] ∧
        c ∈ changeOf impl (path ++ [name]) (getProp a name) (getProp b name) oe n) := by
  rcases List.mem_append.1 hc with hc | hc
  · obtain ⟨name', rest, _, hpath, _⟩ := subChanges_sound f _ _ _ _ n c
      (depth_getProp name ha) (depth_getProp name hb) hc
    refine Or.inl ⟨name' :: rest, by simp, ?_, hc⟩
    rw [hpath, List.append_assoc, List.tail_append_of_ne_nil hp]
    rfl
  · refine Or.inr ⟨?_, hc⟩
    rw [(mem_changeOf hc).1, List.tail_append_of_ne_nil hp]

/-- In the changes of a container no earlier path is a prefix of a later one:
the change of a property follows the changes nested inside it. -/
theorem subChanges_pairwise {impl : ℚ → Nat} (f : Nat) :
    ∀ (path : List String) (a b : Value) (oe : jsonObj) (n : Nat),
      path ≠ [] → a.depth ≤ f → b.depth ≤ f →
      (subChanges impl f path a b oe n).Pairwise (fun c1 c2 => ¬ c1.Path <+: c2.Path) := by
  induction f with
  | zero => intro path a b oe n _ _ _; exact List.Pairwise.nil
  | succ f ih =>
    intro path a b oe n hp ha hb
    rw [subChanges_succ f path a b oe n ha hb, List.pairwise_flatMap]
    constructor
    · intro name _
      rw [List.pairwise_append]
      refine ⟨ih _ _ _ _ n (by simp) (depth_getProp name ha) (depth_getProp name hb), ?_, ?_⟩
      · unfold changeOf
        split
        · exact List.pairwise_singleton _ _
        · exact List.Pairwise.nil
      · intro x hx y hy hpre
        obtain ⟨name', rest, _, hpath, _⟩ := subChanges_sound f _ _ _ _ n x
          (depth_getProp name ha) (depth_getProp name hb) hx
        have hy' := (mem_changeOf hy).1
        have hlen := hpre.length_le
        rw [hpath, hy'] at hlen
        simp only [List.length_tail, List.length_append, List.length_cons,
          List.length_singleton, List.length_nil] at hlen
        omega
    · have hnd : (propNames a b).Nodup := List.nodup_dedup _
      refine List.Pairwise.imp ?_ hnd
      intro n1 n2 hne x hx y hy hpre
      have h1 : ∃ r, x.Path = path.tail ++ n1 :: r := by
        rcases chunk_path f path a b oe n hp ha hb n1 x hx with ⟨r, _, h, _⟩ | ⟨h, _⟩
        · exact ⟨r, h⟩
        · exact ⟨[], h⟩
      have h2 : ∃ r, y.Path = path.tail ++ n2 :: r := by
        rcases chunk_path f path a b oe n hp ha hb n2 y hy with ⟨r, _, h, _⟩ | ⟨h, _⟩
        · exact ⟨r, h⟩
        · exact ⟨[], h⟩
      obtain ⟨r1, h1⟩ := h1
      obtain ⟨r2, h2⟩ := h2
      rw [h1, h2, List.prefix_append_right_inj, List.cons_prefix_cons] at hpre
      exact hne hpre.1

theorem subChanges_path_ne_nil {impl : ℚ → Nat}
    {f : Nat} {a b : Value} {oe : jsonObj} {n : Nat} {c : Change}
    (ha : a.depth ≤ f) (hb : b.depth ≤ f) (h : c ∈ subChanges impl f [""] a b oe n) :
    c.Path ≠ [] := by
  obtain ⟨name, rest, _, hpath, _⟩ := subChanges_sound f _ _ _ _ n c ha hb h
  rw [hpath]
  simp

theorem buildNewEra_pairwise {impl : ℚ → Nat} (new old : Value) (oe : jsonObj) (n : Nat) :
    (buildNewEra impl new old oe n).2.Pairwise (fun c1 c2 => ¬ c1.Path <+: c2.Path) := by
  rw [buildNewEra_changes, List.pairwise_append]
  refine ⟨subChanges_pairwise _ _ _ _ _ n (by simp) (le_max_left _ _) (le_max_right _ _), ?_, ?_⟩
  · unfold changeOf
    split
    · exact List.pairwise_singleton _ _
    · exact List.Pairwise.nil
  · intro x hx y hy hpre
    have hy' : y.Path = [] := by simpa using (mem_changeOf hy).1
    rw [hy', List.prefix_nil] at hpre
    exact subChanges_path_ne_nil (le_max_left _ _) (le_max_right _ _) hx hpre

theorem buildNewEra_root_last {impl : ℚ → Nat}
    (new old : Value) (oe : jsonObj) (n : Nat) (c : Change)
    (hc : c ∈ (buildNewEra impl new old oe n).2) (hp : c.Path = []) :
    (buildNewEra impl new old oe n).2.getLast? = some c := by
  rw [buildNewEra_changes] at hc ⊢
  rcases List.mem_append.1 hc with h | h
  · exact absurd hp (subChanges_path_ne_nil (le_max_left _ _) (le_max_right _ _) h)
  · unfold changeOf at h ⊢
    split at h
    · rename_i hne
      rw [if_pos hne]
      simp only [List.mem_singleton] at h
      rw [List.getLast?_concat, h]
    · cases h

/-- Between documents, every change below a container belongs to a property
that exists in one of the two values. -/
theorem subChanges_exists {impl : ℚ → Nat} (f : Nat) :
    ∀ (path : List String) (a b : Value) (oe : jsonObj) (n : Nat) (c : Change),
      path ≠ [] → (a = Undefined ∨ a.isDoc = true) → (b = Undefined ∨ b.isDoc = true) →
      a.depth ≤ f → b.depth ≤ f → c ∈ subChanges impl f path a b oe n →
      ∃ q, q ≠ [] ∧ c.Path = path.tail ++ q ∧
        (getPath a q ≠ Undefined ∨ getPath b q ≠ Undefined) := by
  induction f with
  | zero => intro path a b oe n c _ _ _ _ _ h; cases h
  | succ f ih =>
    intro path a b oe n c hp hda hdb ha hb h
    rw [subChanges_succ f path a b oe n ha hb, List.mem_flatMap] at h
    obtain ⟨name, hname, hc⟩ := h
    have hchild : ∀ v : Value, (v = Undefined ∨ v.isDoc = true) →
        (getProp v name = Undefined ∨ (getProp v name).isDoc = true) := by
      intro v hv
      by_cases hm : name ∈ (props v).map Prod.fst
      · rcases hv with hv | hv
        · subst hv; simp [props] at hm
        · exact Or.inr (isDoc_getProp hv hm)
      · left
        by_contra hne
        exact hm (getProp_ne_undefined_mem hne)
    have hone : getProp a name ≠ Undefined ∨ getProp b name ≠ Undefined := by
      rcases mem_propNames.1 hname with hm | hm
      · rcases hda with hv | hv
        · subst hv; simp [props] at hm
        · exact Or.inl (isDoc_ne_undefined (isDoc_getProp hv hm))
      · rcases hdb with hv | hv
        · subst hv; simp [props] at hm
        · exact Or.inr (isDoc_ne_undefined (isDoc_getProp hv hm))
    rcases chunk_path f path a b oe n hp ha hb name c hc with ⟨_, _, _, hsub⟩ | ⟨hpath, _⟩
    · obtain ⟨q, hq, hpath, hex⟩ := ih _ _ _ _ n c (by simp) (hchild a hda) (hchild b hdb)
        (depth_getProp name ha) (depth_getProp name hb) hsub
      refine ⟨name :: q, by simp, ?_, by simpa [getPath] using hex⟩
      rw [hpath, List.tail_append_of_ne_nil hp, List.append_assoc]
      rfl
    · exact ⟨[name], by simp, hpath, by simpa [getPath] using hone⟩

theorem buildNewEra_exists {impl : ℚ → Nat} {new old : Value} {oe : jsonObj} {n : Nat} {c : Change}
    (hnew : new.isDoc = true) (hold : old = Undefined ∨ old.isDoc = true)
    (h : c ∈ (buildNewEra impl new old oe n).2) :
    getPath new c.Path ≠ Undefined ∨ getPath old c.Path ≠ Undefined := by
  rw [buildNewEra_changes] at h
  rcases List.mem_append.1 h with h | h
  · obtain ⟨q, _, hpath, hex⟩ := subChanges_exists _ [""] new old _ n c (by simp)
      (Or.inr hnew) hold (le_max_left _ _) (le_max_right _ _) h
    have hp : c.Path = q := by simpa using hpath
    rw [hp]
    exact hex
  · have hp : c.Path = [] := by simpa using (mem_changeOf h).1
    rw [hp]
    exact Or.inl (isDoc_ne_undefined hnew)

/-! ## Claims C18 and C19 -/

/-- C18: no transitive propagation. A container property that is present in
both documents with the same kind and whose immediate child names all have a
value in both documents is never reported, whatever differs deeper inside it.
In particular, when two documents differ only in the basic value at one path,
`buildNewEra` returns exactly one change, `ChangeUpdate` at that path; and when
a grandchild is added or removed, the parent is reported with `ChangeUpdate`
and the grandparent is not reported. -/
theorem C18_no_transitive_propagation (impl : ℚ → Nat) (new old : Value) (oe : jsonObj) (n : Nat) :
    (∀ p : List String,
        getValType (getPath new p) = getValType (getPath old p) →
        getValType (getPath new p) ≠ valTypeBasic →
        (∀ name ∈ propNames (getPath new p) (getPath old p),
          getProp (getPath new p) name ≠ Undefined ∧ getProp (getPath old p) name ≠ Undefined) →
        ¬ ∃ c ∈ (buildNewEra impl new old oe n).2, c.Path = p) ∧
      (∀ p : List String, new.isDoc = true → old.isDoc = true →
        getPath new p ≠ Undefined → getPath old p ≠ Undefined →
        getValType (getPath new p) = valTypeBasic →
        getValType (getPath old p) = valTypeBasic →
        normalizeNumber (getPath new p) ≠ normalizeNumber (getPath old p) →
        (∀ q : List String, q ≠ p →
          (getPath new q = Undefined ↔ getPath old q = Undefined) ∧
          getValType (getPath new q) = getValType (getPath old q) ∧
          (getValType (getPath new q) = valTypeBasic →
            normalizeNumber (getPath new q) = normalizeNumber (getPath old q))) →
        ∃ c, (buildNewEra impl new old oe n).2 = [c] ∧ c.Path = p ∧ c.Mode = ChangeUpdate) ∧
      (∀ (p : List String) (name child : String),
        getValType (getPath new p) = getValType (getPath old p) →
        getValType (getPath new p) ≠ valTypeBasic →
        (∀ nm ∈ propNames (getPath new p) (getPath old p),
          getProp (getPath new p) nm ≠ Undefined ∧ getProp (getPath old p) nm ≠ Undefined) →
        getValType (getPath new (p ++ [name])) = getValType (getPath old (p ++ [name])) →
        getValType (getPath new (p ++ [name])) ≠ valTypeBasic →
        ((getProp (getPath new (p ++ [name])) child = Undefined ∧
            getProp (getPath old (p ++ [name])) child ≠ Undefined) ∨
          (getProp (getPath new (p ++ [name])) child ≠ Undefined ∧
            getProp (getPath old (p ++ [name])) child = Undefined)) →
        (∃ c ∈ (buildNewEra impl new old oe n).2, c.Path = p ++ [name] ∧ c.Mode = ChangeUpdate) ∧
          ¬ ∃ c ∈ (buildNewEra impl new old oe n).2, c.Path = p) := by
  have part1 : ∀ p : List String,
      getValType (getPath new p) = getValType (getPath old p) →
      getValType (getPath new p) ≠ valTypeBasic →
      (∀ name ∈ propNames (getPath new p) (getPath old p),
        getProp (getPath new p) name ≠ Undefined ∧ getProp (getPath old p) name ≠ Undefined) →
      ¬ ∃ c ∈ (buildNewEra impl new old oe n).2, c.Path = p := by
    rintro p hkind hcont hnames ⟨c, hc, rfl⟩
    obtain ⟨hm, hne⟩ := buildNewEra_sound hc
    rw [hm] at hne
    exact hne (finalMode_container_same_names hkind hcont hnames)
  refine ⟨part1, ?_, ?_⟩
  · intro p hnew hold hxp hyp hbx hby hdiff hrest
    have hall : ∀ c ∈ (buildNewEra impl new old oe n).2, c.Path = p := by
      intro c hc
      by_contra hq
      obtain ⟨hm, hne⟩ := buildNewEra_sound hc
      rw [hm] at hne
      apply hne
      obtain ⟨hpres, hty, hval⟩ := hrest c.Path hq
      have hboth : getPath new c.Path ≠ Undefined ∧ getPath old c.Path ≠ Undefined := by
        rcases buildNewEra_exists hnew (Or.inr hold) hc with h | h
        · exact ⟨h, fun h' => h (hpres.2 h')⟩
        · exact ⟨fun h' => h (hpres.1 h'), h⟩
      have hcl := classify_of_normalize_eq hboth.1 hboth.2 hty hval
      have hsc : schemaChanged (getPath new c.Path) (getPath old c.Path) = false := by
        apply schemaChanged_eq_false
        intro name hname
        have hgn : getPath new (c.Path ++ [name]) = getProp (getPath new c.Path) name := by
          rw [getPath_append]; rfl
        have hgo : getPath old (c.Path ++ [name]) = getProp (getPath old c.Path) name := by
          rw [getPath_append]; rfl
        by_cases hcp : c.Path ++ [name] = p
        · rw [← hgn, ← hgo, hcp]
          exact ⟨hxp, hyp⟩
        · have hpr := (hrest (c.Path ++ [name]) hcp).1
          rw [hgn, hgo] at hpr
          rcases mem_propNames.1 hname with hmem | hmem
          · have h1 := isDoc_ne_undefined
              (isDoc_getProp (isDoc_getPath c.Path hnew hboth.1) hmem)
            exact ⟨h1, fun h' => h1 (hpr.2 h')⟩
          · have h1 := isDoc_ne_undefined
              (isDoc_getProp (isDoc_getPath c.Path hold hboth.2) hmem)
            exact ⟨fun h' => h1 (hpr.1 h'), h1⟩
      simp [finalMode, hsc, hcl]
    have hup : finalMode (getPath new p) (getPath old p) = ChangeUpdate :=
      finalMode_eq_update_of_classify (classify_basic_differ hxp hyp hbx hby hdiff)
    obtain ⟨c, hc, hpath, hmode⟩ :=
      buildNewEra_complete new old oe n p (Or.inl hxp) (by rw [hup]; decide)
    have hlen : ((buildNewEra impl new old oe n).2.map Change.Path).length ≤ 1 :=
      length_le_one_of_nodup_const (buildNewEra_paths_nodup new old oe n)
        (fun x hx => by
          obtain ⟨c', hc', rfl⟩ := List.mem_map.1 hx
          exact hall c' hc')
    rw [List.length_map] at hlen
    refine ⟨c, ?_, hpath, by rw [hmode, hup]⟩
    cases hl : (buildNewEra impl new old oe n).2 with
    | nil => rw [hl] at hc; cases hc
    | cons x rest =>
      rw [hl] at hc hlen
      cases rest with
      | nil =>
        simp only [List.mem_singleton] at hc
        rw [hc]
      | cons y rest' =>
        simp only [List.length_cons] at hlen
        omega
  · intro p name child hkind hcont hnames hkind' hcont' hone
    refine ⟨?_, part1 p hkind hcont hnames⟩
    have hx : getPath new (p ++ [name]) ≠ Undefined := getValType_ne_basic_ne_undefined hcont'
    have hu : finalMode (getPath new (p ++ [name])) (getPath old (p ++ [name])) =
        ChangeUpdate := by
      simp [finalMode, schemaChanged_of_one_sided hone, classify_container hkind' hcont']
    obtain ⟨c, hc, hp, hm⟩ :=
      buildNewEra_complete new old oe n (p ++ [name]) (Or.inl hx) (by rw [hu]; decide)
    exact ⟨c, hc, hp, by rw [hm, hu]⟩

theorem C18_no_transitive_propagation_witness :
    ∃ c, (buildNewEra (fun _ => 0) (Value.obj [("a", .arr [.num (.float64 1)])])
        (Value.obj [("a", .arr [.num (.float64 0)])]) [] 1).2 = [c] ∧
      c.Path = ["a", "0"] ∧ c.Mode = ChangeUpdate :=
  (C18_no_transitive_propagation (fun _ => 0) (Value.obj [("a", .arr [.num (.float64 1)])])
    (Value.obj [("a", .arr [.num (.float64 0)])]) [] 1).2.1 ["a", "0"]
    (by decide) (by decide) (by decide) (by decide) (by decide) (by decide)
    (by
      show Value.num (.float64 1) ≠ Value.num (.float64 0)
      intro h
      injection h with h
      injection h with h
      exact absurd h (by norm_num))
    (by
      have hlist : (buildNewEra (fun _ => 0) (Value.obj [("a", .arr [.num (.float64 1)])])
          (Value.obj [("a", .arr [.num (.float64 0)])]) [] 1).2 =
          [{ Path := ["a", "0"], Era := 1, Mode := ChangeUpdate }] := by decide
      intro q hq
      have hfm : finalMode (getPath (Value.obj [("a", .arr [.num (.float64 1)])]) q)
          (getPath (Value.obj [("a", .arr [.num (.float64 0)])]) q) = ChangeEqual ∨
          (getPath (Value.obj [("a", .arr [.num (.float64 1)])]) q = Undefined ∧
            getPath (Value.obj [("a", .arr [.num (.float64 0)])]) q = Undefined) := by
        by_cases hex : getPath (Value.obj [("a", .arr [.num (.float64 1)])]) q ≠ Undefined ∨
            getPath (Value.obj [("a", .arr [.num (.float64 0)])]) q ≠ Undefined
        · left
          by_contra hne
          obtain ⟨c, hc, hp⟩ := (exists_change_iff _ _ [] 1 q hex).2 hne
          rw [hlist] at hc
          simp only [List.mem_singleton] at hc
          rw [hc] at hp
          exact hq hp.symm
        · push_neg at hex
          exact Or.inr hex
      rcases hfm with h | ⟨h1, h2⟩
      · obtain ⟨hx, hy, ht, hb⟩ := classify_eq_equal (finalMode_eq_equal h)
        exact ⟨⟨fun h' => absurd h' hx, fun h' => absurd h' hy⟩, ht, hb⟩
      · rw [h1, h2]
        simp)

/-- C19: order of the change list. In the list returned by `buildNewEra` the
change of a property comes after the changes of all properties nested inside
it: whenever the path of one change is a proper prefix of the path of another,
the other one appears earlier in the list; a change of the document root
(empty path) is the last element; and no path occurs twice. -/
theorem C19_change_order (impl : ℚ → Nat) (new old : Value) (oe : jsonObj) (n : Nat) :
    (∀ i j : Fin (buildNewEra impl new old oe n).2.length,
        ((buildNewEra impl new old oe n).2.get i).Path <+: ((buildNewEra impl new old oe n).2.get j).Path →
        ((buildNewEra impl new old oe n).2.get i).Path ≠ ((buildNewEra impl new old oe n).2.get j).Path →
        j < i) ∧
      (∀ c ∈ (buildNewEra impl new old oe n).2, c.Path = [] →
        (buildNewEra impl new old oe n).2.getLast? = some c) ∧
      ((buildNewEra impl new old oe n).2.map Change.Path).Nodup := by
  refine ⟨fun i j hpre hne => ?_, fun c hc hp => buildNewEra_root_last new old oe n c hc hp,
    buildNewEra_paths_nodup new old oe n⟩
  have hpw := List.pairwise_iff_get.1 (@buildNewEra_pairwise impl new old oe n)
  by_contra hlt
  rcases lt_or_eq_of_le (not_lt.1 hlt) with h | h
  · exact hpw i j h hpre
  · rw [h] at hne
    exact hne rfl

theorem C19_change_order_witness :
    (buildNewEra (fun _ => 0) (Value.obj []) (Value.obj [("a", .arr [.num (.float64 0)])]) [] 1).2.getLast? =
      some { Path := [], Era := 1, Mode := ChangeUpdate } :=
  (C19_change_order (fun _ => 0) (Value.obj []) (Value.obj [("a", .arr [.num (.float64 0)])]) [] 1).2.1
    { Path := [], Era := 1, Mode := ChangeUpdate } (by decide) rfl

/-! ## Era numbers and the counter -/

theorem erasWithin_obj_iff (lo hi : Nat) (o : jsonObj) :
    (Value.obj o).erasWithin lo hi = true ↔ ∀ kv ∈ o, kv.2.erasWithin lo hi = true := by
  simp only [Value.erasWithin]
  induction o with
  | nil => simp [Value.erasWithin.withinFields]
  | cons p rest ih =>
    obtain ⟨k, v⟩ := p
    simp only [Value.erasWithin.withinFields, Bool.and_eq_true, ih, List.mem_cons,
      forall_eq_or_imp]

theorem erasWithin_num_iff (lo hi : Nat) (x : ℚ) :
    (Value.num (.float64 x)).erasWithin lo hi = true ↔ (lo : ℚ) ≤ x ∧ x ≤ (hi : ℚ) := by
  simp [Value.erasWithin]

theorem mem_set {o : jsonObj} {k : String} {v : Value} {kv : String × Value}
    (h : kv ∈ jsonObj.set o k v) : kv = (k, v) ∨ kv ∈ o := by
  induction o with
  | nil =>
    simp only [jsonObj.set, List.mem_singleton] at h
    exact Or.inl h
  | cons p rest ih =>
    obtain ⟨k0, v0⟩ := p
    simp only [jsonObj.set] at h
    split at h
    · rcases List.mem_cons.1 h with h | h
      · exact Or.inl h
      · exact Or.inr (List.mem_cons_of_mem _ h)
    · rcases List.mem_cons.1 h with h | h
      · exact Or.inr (by rw [h]; exact List.mem_cons_self _ _)
      · rcases ih h with h | h
        · exact Or.inl h
        · exact Or.inr (List.mem_cons_of_mem _ h)

theorem oldEraOf_within {lo hi0 hi n : Nat} {oe : jsonObj} (name : String)
    (hn : lo ≤ n ∧ n ≤ hi) (hhi : hi0 ≤ hi)
    (hoe : (Value.obj oe).erasWithin lo hi0 = true) :
    (lo : ℚ) ≤ oldEraOf oe name n ∧ oldEraOf oe name n ≤ (hi : ℚ) := by
  have hdef : (lo : ℚ) ≤ (n : ℚ) ∧ (n : ℚ) ≤ (hi : ℚ) :=
    ⟨by exact_mod_cast hn.1, by exact_mod_cast hn.2⟩
  unfold oldEraOf
  cases hl : oe.lookup (eraPrefixProp ++ name) with
  | none => exact hdef
  | some v =>
    have hv := (erasWithin_obj_iff lo hi0 oe).1 hoe _ (mem_of_lookup hl)
    cases v with
    | num g =>
      cases g with
      | float64 x =>
        have hx := (erasWithin_num_iff lo hi0 x).1 hv
        exact ⟨hx.1, le_trans hx.2 (by exact_mod_cast hhi)⟩
      | int k i => exact hdef
      | float32 x => exact hdef
    | undefined => exact hdef
    | null => exact hdef
    | bool _ => exact hdef
    | str _ => exact hdef
    | arr _ => exact hdef
    | obj _ => exact hdef

theorem asJsonObj_within {lo hi : Nat} {oe : jsonObj} (key : String)
    (hoe : (Value.obj oe).erasWithin lo hi = true) :
    (Value.obj (asJsonObj (oe.lookup key))).erasWithin lo hi = true := by
  cases hl : oe.lookup key with
  | none => rfl
  | some v =>
    have hv := (erasWithin_obj_iff lo hi oe).1 hoe _ (mem_of_lookup hl)
    cases v with
    | obj o => exact hv
    | undefined => rfl
    | null => rfl
    | bool _ => rfl
    | num _ => rfl
    | str _ => rfl
    | arr _ => rfl

theorem foldl_visitProp_within {impl : ℚ → Nat} (f : Nat) (lo hi0 hi n : Nat) (hn : lo ≤ n ∧ n ≤ hi)
    (hhi : hi0 ≤ hi)
    (ih : ∀ (path : List String) (a b : Value) (oe : jsonObj),
      a.depth ≤ f → b.depth ≤ f → (Value.obj oe).erasWithin lo hi0 = true →
      (Value.obj (subEra impl f path a b oe n)).erasWithin lo hi = true)
    (path : List String) (a b : Value) (oe : jsonObj)
    (ha : a.depth ≤ f + 1) (hb : b.depth ≤ f + 1)
    (hoe : (Value.obj oe).erasWithin lo hi0 = true) (l : List String)
    (st : jsonObj × List Change × Bool)
    (hst : ∀ kv ∈ st.1, kv.2.erasWithin lo hi = true) :
    ∀ kv ∈ (l.foldl
        (fun st name =>
          visitProp impl (buildSubEra impl f) (path ++ [name]) (getProp a name) (getProp b name) oe n st)
        st).1, kv.2.erasWithin lo hi = true := by
  induction l generalizing st with
  | nil => exact hst
  | cons name rest ihl =>
    rw [List.foldl_cons]
    apply ihl
    rw [visitProp_era f path name _ _ oe n st (depth_getProp name ha) (depth_getProp name hb)]
    have hsub : ∀ kv ∈ (if getValType (getProp a name) ≠ valTypeBasic then
          jsonObj.set st.1 (eraPrefixObj ++ name)
            (.obj (subEra impl f (path ++ [name]) (getProp a name) (getProp b name)
              (asJsonObj (oe.lookup (eraPrefixObj ++ name))) n))
        else st.1), kv.2.erasWithin lo hi = true := by
      intro kv hkv
      split at hkv
      · rcases mem_set hkv with h | h
        · rw [h]
          exact ih _ _ _ _ (depth_getProp name ha) (depth_getProp name hb)
            (asJsonObj_within _ hoe)
        · exact hst kv h
      · exact hst kv hkv
    intro kv hkv
    split at hkv
    · rcases mem_set hkv with h | h
      · rw [h]
        apply (erasWithin_num_iff lo hi _).2
        unfold eraValOf
        split
        · exact ⟨by exact_mod_cast hn.1, by exact_mod_cast hn.2⟩
        · exact oldEraOf_within name hn hhi hoe
      · exact hsub kv h
    · exact hsub kv hkv

/-- When the era numbers of the old era node are between `lo` and `hi0` and
the new era counter is between `lo` and `hi`, with `hi0 ≤ hi`, every era number
of the node `buildSubEra` builds is between `lo` and `hi`. -/
theorem subEra_within {impl : ℚ → Nat}
    (lo hi0 hi n : Nat) (hn : lo ≤ n ∧ n ≤ hi) (hhi : hi0 ≤ hi) (f : Nat) :
    ∀ (path : List String) (a b : Value) (oe : jsonObj),
      a.depth ≤ f → b.depth ≤ f → (Value.obj oe).erasWithin lo hi0 = true →
      (Value.obj (subEra impl f path a b oe n)).erasWithin lo hi = true := by
  induction f with
  | zero => intro path a b oe _ _ _; rfl
  | succ f ih =>
    intro path a b oe ha hb hoe
    rw [erasWithin_obj_iff]
    unfold subEra
    rw [buildSubEra_succ]
    exact foldl_visitProp_within f lo hi0 hi n hn hhi ih path a b oe ha hb hoe _ _
      (fun kv h => by cases h)

theorem UpdateDoc_within {impl : ℚ → Nat} {e e1 : EraDocument} {d : Value} {ch : List Change}
    (hinv : ∃ o, e.Era = Value.obj o ∧ (Value.obj o).erasWithin 1 e.DocEra = true)
    (hlt : e.DocEra + 1 < 2 ^ 32) (h : UpdateDoc impl e d = some (e1, ch)) :
    ∃ o, e1.Era = Value.obj o ∧ (Value.obj o).erasWithin 1 e1.DocEra = true := by
  obtain ⟨o, hE, hw⟩ := hinv
  rw [UpdateDoc_eq e d o hE, Nat.mod_eq_of_lt hlt] at h
  split at h
  · simp only [Option.some.injEq, Prod.mk.injEq] at h
    obtain ⟨h1, _⟩ := h
    subst h1
    refine ⟨_, rfl, ?_⟩
    rw [buildNewEra_era]
    exact subEra_within 1 e.DocEra (e.DocEra + 1) (e.DocEra + 1) ⟨by omega, le_refl _⟩
      (by omega) _ _ _ _ o (le_max_left _ _) (le_max_right _ _) hw
  · simp only [Option.some.injEq, Prod.mk.injEq] at h
    obtain ⟨h1, _⟩ := h
    subst h1
    exact ⟨o, hE, hw⟩

theorem NewEraDocument_some {impl : ℚ → Nat}
    {doc : Value} {e : EraDocument} (h : NewEraDocument impl doc = some e) :
    ∃ ch, UpdateDoc impl { Doc := Undefined, Era := Value.obj [], DocEra := 0 } doc = some (e, ch) := by
  unfold NewEraDocument at h
  simp only [] at h
  cases hu : UpdateDoc impl { Doc := Undefined, Era := Value.obj [], DocEra := 0 } doc with
  | none => rw [hu] at h; cases h
  | some r =>
    rw [hu] at h
    simp only [Option.map_some', Option.some.injEq] at h
    obtain ⟨e', ch⟩ := r
    exact ⟨ch, by rw [← h]⟩

/-- Every reachable era document holds an era tree whose era numbers are
between `1` and `DocEra`. -/
theorem Reachable_within {impl : ℚ → Nat} {e : EraDocument} (h : Reachable impl e) :
    ∃ o, e.Era = Value.obj o ∧ (Value.obj o).erasWithin 1 e.DocEra = true := by
  induction h with
  | init doc e hnew =>
    obtain ⟨ch, hu⟩ := NewEraDocument_some hnew
    exact UpdateDoc_within ⟨[], rfl, rfl⟩ (by decide) hu
  | step e e1 doc ch _ hlt hu ih => exact UpdateDoc_within ih hlt hu

theorem eraEntry_subEra_of_basic {impl : ℚ → Nat}
    (f : Nat) (path : List String) (a b : Value) (oe : jsonObj)
    (n : Nat) (ha : a.depth ≤ f) (hb : b.depth ≤ f) (hbasic : getValType a = valTypeBasic)
    (q : List String) : eraEntry (subEra impl f path a b oe n) eraPrefixProp q = none := by
  cases q with
  | nil => rfl
  | cons name rest =>
    by_cases hr : rest = []
    · subst hr
      show (subEra impl f path a b oe n).lookup (eraPrefixProp ++ name) = none
      rw [subEra_lookup_prop f path a b oe n ha hb, if_neg (not_not.2 (getProp_of_basic hbasic name))]
    · rw [eraEntry_cons_of_ne_nil _ eraPrefixProp name hr,
        subEra_lookup_obj f path a b oe n ha hb, getProp_of_basic hbasic name]
      exact eraEntry_nil _ _

theorem finalMode_ne_equal_of_schemaChanged {x y : Value} (h : schemaChanged x y = true) :
    finalMode x y ≠ ChangeEqual := by
  unfold finalMode
  split
  · decide
  · rename_i hn
    intro hc
    exact hn ⟨h, hc⟩

/-- When `buildSubEra` reports a change below a container, the node it builds
holds the new era counter somewhere, or a property of the container itself was
added or removed. -/
theorem subEra_has_new {impl : ℚ → Nat} (f : Nat) :
    ∀ (path : List String) (a b : Value) (oe : jsonObj) (n : Nat),
      a.depth ≤ f → b.depth ≤ f → subChanges impl f path a b oe n ≠ [] →
      (∃ q, q ≠ [] ∧
          eraEntry (subEra impl f path a b oe n) eraPrefixProp q = some (.num (.float64 (n : ℚ)))) ∨
        schemaChanged a b = true := by
  induction f with
  | zero => intro path a b oe n _ _ h; exact absurd rfl h
  | succ f ih =>
    intro path a b oe n ha hb hne
    rw [subChanges_succ f path a b oe n ha hb, ne_eq, List.flatMap_eq_nil_iff] at hne
    push_neg at hne
    obtain ⟨name, hname, hchunk⟩ := hne
    have hA : finalMode (getProp a name) (getProp b name) ≠ ChangeEqual →
        (∃ q, q ≠ [] ∧ eraEntry (subEra impl (f + 1) path a b oe n) eraPrefixProp q =
            some (.num (.float64 (n : ℚ)))) ∨ schemaChanged a b = true := by
      intro hfm
      by_cases hx : getProp a name = Undefined
      · right
        unfold schemaChanged
        rw [List.any_eq_true]
        exact ⟨name, hname, by simp [hx]⟩
      · left
        refine ⟨[name], by simp, ?_⟩
        show (subEra impl (f + 1) path a b oe n).lookup (eraPrefixProp ++ name) = _
        rw [subEra_lookup_prop (f + 1) path a b oe n ha hb, if_pos hx]
        unfold eraValOf
        rw [if_pos hfm]
    by_cases hsub : subChanges impl f (path ++ [name]) (getProp a name) (getProp b name)
        (asJsonObj (oe.lookup (eraPrefixObj ++ name))) n = []
    · apply hA
      rw [hsub, List.nil_append] at hchunk
      unfold changeOf at hchunk
      by_contra hfm
      rw [if_neg (not_not.2 hfm)] at hchunk
      exact hchunk rfl
    · rcases ih _ _ _ _ n (depth_getProp name ha) (depth_getProp name hb) hsub with
        ⟨q, hq, hentry⟩ | hsc
      · by_cases hbasic : getValType (getProp a name) = valTypeBasic
        · rw [eraEntry_subEra_of_basic f _ _ _ _ n (depth_getProp name ha)
            (depth_getProp name hb) hbasic q] at hentry
          cases hentry
        · left
          refine ⟨name :: q, by simp, ?_⟩
          rw [eraEntry_cons_of_ne_nil _ eraPrefixProp name hq,
            subEra_lookup_obj (f + 1) path a b oe n ha hb, if_pos hbasic]
          exact hentry
      · exact hA (finalMode_ne_equal_of_schemaChanged hsc)

/-- When `buildNewEra` reports a change for a new document that exists, the
returned era tree holds the new era counter somewhere. -/
theorem buildNewEra_has_new {impl : ℚ → Nat} (new old : Value) (oe : jsonObj) (n : Nat)
    (hnew : new ≠ Undefined) (hne : (buildNewEra impl new old oe n).2 ≠ []) :
    ∃ q, eraEntry (buildNewEra impl new old oe n).1 eraPrefixProp q =
      some (.num (.float64 (n : ℚ))) := by
  by_cases hfm : finalMode new old = ChangeEqual
  · rw [buildNewEra_changes] at hne
    have hsub : subChanges impl (max new.depth old.depth) [""] new old
        (asJsonObj (oe.lookup "_")) n ≠ [] := by
      intro h
      apply hne
      rw [h, List.nil_append]
      unfold changeOf
      rw [if_neg (not_not.2 hfm)]
    rcases subEra_has_new _ [""] new old _ n (le_max_left _ _) (le_max_right _ _) hsub with
      ⟨q, hq, hentry⟩ | hsc
    · by_cases hbasic : getValType new = valTypeBasic
      · rw [eraEntry_subEra_of_basic _ _ _ _ _ n (le_max_left _ _) (le_max_right _ _)
          hbasic q] at hentry
        cases hentry
      · refine ⟨"" :: q, ?_⟩
        have hmax : max (Value.obj [("", new)]).depth (Value.obj [("", old)]).depth =
            max new.depth old.depth + 1 := by
          rw [depth_wrap, depth_wrap]; omega
        rw [buildNewEra_era, hmax, eraEntry_cons_of_ne_nil _ eraPrefixProp "" hq,
          subEra_lookup_obj _ [] _ _ oe n (by rw [depth_wrap]; omega)
            (by rw [depth_wrap]; omega), getProp_wrap, getProp_wrap, if_pos hbasic]
        exact hentry
    · exact absurd hfm (finalMode_ne_equal_of_schemaChanged hsc)
  · refine ⟨[""], ?_⟩
    have h := @eraEntry_buildNewEra impl new old oe n [] hnew
    simp only [getPath] at h
    rw [h, if_pos hfm]

/-! ## Claim C20 -/

/-- C20: era numbers stay within the counter. For every era document obtained
from `NewEraDocument` followed by any finite sequence of `UpdateDoc` calls
(each made while `DocEra` is below `2^32 - 1`), every era number stored
anywhere in its era tree is at least `1` and at most the current `DocEra`; and
after every call, of `UpdateDoc` or of `NewEraDocument`, that found at least
one change for a document, some entry of the era tree equals the current
`DocEra`. -/
theorem C20_era_numbers_within_counter (impl : ℚ → Nat) :
    (∀ e : EraDocument, Reachable impl e →
        ∃ o, e.Era = Value.obj o ∧ (Value.obj o).erasWithin 1 e.DocEra = true) ∧
      (∀ (e e1 : EraDocument) (doc : Value) (ch : List Change),
        Reachable impl e → e.DocEra + 1 < 2 ^ 32 → doc ≠ Undefined →
        UpdateDoc impl e doc = some (e1, ch) → ch ≠ [] →
        ∃ o q, e1.Era = Value.obj o ∧
          eraEntry o eraPrefixProp q = some (.num (.float64 (e1.DocEra : ℚ)))) ∧
      (∀ (doc : Value) (e : EraDocument), doc ≠ Undefined → NewEraDocument impl doc = some e →
        ∃ o q, e.Era = Value.obj o ∧
          eraEntry o eraPrefixProp q = some (.num (.float64 (e.DocEra : ℚ)))) := by
  have key : ∀ (e e1 : EraDocument) (doc : Value) (ch : List Change) (o : jsonObj),
      e.Era = Value.obj o → e.DocEra + 1 < 2 ^ 32 → doc ≠ Undefined →
      UpdateDoc impl e doc = some (e1, ch) → ch ≠ [] →
      ∃ o q, e1.Era = Value.obj o ∧
        eraEntry o eraPrefixProp q = some (.num (.float64 (e1.DocEra : ℚ))) := by
    intro e e1 doc ch o hE hlt hdoc hu hch
    rw [UpdateDoc_eq e doc o hE, Nat.mod_eq_of_lt hlt] at hu
    split at hu
    · rename_i hne
      simp only [Option.some.injEq, Prod.mk.injEq] at hu
      obtain ⟨h1, _⟩ := hu
      subst h1
      obtain ⟨q, hq⟩ := buildNewEra_has_new doc e.Doc o (e.DocEra + 1) hdoc hne
      exact ⟨_, q, rfl, hq⟩
    · simp only [Option.some.injEq, Prod.mk.injEq] at hu
      exact absurd hu.2.symm hch
  refine ⟨fun e h => Reachable_within h, ?_, ?_⟩
  · intro e e1 doc ch hr hlt hdoc hu hch
    obtain ⟨o, hE, _⟩ := Reachable_within hr
    exact key e e1 doc ch o hE hlt hdoc hu hch
  · intro doc e hdoc hnew
    obtain ⟨ch, hu⟩ := NewEraDocument_some hnew
    have hch : ch ≠ [] := by
      rw [UpdateDoc_eq _ doc [] rfl,
        if_pos (buildNewEra_undefined_ne_nil doc [] ((0 + 1) % 2 ^ 32) hdoc)] at hu
      simp only [Option.some.injEq, Prod.mk.injEq] at hu
      rw [← hu.2]
      exact buildNewEra_undefined_ne_nil doc [] ((0 + 1) % 2 ^ 32) hdoc
    exact key _ e doc ch [] rfl (by decide) hdoc hu hch

theorem C20_era_numbers_within_counter_witness :
    ∃ o, ({ Doc := Value.obj [("a", .num (.float64 1))]
            Era := Value.obj [("_", .obj [(".a", .num (.float64 ((1 : Nat) : ℚ)))]),
              (".", .num (.float64 ((1 : Nat) : ℚ)))]
            DocEra := 1 } : EraDocument).Era = Value.obj o ∧
      (Value.obj o).erasWithin 1
        ({ Doc := Value.obj [("a", .num (.float64 1))]
           Era := Value.obj [("_", .obj [(".a", .num (.float64 ((1 : Nat) : ℚ)))]),
             (".", .num (.float64 ((1 : Nat) : ℚ)))]
           DocEra := 1 } : EraDocument).DocEra = true :=
  (C20_era_numbers_within_counter (fun _ => 0)).1 _
    (Reachable.init (Value.obj [("a", .num (.float64 1))]) _ rfl)

/-! ## Package jsonp: the replacers -/

/-- The replacement of one character by `encoder`. -/
theorem replacerReplace_encoder_cons (c : Char) (cs : List Char) :
    replacerReplace encoder 0 (c :: cs) =
      (if c = '~' then ['~', '0'] else if c = '/' then ['~', '1'] else [c]) ++
        replacerReplace encoder 0 cs := by
  by_cases h1 : c = '~'
  · subst h1
    simp [replacerReplace, encoder, List.isPrefixOf, List.find?]
  · by_cases h2 : c = '/'
    · subst h2
      simp [replacerReplace, encoder, List.isPrefixOf, List.find?]
    · have e1 : ('~' == c) = false := beq_eq_false_iff_ne.2 (fun h => h1 h.symm)
      have e2 : ('/' == c) = false := beq_eq_false_iff_ne.2 (fun h => h2 h.symm)
      simp [replacerReplace, encoder, List.isPrefixOf, List.find?, h1, h2, e1, e2]

/-- The function `encoder.Replace` escapes character by character. -/
theorem replacerReplace_encoder (cs : List Char) :
    replacerReplace encoder 0 cs =
      cs.flatMap (fun c =>
        if c = '~' then ['~', '0'] else if c = '/' then ['~', '1'] else [c]) := by
  induction cs with
  | nil => simp [replacerReplace]
  | cons c cs ih => rw [replacerReplace_encoder_cons, ih, List.flatMap_cons]

theorem replacerReplace_decoder_tilde0 (cs : List Char) :
    replacerReplace decoder 0 ('~' :: '0' :: cs) = '~' :: replacerReplace decoder 0 cs := by
  simp [replacerReplace, decoder, List.isPrefixOf, List.find?]

theorem replacerReplace_decoder_tilde1 (cs : List Char) :
    replacerReplace decoder 0 ('~' :: '1' :: cs) = '/' :: replacerReplace decoder 0 cs := by
  simp [replacerReplace, decoder, List.isPrefixOf, List.find?]

theorem replacerReplace_decoder_other (c : Char) (cs : List Char) (h : c ≠ '~') :
    replacerReplace decoder 0 (c :: cs) = c :: replacerReplace decoder 0 cs := by
  have e1 : ('~' == c) = false := beq_eq_false_iff_ne.2 (fun h1 => h h1.symm)
  simp [replacerReplace, decoder, List.isPrefixOf, List.find?, h, e1]

/-- Decoding an encoded segment gives the segment back. -/
theorem replacerReplace_decoder_encoder (cs : List Char) :
    replacerReplace decoder 0 (replacerReplace encoder 0 cs) = cs := by
  induction cs with
  | nil => simp [replacerReplace]
  | cons c cs ih =>
    rw [replacerReplace_encoder_cons]
    by_cases h1 : c = '~'
    · subst h1
      simp only [if_true, List.cons_append, List.nil_append]
      rw [replacerReplace_decoder_tilde0, ih]
    · by_cases h2 : c = '/'
      · subst h2
        simp only [if_neg h1, if_true, List.cons_append, List.nil_append]
        rw [replacerReplace_decoder_tilde1, ih]
      · simp only [if_neg h1, if_neg h2, List.cons_append, List.nil_append]
        rw [replacerReplace_decoder_other c _ h1, ih]

/-- An encoded segment holds no `/`. -/
theorem slash_not_mem_encoder (cs : List Char) : '/' ∉ replacerReplace encoder 0 cs := by
  rw [replacerReplace_encoder]
  intro h
  rcases List.mem_flatMap.1 h with ⟨c, _, hc⟩
  by_cases h1 : c = '~'
  · simp [h1] at hc
  · by_cases h2 : c = '/'
    · simp [h2] at hc
    · simp only [if_neg h1, if_neg h2, List.mem_singleton] at hc
      exact h2 hc.symm

/-! ## Package jsonp: `strings.Split` -/

theorem stringsSplit_ne_nil (sep : Char) (cs : List Char) : stringsSplit sep cs ≠ [] := by
  cases cs with
  | nil => simp [stringsSplit]
  | cons c cs =>
    unfold stringsSplit
    split
    · simp
    · split <;> simp

theorem stringsSplit_cons_sep (sep : Char) (cs : List Char) :
    stringsSplit sep (sep :: cs) = [] :: stringsSplit sep cs := by
  simp [stringsSplit]

theorem stringsSplit_cons_other (sep c : Char) (cs seg : List Char) (rest : List (List Char))
    (hc : c ≠ sep) (h : stringsSplit sep cs = seg :: rest) :
    stringsSplit sep (c :: cs) = (c :: seg) :: rest := by
  rw [stringsSplit, if_neg hc, h]

/-- A text without the separator is one part. -/
theorem stringsSplit_no_sep (sep : Char) (xs : List Char) (h : sep ∉ xs) :
    stringsSplit sep xs = [xs] := by
  induction xs with
  | nil => simp [stringsSplit]
  | cons x xs ih =>
    have hx : x ≠ sep := fun e => h (by simp [e])
    have hxs : sep ∉ xs := fun e => h (List.mem_cons_of_mem _ e)
    exact stringsSplit_cons_other sep x xs xs [] hx (ih hxs)

/-- The first part ends at the first separator. -/
theorem stringsSplit_append (sep : Char) (xs ys : List Char) (h : sep ∉ xs) :
    stringsSplit sep (xs ++ sep :: ys) = xs :: stringsSplit sep ys := by
  induction xs with
  | nil => simp [stringsSplit]
  | cons x xs ih =>
    have hx : x ≠ sep := fun e => h (by simp [e])
    have hxs : sep ∉ xs := fun e => h (List.mem_cons_of_mem _ e)
    exact stringsSplit_cons_other sep x _ xs _ hx (ih hxs)

/-- The number of parts is the number of separators plus one. -/
theorem stringsSplit_length (sep : Char) (cs : List Char) :
    (stringsSplit sep cs).length = cs.count sep + 1 := by
  induction cs with
  | nil => simp [stringsSplit]
  | cons c cs ih =>
    by_cases hc : c = sep
    · subst hc
      rw [stringsSplit_cons_sep, List.length_cons, ih, List.count_cons_self]
    · cases hs : stringsSplit sep cs with
      | nil => exact absurd hs (stringsSplit_ne_nil sep cs)
      | cons seg rest =>
        rw [stringsSplit_cons_other sep c cs seg rest hc hs, List.count_cons_of_ne (Ne.symm hc), ← ih, hs]
        simp

/-! ## Package jsonp: `Parse` and `Format` -/

theorem Parse_of_nil (pointer : String) (h : pointer.data = []) : Parse pointer = .ok [] := by
  unfold Parse
  rw [h]

theorem Parse_of_cons (pointer : String) (c : Char) (rest : List Char)
    (h : pointer.data = c :: rest) :
    Parse pointer =
      if c ≠ '/' then .error ParseError.ErrMissingTokenPrefix
      else .ok ((stringsSplit '/' rest).map
        (fun p => String.mk (replacerReplace decoder 0 p))) := by
  unfold Parse
  rw [h]

theorem Format_foldl_data (pointer : List String) (acc : String) :
    (pointer.foldl
      (fun s part => (s.push '/') ++ String.mk (replacerReplace encoder 0 part.data)) acc).data =
      acc.data ++ pointer.flatMap (fun s => '/' :: replacerReplace encoder 0 s.data) := by
  induction pointer generalizing acc with
  | nil => simp
  | cons s rest ih =>
    rw [List.foldl_cons, ih, String.data_append, String.data_push, List.flatMap_cons]
    simp

/-- The characters of `Format pointer`. -/
theorem Format_data (pointer : List String) :
    (Format pointer).data =
      pointer.flatMap (fun s => '/' :: replacerReplace encoder 0 s.data) := by
  unfold Format
  rw [Format_foldl_data]
  rfl

theorem stringsSplit_Format (s : String) (rest : List String) :
    stringsSplit '/' (replacerReplace encoder 0 s.data ++
        rest.flatMap (fun s => '/' :: replacerReplace encoder 0 s.data)) =
      replacerReplace encoder 0 s.data ::
        rest.map (fun s => replacerReplace encoder 0 s.data) := by
  induction rest generalizing s with
  | nil =>
    simp only [List.flatMap_nil, List.append_nil, List.map_nil]
    exact stringsSplit_no_sep _ _ (slash_not_mem_encoder _)
  | cons t rest ih =>
    rw [List.flatMap_cons, List.cons_append,
      stringsSplit_append _ _ _ (slash_not_mem_encoder _), ih t, List.map_cons]

theorem Parse_Format (p : List String) : Parse (Format p) = .ok p := by
  cases p with
  | nil => exact Parse_of_nil _ (by rw [Format_data]; rfl)
  | cons s rest =>
    have hd : (Format (s :: rest)).data =
        '/' :: (replacerReplace encoder 0 s.data ++
          rest.flatMap (fun s => '/' :: replacerReplace encoder 0 s.data)) := by
      rw [Format_data, List.flatMap_cons, List.cons_append]
    rw [Parse_of_cons _ _ _ hd, if_neg (by simp), stringsSplit_Format]
    congr 1
    rw [← List.map_cons (fun s : String => replacerReplace encoder 0 s.data) s rest,
      List.map_map]
    conv_rhs => rw [← List.map_id (s :: rest)]
    apply List.map_congr_left
    intro x _
    simp [replacerReplace_decoder_encoder]

theorem Format_count_slash (p : List String) : (Format p).data.count '/' = p.length := by
  rw [Format_data]
  induction p with
  | nil => simp
  | cons s rest ih =>
    rw [List.flatMap_cons, List.cons_append, List.count_cons_self, List.count_append, ih,
      List.count_eq_zero.2 (slash_not_mem_encoder _)]
    simp

theorem FormatSpec_data (p : List String) :
    (FormatSpec p).data =
      p.flatMap (fun s => '/' :: s.data.flatMap (fun c =>
        if c = '~' then ['~', '0'] else if c = '/' then ['~', '1'] else [c])) := by
  have hf : ∀ seg : String, ("/" ++ escapeSegmentSpec seg).data =
      '/' :: seg.data.flatMap (fun c =>
        if c = '~' then ['~', '0'] else if c = '/' then ['~', '1'] else [c]) := by
    intro seg
    rw [String.data_append]
    rfl
  unfold FormatSpec
  rw [String.data_join]
  induction p with
  | nil => simp
  | cons s rest ih =>
    rw [List.map_cons, List.map_cons, List.flatten_cons, List.flatMap_cons, ih, hf]

theorem Format_eq_FormatSpec (p : List String) : Format p = FormatSpec p := by
  apply String.ext
  rw [Format_data, FormatSpec_data]
  simp only [replacerReplace_encoder]

/-! ## Package jsonp: the contracts -/

/-- C14: JSON Pointer round trip. For every sequence of segments `p`, the
empty sequence, empty-string segments and segments holding `~` and `/` (also
adjacent, such as `~1` or `~0`) included, `Parse (Format p)` succeeds with no
error and returns exactly `p`. -/
theorem C14_Parse_Format_round_trip (p : List String) :
    Parse (Format p) = Except.ok p ∧
      Parse (Format []) = Except.ok [] ∧
      Parse (Format ["", "~1", "~0", "a/b~", "/"]) = Except.ok ["", "~1", "~0", "a/b~", "/"] :=
  ⟨Parse_Format p, Parse_Format [], Parse_Format _⟩

/-- C15: the error of `Parse`. `Parse` fails with `ErrMissingTokenPrefix` if and
only if the pointer is non-empty and its first character is not `/`; for the
empty string it returns the empty segment list, and for every string that
starts with `/` it returns a non-empty segment list without error, with one
segment per `/` of the string. -/
theorem C15_Parse_error_iff (pointer : String) :
    (Parse pointer = Except.error ParseError.ErrMissingTokenPrefix ↔
      pointer ≠ "" ∧ pointer.data.head? ≠ some '/') ∧
    Parse "" = Except.ok [] ∧
    (pointer.data.head? = some '/' →
      ∃ segs, Parse pointer = Except.ok segs ∧ segs ≠ [] ∧
        segs.length = pointer.data.count '/') := by
  refine ⟨?_, rfl, ?_⟩
  · cases hd : pointer.data with
    | nil =>
      have he : pointer = "" := String.ext hd
      rw [Parse_of_nil _ hd]
      constructor
      · intro h
        cases h
      · intro h
        exact absurd he h.1
    | cons c rest =>
      have hne : pointer ≠ "" := by
        intro he
        rw [he] at hd
        cases hd
      rw [Parse_of_cons _ _ _ hd]
      by_cases hc : c = '/'
      · subst hc
        rw [if_neg (not_not.2 rfl)]
        constructor
        · intro h
          cases h
        · intro h
          exact absurd rfl h.2
      · rw [if_pos hc]
        refine ⟨fun _ => ⟨hne, ?_⟩, fun _ => rfl⟩
        intro h
        simp only [List.head?_cons, Option.some.injEq] at h
        exact hc h
  · intro h
    cases hd : pointer.data with
    | nil =>
      rw [hd] at h
      cases h
    | cons c rest =>
      rw [hd] at h
      simp only [List.head?_cons, Option.some.injEq] at h
      subst h
      rw [Parse_of_cons _ _ _ hd, if_neg (not_not.2 rfl)]
      refine ⟨_, rfl, ?_, ?_⟩
      · intro he
        exact stringsSplit_ne_nil '/' rest (List.map_eq_nil_iff.1 he)
      · rw [List.length_map, stringsSplit_length, List.count_cons_self]

theorem C15_Parse_error_iff_witness :
    ∃ segs, Parse "/a//b" = Except.ok segs ∧ segs ≠ [] ∧
      segs.length = "/a//b".data.count '/' :=
  (C15_Parse_error_iff "/a//b").2.2 rfl

/-- C16: `Format` follows RFC 6901. For every segment sequence `p`, `Format p`
is the concatenation, in order, of `/` followed by the escaped segment, where
escaping replaces every `~` by `~0` and every `/` by `~1`, character by
character (the segment `~1` becomes `~01`); `Format` of the empty sequence is
the empty string, and the number of `/` in `Format p` is the number of
segments. -/
theorem C16_Format_rfc6901 (p : List String) :
    Format p = FormatSpec p ∧
      Format [] = "" ∧
      Format ["~1"] = "/~01" ∧
      (Format p).data.count '/' = p.length :=
  ⟨Format_eq_FormatSpec p, rfl, by decide, Format_count_slash p⟩

/-! ## Rounding to double precision -/

theorem excessBits_spec (fuel : Nat) :
    ∀ n : Nat, n < 2 ^ (53 + fuel) →
      n / 2 ^ excessBits fuel n < 2 ^ 53 ∧
        (0 < excessBits fuel n → 2 ^ 53 ≤ n / 2 ^ (excessBits fuel n - 1)) := by
  induction fuel with
  | zero =>
    intro n hn
    simp only [excessBits, pow_zero, Nat.div_one]
    exact ⟨hn, fun h => absurd h (lt_irrefl 0)⟩
  | succ fuel ih =>
    intro n hn
    by_cases hlt : n < 2 ^ 53
    · simp only [excessBits, if_pos hlt, pow_zero, Nat.div_one]
      exact ⟨hlt, fun h => absurd h (lt_irrefl 0)⟩
    · have h2 : n / 2 < 2 ^ (53 + fuel) := by
        have e : 2 ^ (53 + (fuel + 1)) = 2 * 2 ^ (53 + fuel) := by
          rw [← Nat.add_assoc, pow_succ]
          ring
        rw [e] at hn
        omega
      obtain ⟨ih1, ih2⟩ := ih (n / 2) h2
      have hs : excessBits (fuel + 1) n = 1 + excessBits fuel (n / 2) := by
        simp only [excessBits, if_neg hlt]
      rw [hs]
      constructor
      · rw [pow_add, pow_one, ← Nat.div_div_eq_div_mul]
        exact ih1
      · intro _
        rw [Nat.add_sub_cancel_left]
        by_cases h0 : excessBits fuel (n / 2) = 0
        · rw [h0, pow_zero, Nat.div_one]
          exact not_lt.1 hlt
        · have hpos : 0 < excessBits fuel (n / 2) := Nat.pos_of_ne_zero h0
          have e : 2 ^ excessBits fuel (n / 2) = 2 * 2 ^ (excessBits fuel (n / 2) - 1) := by
            rw [← pow_succ']
            congr 1
            omega
          rw [e, ← Nat.div_div_eq_div_mul]
          exact ih2 hpos

theorem hasSignificandSpec_natCast_mul (p m s : Nat) (hm : m < 2 ^ p) :
    HasSignificandSpec p ((m : ℚ) * 2 ^ s) :=
  ⟨m, s, 0, hm, by rw [abs_of_nonneg (by positivity)]; simp⟩

theorem hasSignificandSpec_two_pow (p t : Nat) (hp : 0 < p) :
    HasSignificandSpec p ((2 : ℚ) ^ t) :=
  ⟨1, t, 0, Nat.one_lt_two_pow (by omega), by rw [abs_of_nonneg (by positivity)]; simp⟩

theorem hasSignificandSpec_neg (p : Nat) (q : ℚ) :
    HasSignificandSpec p (-q) ↔ HasSignificandSpec p q := by
  unfold HasSignificandSpec
  rw [abs_neg]

/-- Between `q * 2 ^ s` and `(q + 1) * 2 ^ s`, for a `q` of 53 bits, there is no
double. -/
theorem significand_gap (q s : Nat) (hq : 2 ^ 52 ≤ q) (d : ℚ) (hd : HasSignificandSpec 53 d) :
    d ≤ (q : ℚ) * 2 ^ s ∨ ((q : ℚ) + 1) * 2 ^ s ≤ d := by
  by_contra hcon
  push_neg at hcon
  obtain ⟨h1, h2⟩ := hcon
  obtain ⟨m, e, f, hm, habs⟩ := hd
  have hpos : 0 < d := lt_of_le_of_lt (by positivity) h1
  rw [abs_of_pos hpos] at habs
  have hf : (0 : ℚ) < 2 ^ f := by positivity
  have hs : (0 : ℚ) < 2 ^ s := by positivity
  have hmul : d * 2 ^ f = (m : ℚ) * 2 ^ e := by
    rw [habs]
    field_simp
  have he : s + f ≤ e := by
    by_contra hlt
    have hlt2 : 53 + e ≤ 52 + s + f := by omega
    have a1 : (m : ℚ) * 2 ^ e < 2 ^ 53 * 2 ^ e := by
      have hm' : (m : ℚ) < 2 ^ 53 := by exact_mod_cast hm
      exact mul_lt_mul_of_pos_right hm' (by positivity)
    have a2 : (2 : ℚ) ^ 53 * 2 ^ e ≤ 2 ^ 52 * 2 ^ s * 2 ^ f := by
      rw [← pow_add, ← pow_add, ← pow_add]
      exact pow_le_pow_right₀ (by norm_num) hlt2
    have a3 : (2 : ℚ) ^ 52 * 2 ^ s * 2 ^ f ≤ (q : ℚ) * 2 ^ s * 2 ^ f := by
      have hq' : (2 : ℚ) ^ 52 ≤ (q : ℚ) := by exact_mod_cast hq
      exact mul_le_mul_of_nonneg_right (mul_le_mul_of_nonneg_right hq' hs.le) hf.le
    have a4 : (q : ℚ) * 2 ^ s * 2 ^ f < d * 2 ^ f := mul_lt_mul_of_pos_right h1 hf
    linarith
  obtain ⟨t, rfl⟩ := Nat.exists_eq_add_of_le he
  have hd : d = ((m * 2 ^ t : Nat) : ℚ) * 2 ^ s := by
    have e1 : d * 2 ^ f = ((m * 2 ^ t : Nat) : ℚ) * 2 ^ s * 2 ^ f := by
      rw [hmul]
      push_cast
      ring
    exact mul_right_cancel₀ (ne_of_gt hf) e1
  rw [hd] at h1 h2
  have h1' : (q : ℚ) < ((m * 2 ^ t : Nat) : ℚ) := lt_of_mul_lt_mul_right h1 hs.le
  have h2' : ((m * 2 ^ t : Nat) : ℚ) < (q : ℚ) + 1 := lt_of_mul_lt_mul_right h2 hs.le
  have h1'' : q < m * 2 ^ t := by exact_mod_cast h1'
  have h2'' : m * 2 ^ t < q + 1 := by exact_mod_cast h2'
  omega

/-- An odd significand of 53 bits does not fit 52 bits. -/
theorem not_hasSignificandSpec_odd (o s : Nat) (hodd : o % 2 = 1) (ho : 2 ^ 52 ≤ o) :
    ¬ HasSignificandSpec 52 ((o : ℚ) * 2 ^ s) := by
  rintro ⟨m, e, f, hm, habs⟩
  rw [abs_of_nonneg (by positivity)] at habs
  have hf : (0 : ℚ) < 2 ^ f := by positivity
  have hnat : o * 2 ^ (s + f) = m * 2 ^ e := by
    have e1 : ((o * 2 ^ (s + f) : Nat) : ℚ) = ((m * 2 ^ e : Nat) : ℚ) := by
      push_cast
      rw [pow_add, ← mul_assoc, habs]
      field_simp
    exact_mod_cast e1
  have hcop : Nat.Coprime o (2 ^ e) :=
    Nat.Coprime.pow_right e (Nat.Coprime.symm (Nat.coprime_two_left.2 (Nat.odd_iff.2 hodd)))
  have hdvd : o ∣ m := hcop.dvd_of_dvd_mul_right ⟨2 ^ (s + f), hnat.symm⟩
  have hm0 : m ≠ 0 := by
    intro h0
    rw [h0, zero_mul] at hnat
    have h2 : 0 < 2 ^ (s + f) := Nat.two_pow_pos _
    have h3 : 0 < o := lt_of_lt_of_le (Nat.two_pow_pos 52) ho
    have h4 := Nat.mul_pos h3 h2
    omega
  have hle := Nat.le_of_dvd (Nat.pos_of_ne_zero hm0) hdvd
  omega

/-- The rounding of `n = q * 2 ^ s + r` to the nearer of `q * 2 ^ s` and
`(q + 1) * 2 ^ s`, to the even one on a tie, gives the double-precision value
of `n`, and nothing else is that value. -/
theorem isDoubleOfSpec_round (n q r s q' : Nat) (hn : n = q * 2 ^ s + r) (hr : r < 2 ^ s)
    (hq : 2 ^ 52 ≤ q) (hq53 : q < 2 ^ 53)
    (hq' : (q' = q ∧ 2 * r ≤ 2 ^ s ∧ (2 * r = 2 ^ s → q % 2 = 0)) ∨
      (q' = q + 1 ∧ 2 ^ s ≤ 2 * r ∧ (2 * r = 2 ^ s → q % 2 = 1))) (d : ℚ) :
    IsDoubleOfSpec (n : ℚ) d ↔ d = ((q' * 2 ^ s : Nat) : ℚ) := by
  have hnQ : (n : ℚ) = (q : ℚ) * 2 ^ s + (r : ℚ) := by
    rw [hn]
    push_cast
    ring
  have hr0 : (0 : ℚ) ≤ (r : ℚ) := Nat.cast_nonneg r
  have hrQ : (r : ℚ) < 2 ^ s := by exact_mod_cast hr
  have hR53 : HasSignificandSpec 53 ((q' * 2 ^ s : Nat) : ℚ) := by
    push_cast
    by_cases hlt : q' < 2 ^ 53
    · exact hasSignificandSpec_natCast_mul 53 q' s hlt
    · have he : q' = 2 ^ 53 := by
        rcases hq' with ⟨h, _⟩ | ⟨h, _⟩ <;> omega
      rw [he]
      push_cast
      have e5 : (9007199254740992 : ℚ) * 2 ^ s = 2 ^ (53 + s) := by
        rw [pow_add]
        norm_num
      rw [e5]
      exact hasSignificandSpec_two_pow 53 _ (by norm_num)
  have key : ∀ d', HasSignificandSpec 53 d' →
      |((q' * 2 ^ s : Nat) : ℚ) - (n : ℚ)| ≤ |d' - (n : ℚ)| ∧
        (|((q' * 2 ^ s : Nat) : ℚ) - (n : ℚ)| = |d' - (n : ℚ)| →
          d' ≠ ((q' * 2 ^ s : Nat) : ℚ) →
          HasSignificandSpec 52 ((q' * 2 ^ s : Nat) : ℚ) ∧ ¬ HasSignificandSpec 52 d') := by
    intro d' hd'
    rcases hq' with ⟨hq'e, h2r, hpar⟩ | ⟨hq'e, h2r, hpar⟩
    · -- rounded down
      subst hq'e
      have h2rQ : 2 * (r : ℚ) ≤ 2 ^ s := by exact_mod_cast h2r
      have hR : |((q' * 2 ^ s : Nat) : ℚ) - (n : ℚ)| = (r : ℚ) := by
        rw [hnQ]
        push_cast
        rw [abs_of_nonpos (by linarith)]
        ring
      rw [hR]
      rcases significand_gap q' s hq d' hd' with hle | hge
      · have hd : |d' - (n : ℚ)| = (n : ℚ) - d' := by
          rw [abs_of_nonpos (by rw [hnQ]; linarith)]
          ring
        rw [hd]
        refine ⟨by rw [hnQ]; linarith, fun ht hne => ?_⟩
        exfalso
        apply hne
        push_cast
        rw [hnQ] at ht
        linarith
      · have hd : |d' - (n : ℚ)| = d' - (n : ℚ) := by
          rw [abs_of_nonneg (by rw [hnQ]; linarith)]
        rw [hd]
        refine ⟨by rw [hnQ]; linarith, fun ht _ => ?_⟩
        rw [hnQ] at ht
        have h2e : 2 * (r : ℚ) = 2 ^ s := by linarith
        have h2n : 2 * r = 2 ^ s := by exact_mod_cast h2e
        have hev := hpar h2n
        have hd'e : d' = ((q' + 1 : Nat) : ℚ) * 2 ^ s := by
          push_cast
          linarith
        constructor
        · have e1 : ((q' * 2 ^ s : Nat) : ℚ) = ((q' / 2 : Nat) : ℚ) * 2 ^ (s + 1) := by
            have e2 : q' * 2 ^ s = q' / 2 * 2 ^ (s + 1) := by
              rw [pow_succ]
              have e3 : q' = 2 * (q' / 2) := by omega
              nlinarith
            rw [e2]
            push_cast
            ring
          rw [e1]
          exact hasSignificandSpec_natCast_mul 52 _ _ (by omega)
        · rw [hd'e]
          exact not_hasSignificandSpec_odd (q' + 1) s (by omega) (by omega)
    · -- rounded up
      subst hq'e
      have h2rQ : (2 : ℚ) ^ s ≤ 2 * (r : ℚ) := by exact_mod_cast h2r
      have hR : |(((q + 1) * 2 ^ s : Nat) : ℚ) - (n : ℚ)| = 2 ^ s - (r : ℚ) := by
        rw [hnQ]
        push_cast
        rw [abs_of_nonneg (by linarith)]
        ring
      rw [hR]
      rcases significand_gap q s hq d' hd' with hle | hge
      · have hd : |d' - (n : ℚ)| = (n : ℚ) - d' := by
          rw [abs_of_nonpos (by rw [hnQ]; linarith)]
          ring
        rw [hd]
        refine ⟨by rw [hnQ]; linarith, fun ht _ => ?_⟩
        rw [hnQ] at ht
        have h2e : 2 * (r : ℚ) = 2 ^ s := by linarith
        have h2n : 2 * r = 2 ^ s := by exact_mod_cast h2e
        have hodd := hpar h2n
        have hd'e : d' = (q : ℚ) * 2 ^ s := by linarith
        constructor
        · by_cases hk : (q + 1) / 2 < 2 ^ 52
          · have e1 : (((q + 1) * 2 ^ s : Nat) : ℚ) =
                (((q + 1) / 2 : Nat) : ℚ) * 2 ^ (s + 1) := by
              have e2 : (q + 1) * 2 ^ s = (q + 1) / 2 * 2 ^ (s + 1) := by
                rw [pow_succ]
                have e3 : q + 1 = 2 * ((q + 1) / 2) := by omega
                nlinarith
              rw [e2]
              push_cast
              ring
            rw [e1]
            exact hasSignificandSpec_natCast_mul 52 _ _ hk
          · have he : q + 1 = 2 ^ 53 := by omega
            rw [he]
            push_cast
            have e5 : (9007199254740992 : ℚ) * 2 ^ s = 2 ^ (53 + s) := by
              rw [pow_add]
              norm_num
            rw [e5]
            exact hasSignificandSpec_two_pow 52 _ (by norm_num)
        · rw [hd'e]
          exact not_hasSignificandSpec_odd q s hodd hq
      · have hd : |d' - (n : ℚ)| = d' - (n : ℚ) := by
          rw [abs_of_nonneg (by rw [hnQ]; linarith)]
        rw [hd]
        refine ⟨by rw [hnQ]; linarith, fun ht hne => ?_⟩
        exfalso
        apply hne
        push_cast
        rw [hnQ] at ht
        linarith
  constructor
  · rintro ⟨hd53, hnear⟩
    by_contra hne
    obtain ⟨k1, k2⟩ := key d hd53
    obtain ⟨n1, n2⟩ := hnear _ hR53
    have heq : |((q' * 2 ^ s : Nat) : ℚ) - (n : ℚ)| = |d - (n : ℚ)| := le_antisymm k1 n1
    exact (k2 heq hne).2 (n2 heq.symm (fun h => hne h.symm))
  · intro hd
    rw [hd]
    exact ⟨hR53, fun d' hd' => ⟨(key d' hd').1, fun ht hne => ((key d' hd').2 ht hne).1⟩⟩

/-- A natural number of at most 53 bits is its own double-precision value. -/
theorem isDoubleOfSpec_exact (n : Nat) (hn : n < 2 ^ 53) (d : ℚ) :
    IsDoubleOfSpec (n : ℚ) d ↔ d = (n : ℚ) := by
  have h53 : HasSignificandSpec 53 (n : ℚ) := by
    have h := hasSignificandSpec_natCast_mul 53 n 0 hn
    simpa using h
  constructor
  · rintro ⟨_, hnear⟩
    have h := (hnear _ h53).1
    rw [sub_self, abs_zero] at h
    have h0 : |d - (n : ℚ)| = 0 := le_antisymm h (abs_nonneg _)
    exact sub_eq_zero.1 (abs_eq_zero.1 h0)
  · intro hd
    rw [hd]
    refine ⟨h53, fun d' _ => ?_⟩
    rw [sub_self, abs_zero]
    refine ⟨abs_nonneg _, fun ht hne => ?_⟩
    exact absurd (sub_eq_zero.1 (abs_eq_zero.1 ht.symm)) hne

/-- The function `roundNat53` gives the double-precision value of a natural
number of at most 64 bits, and nothing else is that value. -/
theorem isDoubleOfSpec_roundNat53 (n : Nat) (hn : n < 2 ^ 64) (d : ℚ) :
    IsDoubleOfSpec (n : ℚ) d ↔ d = ((roundNat53 n : Nat) : ℚ) := by
  obtain ⟨hs1, hs2⟩ := excessBits_spec 64 n (lt_of_lt_of_le hn (by norm_num))
  by_cases h0 : excessBits 64 n = 0
  · have hr : roundNat53 n = n := by
      simp only [roundNat53, h0]
      simp
    rw [hr]
    rw [h0, pow_zero, Nat.div_one] at hs1
    exact isDoubleOfSpec_exact n hs1 d
  · have hpos : 0 < excessBits 64 n := Nat.pos_of_ne_zero h0
    have h53 := hs2 hpos
    have hu : 2 ^ excessBits 64 n = 2 * 2 ^ (excessBits 64 n - 1) := by
      rw [← pow_succ']
      congr 1
      omega
    have hupos : 0 < 2 ^ (excessBits 64 n - 1) := Nat.two_pow_pos _
    have hq52 : 2 ^ 52 ≤ n / 2 ^ excessBits 64 n := by
      rw [hu, ← Nat.div_div_eq_div_mul, Nat.div_div_eq_div_mul, Nat.mul_comm,
        ← Nat.div_div_eq_div_mul]
      omega
    have hr : roundNat53 n =
        (if 2 ^ (excessBits 64 n - 1) < n % 2 ^ excessBits 64 n ∨
            (n % 2 ^ excessBits 64 n = 2 ^ (excessBits 64 n - 1) ∧
              n / 2 ^ excessBits 64 n % 2 = 1)
          then n / 2 ^ excessBits 64 n + 1 else n / 2 ^ excessBits 64 n) *
          2 ^ excessBits 64 n := by
      simp only [roundNat53, if_neg h0]
    rw [hr]
    refine isDoubleOfSpec_round n (n / 2 ^ excessBits 64 n) (n % 2 ^ excessBits 64 n)
      (excessBits 64 n) _ ?_ (Nat.mod_lt _ (Nat.two_pow_pos _)) hq52 hs1 ?_ d
    · rw [Nat.mul_comm]
      exact (Nat.div_add_mod n _).symm
    · by_cases hc : 2 ^ (excessBits 64 n - 1) < n % 2 ^ excessBits 64 n ∨
          (n % 2 ^ excessBits 64 n = 2 ^ (excessBits 64 n - 1) ∧
            n / 2 ^ excessBits 64 n % 2 = 1)
      · rw [if_pos hc]
        refine Or.inr ⟨rfl, ?_, ?_⟩
        · rcases hc with hc | hc <;> omega
        · intro h2
          rcases hc with hc | hc <;> omega
      · rw [if_neg hc]
        push_neg at hc
        refine Or.inl ⟨rfl, ?_, ?_⟩
        · omega
        · intro h2
          have h3 := hc.2 (by omega)
          omega

theorem isDoubleOfSpec_neg (x d : ℚ) : IsDoubleOfSpec (-x) (-d) ↔ IsDoubleOfSpec x d := by
  have e : ∀ a b : ℚ, |-a - -b| = |a - b| := by
    intro a b
    rw [neg_sub_neg, abs_sub_comm]
  unfold IsDoubleOfSpec
  rw [hasSignificandSpec_neg, hasSignificandSpec_neg]
  constructor
  · rintro ⟨h1, h2⟩
    refine ⟨h1, fun d' hd' => ?_⟩
    obtain ⟨h3, h4⟩ := h2 (-d') ((hasSignificandSpec_neg 53 d').2 hd')
    rw [e, e] at h3 h4
    exact ⟨h3, fun ht hne => h4 ht (fun h => hne (neg_injective h))⟩
  · rintro ⟨h1, h2⟩
    refine ⟨h1, fun d' hd' => ?_⟩
    obtain ⟨h3, h4⟩ := h2 (-d') ((hasSignificandSpec_neg 53 d').2 hd')
    have e2 : |(-d) - (-x)| = |d - x| := e d x
    have e3 : |d' - (-x)| = |(-d') - x| := by
      rw [← e, neg_neg]
    rw [e2, e3]
    exact ⟨h3, fun ht hne => h4 ht (fun h => hne (by rw [← h, neg_neg]))⟩

/-- The function `float64OfInt` gives the double-precision value of an integer
of at most 64 bits, and nothing else is that value. -/
theorem isDoubleOfSpec_float64OfInt (v : Int) (hv : v.natAbs < 2 ^ 64) (d : ℚ) :
    IsDoubleOfSpec (v : ℚ) d ↔ d = float64OfInt v := by
  have e2 : ((v.natAbs : Nat) : ℚ) = (((v.natAbs : Nat) : Int) : ℚ) := (Int.cast_natCast _).symm
  unfold float64OfInt
  by_cases hneg : v < 0
  · rw [if_pos hneg]
    have hx : (v : ℚ) = -((v.natAbs : Nat) : ℚ) := by
      rw [e2, Int.ofNat_natAbs_of_nonpos (le_of_lt hneg)]
      push_cast
      ring
    rw [hx]
    have h := isDoubleOfSpec_neg ((v.natAbs : Nat) : ℚ) (-d)
    rw [neg_neg] at h
    rw [h, isDoubleOfSpec_roundNat53 _ hv]
    constructor
    · intro h1
      rw [← h1, neg_neg]
    · intro h1
      rw [h1, neg_neg]
  · rw [if_neg hneg]
    have hx : (v : ℚ) = ((v.natAbs : Nat) : ℚ) := by
      rw [e2, Int.natAbs_of_nonneg (not_lt.1 hneg)]
    rw [hx]
    exact isDoubleOfSpec_roundNat53 _ hv d

/-! ## The comparison of basic values -/

/-- An integer of at most 53 bits converts to `float64` exactly. -/
theorem float64OfInt_exact (v : Int) (h : v.natAbs < 2 ^ 53) : float64OfInt v = (v : ℚ) := by
  have he : excessBits 64 v.natAbs = 0 := by
    show (if v.natAbs < 2 ^ 53 then 0 else 1 + excessBits 63 (v.natAbs / 2)) = 0
    rw [if_pos h]
  have hr : roundNat53 v.natAbs = v.natAbs := by
    simp only [roundNat53, he]
    simp
  unfold float64OfInt
  rw [hr]
  have e2 : ((v.natAbs : Nat) : ℚ) = (((v.natAbs : Nat) : Int) : ℚ) := (Int.cast_natCast _).symm
  by_cases hv : v < 0
  · rw [if_pos hv, e2, Int.ofNat_natAbs_of_nonpos (le_of_lt hv)]
    push_cast
    ring
  · rw [if_neg hv, e2, Int.natAbs_of_nonneg (not_lt.1 hv)]

/-- The conversion of a natural number rounds it with `roundNat53`. -/
theorem float64OfInt_natCast (n : Nat) :
    float64OfInt (n : Int) = ((roundNat53 n : Nat) : ℚ) := by
  unfold float64OfInt
  rw [if_neg (not_lt.2 (Int.natCast_nonneg n)), Int.natAbs_ofNat]

/-- Two basic values compare equal exactly when `normalizeNumber` makes them
the same value. -/
theorem cmpBasicJSONVal_eq_iff {a b : Value} (ha : getValType a = valTypeBasic) :
    cmpBasicJSONVal a b = ChangeEqual ↔ normalizeNumber a = normalizeNumber b := by
  unfold cmpBasicJSONVal
  constructor
  · intro h
    by_cases hg : goEq (normalizeNumber a) (normalizeNumber b) = true
    · exact goEq_eq hg
    · rw [if_neg hg] at h
      cases h
  · intro h
    have hg : goEq (normalizeNumber a) (normalizeNumber b) = true := by
      rw [← h]
      exact goEq_normalize_self ha
    rw [if_pos hg]

/-- The result of `normalizeNumber` on a number is the `float64` that the spec
calls its double-precision value. -/
theorem normalizeNumber_iff_doubleValueSpec (g : GoNum) (d : ℚ)
    (hfit : (Value.num g).fits64 = true) :
    normalizeNumber (.num g) = .num (.float64 d) ↔ DoubleValueSpec g d := by
  cases g with
  | int k v =>
    have hv : v.natAbs < 2 ^ 64 := by simpa [Value.fits64] using hfit
    simp only [normalizeNumber, DoubleValueSpec, isDoubleOfSpec_float64OfInt v hv d,
      Value.num.injEq, GoNum.float64.injEq]
    exact eq_comm
  | float32 x =>
    simp only [normalizeNumber, DoubleValueSpec, Value.num.injEq, GoNum.float64.injEq]
    exact eq_comm
  | float64 x =>
    simp only [normalizeNumber, DoubleValueSpec, Value.num.injEq, GoNum.float64.injEq]
    exact eq_comm

theorem normalizeNumber_num (g : GoNum) :
    ∃ x, normalizeNumber (.num g) = .num (.float64 x) := by
  cases g with
  | int k v => exact ⟨_, rfl⟩
  | float32 x => exact ⟨_, rfl⟩
  | float64 x => exact ⟨_, rfl⟩

/-- Two basic values compare equal exactly when they are identical after the
normalization to double precision, in the spec's words. -/
theorem cmpBasicJSONVal_iff_spec {a b : Value} (ha : getValType a = valTypeBasic)
    (hb : getValType b = valTypeBasic) (hau : a ≠ Undefined) (hfa : a.fits64 = true)
    (hfb : b.fits64 = true) :
    cmpBasicJSONVal a b = ChangeEqual ↔ IdenticalAfterNormalizationSpec a b := by
  rw [cmpBasicJSONVal_eq_iff ha]
  cases a with
  | undefined => exact absurd rfl hau
  | arr _ => simp [getValType] at ha
  | obj _ => simp [getValType] at ha
  | null =>
    cases b with
    | arr _ => simp [getValType] at hb
    | obj _ => simp [getValType] at hb
    | num g => cases g <;> simp [normalizeNumber, IdenticalAfterNormalizationSpec]
    | _ => simp [normalizeNumber, IdenticalAfterNormalizationSpec]
  | bool x =>
    cases b with
    | arr _ => simp [getValType] at hb
    | obj _ => simp [getValType] at hb
    | num g => cases g <;> simp [normalizeNumber, IdenticalAfterNormalizationSpec]
    | _ => simp [normalizeNumber, IdenticalAfterNormalizationSpec]
  | str x =>
    cases b with
    | arr _ => simp [getValType] at hb
    | obj _ => simp [getValType] at hb
    | num g => cases g <;> simp [normalizeNumber, IdenticalAfterNormalizationSpec]
    | _ => simp [normalizeNumber, IdenticalAfterNormalizationSpec]
  | num g =>
    cases b with
    | arr _ => simp [getValType] at hb
    | obj _ => simp [getValType] at hb
    | num h =>
      simp only [IdenticalAfterNormalizationSpec]
      obtain ⟨x, hx⟩ := normalizeNumber_num g
      constructor
      · intro he
        exact ⟨x, (normalizeNumber_iff_doubleValueSpec g x hfa).1 hx,
          (normalizeNumber_iff_doubleValueSpec h x hfb).1 (he ▸ hx)⟩
      · rintro ⟨d, h1, h2⟩
        rw [(normalizeNumber_iff_doubleValueSpec g d hfa).2 h1,
          (normalizeNumber_iff_doubleValueSpec h d hfb).2 h2]
    | undefined => cases g <;> simp [normalizeNumber, IdenticalAfterNormalizationSpec]
    | null => cases g <;> simp [normalizeNumber, IdenticalAfterNormalizationSpec]
    | bool _ => cases g <;> simp [normalizeNumber, IdenticalAfterNormalizationSpec]
    | str _ => cases g <;> simp [normalizeNumber, IdenticalAfterNormalizationSpec]

/-- C17: the comparison of basic values. For all basic values `a` and `b`
(null, a bool, a string, or a number of any integer or floating type),
`cmpBasicJSONVal a b` is `ChangeEqual` when `a` and `b` are identical after
every number has been normalized to its double-precision value, and
`ChangeUpdate` otherwise, never `ChangeNew` or `ChangeDelete`, whatever the
order of the two values. Identical after normalization is what
`normalizeNumber` computes and what the spec's words say: the double-precision
value of an integer is the double nearest to it, the even one of two nearest
(so `2 ^ 53 + 1` is `2 ^ 53`, `2 ^ 53 + 3` is `2 ^ 53 + 4`, and `2 ^ 64 - 1` is
`2 ^ 64`); an integer of at most 53 bits of any integer type, the integer 1
among them, and the `float32` 1 compare equal to the `float64` of the same
value, and null compares equal to null. -/
theorem C17_cmpBasicJSONVal (a b : Value) (ha : getValType a = valTypeBasic)
    (hb : getValType b = valTypeBasic) :
    (cmpBasicJSONVal a b = ChangeEqual ↔ normalizeNumber a = normalizeNumber b) ∧
    (normalizeNumber a ≠ normalizeNumber b → cmpBasicJSONVal a b = ChangeUpdate) ∧
    cmpBasicJSONVal a b ≠ ChangeNew ∧ cmpBasicJSONVal a b ≠ ChangeDelete ∧
    cmpBasicJSONVal b a = cmpBasicJSONVal a b ∧
    (a ≠ Undefined → a.fits64 = true → b.fits64 = true →
      (cmpBasicJSONVal a b = ChangeEqual ↔ IdenticalAfterNormalizationSpec a b) ∧
      (¬ IdenticalAfterNormalizationSpec a b → cmpBasicJSONVal a b = ChangeUpdate)) ∧
    (∀ (g : GoNum) (d : ℚ), (Value.num g).fits64 = true →
      (normalizeNumber (.num g) = .num (.float64 d) ↔ DoubleValueSpec g d)) ∧
    (∀ (k : IntKind) (v : Int) (d : ℚ), v.natAbs < 2 ^ 64 →
      (cmpBasicJSONVal (.num (.int k v)) (.num (.float64 d)) = ChangeEqual ↔
        IsDoubleOfSpec (v : ℚ) d)) ∧
    (∀ k : IntKind, cmpBasicJSONVal (.num (.int k 1)) (.num (.float64 1)) = ChangeEqual) ∧
    (∀ (k : IntKind) (v : Int), v.natAbs < 2 ^ 53 →
      cmpBasicJSONVal (.num (.int k v)) (.num (.float64 (v : ℚ))) = ChangeEqual) ∧
    (∀ (k l : IntKind) (v : Int),
      cmpBasicJSONVal (.num (.int k v)) (.num (.int l v)) = ChangeEqual) ∧
    cmpBasicJSONVal (.num (.float32 1)) (.num (.float64 1)) = ChangeEqual ∧
    cmpBasicJSONVal (.num (.int .int64 1)) (.num (.float64 2)) = ChangeUpdate ∧
    cmpBasicJSONVal (.num (.int .int64 (2 ^ 53 + 1))) (.num (.float64 (2 ^ 53))) =
      ChangeEqual ∧
    cmpBasicJSONVal (.num (.int .int64 (2 ^ 53 + 3))) (.num (.float64 (2 ^ 53 + 4))) =
      ChangeEqual ∧
    cmpBasicJSONVal (.num (.int .uint64 (2 ^ 64 - 1))) (.num (.float64 (2 ^ 64))) =
      ChangeEqual ∧
    cmpBasicJSONVal (.num (.int .int64 (2 ^ 53 + 1))) (.num (.int .int64 (2 ^ 53 + 2))) =
      ChangeUpdate ∧
    cmpBasicJSONVal .null .null = ChangeEqual := by
  have hiff := cmpBasicJSONVal_eq_iff (b := b) ha
  have hsmall : ∀ (k : IntKind) (v : Int), v.natAbs < 2 ^ 53 →
      cmpBasicJSONVal (.num (.int k v)) (.num (.float64 (v : ℚ))) = ChangeEqual := by
    intro k v hv
    simp [cmpBasicJSONVal, normalizeNumber, goEq, float64OfInt_exact v hv]
  have r1 : float64OfInt (2 ^ 53 + 1) = 2 ^ 53 := by
    have h := float64OfInt_natCast (2 ^ 53 + 1)
    have hr : roundNat53 (2 ^ 53 + 1) = 2 ^ 53 := by decide
    rw [hr] at h
    exact_mod_cast h
  have r2 : float64OfInt (2 ^ 53 + 3) = 2 ^ 53 + 4 := by
    have h := float64OfInt_natCast (2 ^ 53 + 3)
    have hr : roundNat53 (2 ^ 53 + 3) = 2 ^ 53 + 4 := by decide
    rw [hr] at h
    exact_mod_cast h
  have r3 : float64OfInt (2 ^ 64 - 1) = 2 ^ 64 := by
    have h := float64OfInt_natCast (2 ^ 64 - 1)
    have hr : roundNat53 (2 ^ 64 - 1) = 2 ^ 64 := by decide
    rw [hr] at h
    exact_mod_cast h
  have r4 : float64OfInt (2 ^ 53 + 2) = 2 ^ 53 + 2 := by
    have h := float64OfInt_natCast (2 ^ 53 + 2)
    have hr : roundNat53 (2 ^ 53 + 2) = 2 ^ 53 + 2 := by decide
    rw [hr] at h
    exact_mod_cast h
  refine ⟨hiff, ?_, ?_, ?_, ?_, ?_, ?_, ?_, ?_, hsmall, ?_, ?_, ?_, ?_, ?_, ?_, ?_, ?_⟩
  · intro hne
    rcases cmpBasicJSONVal_cases a b with h | h
    · exact absurd (hiff.1 h) hne
    · exact h
  · rcases cmpBasicJSONVal_cases a b with h | h <;> rw [h] <;> decide
  · rcases cmpBasicJSONVal_cases a b with h | h <;> rw [h] <;> decide
  · unfold cmpBasicJSONVal
    by_cases hg : goEq (normalizeNumber a) (normalizeNumber b) = true
    · have hg2 : goEq (normalizeNumber b) (normalizeNumber a) = true := by
        rw [goEq_eq hg]
        exact goEq_normalize_self hb
      rw [if_pos hg, if_pos hg2]
    · have hg2 : ¬ goEq (normalizeNumber b) (normalizeNumber a) = true := by
        intro h
        apply hg
        rw [← goEq_eq h]
        exact goEq_normalize_self hb
      rw [if_neg hg, if_neg hg2]
  · intro hau hfa hfb
    have hs := cmpBasicJSONVal_iff_spec ha hb hau hfa hfb
    refine ⟨hs, fun hno => ?_⟩
    rcases cmpBasicJSONVal_cases a b with h | h
    · exact absurd (hs.1 h) hno
    · exact h
  · intro g d hfit
    exact normalizeNumber_iff_doubleValueSpec g d hfit
  · intro k v d hv
    rw [cmpBasicJSONVal_eq_iff (a := Value.num (.int k v)) (b := Value.num (.float64 d)) rfl]
    simp only [normalizeNumber, Value.num.injEq, GoNum.float64.injEq,
      isDoubleOfSpec_float64OfInt v hv d]
    exact eq_comm
  · intro k
    have h := hsmall k 1 (by decide)
    simpa using h
  · intro k l v
    simp [cmpBasicJSONVal, normalizeNumber, goEq]
  · simp [cmpBasicJSONVal, normalizeNumber, goEq]
  · have h1 : float64OfInt 1 = 1 := by
      have h := float64OfInt_exact 1 (by decide)
      simpa using h
    simp [cmpBasicJSONVal, normalizeNumber, goEq, h1]
  · rw [cmpBasicJSONVal_eq_iff (a := Value.num (.int .int64 (2 ^ 53 + 1))) rfl]
    show Value.num (.float64 (float64OfInt (2 ^ 53 + 1))) = Value.num (.float64 (2 ^ 53))
    rw [r1]
  · rw [cmpBasicJSONVal_eq_iff (a := Value.num (.int .int64 (2 ^ 53 + 3))) rfl]
    show Value.num (.float64 (float64OfInt (2 ^ 53 + 3))) = Value.num (.float64 (2 ^ 53 + 4))
    rw [r2]
  · rw [cmpBasicJSONVal_eq_iff (a := Value.num (.int .uint64 (2 ^ 64 - 1))) rfl]
    show Value.num (.float64 (float64OfInt (2 ^ 64 - 1))) = Value.num (.float64 (2 ^ 64))
    rw [r3]
  · rcases cmpBasicJSONVal_cases (Value.num (.int .int64 (2 ^ 53 + 1)))
        (Value.num (.int .int64 (2 ^ 53 + 2))) with h | h
    · have h2 := (cmpBasicJSONVal_eq_iff (a := Value.num (.int .int64 (2 ^ 53 + 1))) rfl).1 h
      have h3 : Value.num (.float64 (float64OfInt (2 ^ 53 + 1))) =
          Value.num (.float64 (float64OfInt (2 ^ 53 + 2))) := h2
      rw [r1, r4] at h3
      injection h3 with h3
      injection h3 with h3
      norm_num at h3
    · exact h
  · simp [cmpBasicJSONVal, normalizeNumber, goEq]

theorem C17_cmpBasicJSONVal_witness :
    cmpBasicJSONVal (.str "a") (.str "b") = ChangeUpdate :=
  (C17_cmpBasicJSONVal (.str "a") (.str "b") rfl rfl).2.1
    (by
      intro h
      injection h with h
      exact absurd h (by decide))

end Jsonera
